import Mathlib

/-!
# A verification development for the `cache` repository

Shallow embedding of the Go packages `lru`, `singleflight`, `consistenthash`
and `cache` (the group orchestration of `gocahce.go` and the peer transport of
`http.go`), followed by theorems about them.

Conventions of the embedding

* Go `int`/`int64` quantities are `Int`.  The byte total `useBytes` of the
  store is kept in `int64`: every assignment to it is reduced by `wrap64`.
* Go `error` is `Option Error` (`none` is the `nil` error).
* Mutexes are not modelled: every method is embedded as the sequential
  function it computes while holding its lock.  The one exception is
  `singleflight.Do` under concurrent callers, which is also embedded as a step
  function over its critical sections, run along a schedule.
* A method that can fail to return (a loop that never exits, a wait that is
  never released, a panic) returns in `Option` or `Except Fault`.
* Functions of the Go library (`sort.Search`, `sort.Ints`, `strconv.Itoa`,
  `strings.SplitN`, `url.QueryEscape`, `http.Error`) are modelled where they are
  used; `crc32.ChecksumIEEE` and `proto.Marshal` are parameters.
-/

/-- Go `error` values, identified with their message. -/
abbrev Error := String

/-- Ways in which a call fails to return normally. -/
inductive Fault where
  /-- A Go panic, with its message. -/
  | panic (msg : String)
  /-- The call waits on a `sync.WaitGroup` that no running code releases. -/
  | blocked
  /-- The call loops for ever. -/
  | diverges
  deriving DecidableEq, Repr

/-! ## Package `lru` (src/lru/lru.go) -/

namespace lru

/-- The Go interface `Value`: anything that reports its own length. -/
class Value (V : Type) where
  /-- The method `Len() int`. -/
  Len : V → Int

/-- The Go struct `entry`: what a list element holds. -/
structure entry (V : Type) where
  key : String
  value : V
  deriving DecidableEq, Repr

/-- The Go struct `Cache`.  `ll` is the recency list, front (most recently
used) first.  The index `cache map[string]*list.Element` is not stored: every
method updates it together with `ll`, so a lookup in the index is a lookup of
the key in `ll`.  `OnEvicted` says whether a callback is set, and `evicted`
records, oldest call first, the arguments the callback has been called with. -/
structure Cache (V : Type) where
  maxBytes : Int
  useBytes : Int
  ll : List (entry V)
  OnEvicted : Bool
  evicted : List (entry V)
  deriving DecidableEq, Repr

variable {V : Type} [Value V]

/-- The value that `int64` arithmetic leaves for the exact result `x`: the
representative of `x` modulo `2^64` in the range from `-2^63` to `2^63 - 1`. -/
def wrap64 (x : Int) : Int :=
  (x + 9223372036854775808) % 18446744073709551616 - 9223372036854775808

/-- The Go expression `int64(len(key))`: the number of bytes of the string. -/
def keyLen (key : String) : Int := (key.utf8ByteSize : Int)

/-- The lookup `c.cache[key]`: the element of the list that holds `key`. -/
def lookup (c : Cache V) (key : String) : Option (entry V) :=
  c.ll.find? (fun e => e.key == key)

/-- The list after `c.ll.Remove(element)` for the element holding `key`. -/
def remove (l : List (entry V)) (key : String) : List (entry V) :=
  l.eraseP (fun e => e.key == key)

/-- The constructor `NewCache(maxBytes, onEvicted)`. -/
def NewCache (maxBytes : Int) (onEvicted : Bool) : Cache V :=
  { maxBytes := maxBytes, useBytes := 0, ll := [], OnEvicted := onEvicted, evicted := [] }

/-- The method `Get`: on a hit the element moves to the front of the list and
its value is returned (`some v` stands for `(v, true)`, `none` for
`(nil, false)`). -/
def Get (c : Cache V) (key : String) : Option V × Cache V :=
  match lookup c key with
  | some element => (some element.value, { c with ll := element :: remove c.ll key })
  | none => (none, c)

/-- The method `RemoveOldest`: removes the back element of the list, if there
is one, subtracts its size in `int64` and calls the callback when it is set. -/
def RemoveOldest (c : Cache V) : Cache V :=
  match c.ll.getLast? with
  | some kv =>
    { c with
      ll := c.ll.dropLast
      useBytes := wrap64 (c.useBytes - (keyLen kv.key + Value.Len kv.value))
      evicted := if c.OnEvicted then c.evicted ++ [kv] else c.evicted }
  | none => c

/-- The loop `for c.maxBytes != 0 && c.maxBytes < c.useBytes { c.RemoveOldest() }`
run for at most `fuel + 1` tests of its condition; `none` when the condition
still holds after the last of them. -/
def evictLoop : Nat → Cache V → Option (Cache V)
  | 0, c => if c.maxBytes ≠ 0 ∧ c.maxBytes < c.useBytes then none else some c
  | fuel + 1, c =>
    if c.maxBytes ≠ 0 ∧ c.maxBytes < c.useBytes then evictLoop fuel (RemoveOldest c)
    else some c

/-- The first half of `Add`, before the eviction loop: an existing key is
moved to the front and its value replaced, a new key is pushed at the front;
`useBytes` is adjusted in `int64`. -/
def insert (c : Cache V) (key : String) (value : V) : Cache V :=
  match lookup c key with
  | some kv =>
    { c with
      ll := { kv with value := value } :: remove c.ll key
      useBytes := wrap64 (c.useBytes + (Value.Len value - Value.Len kv.value)) }
  | none =>
    { c with
      ll := { key := key, value := value } :: c.ll
      useBytes := wrap64 (c.useBytes + (keyLen key + Value.Len value)) }

/-- The method `Add`.  The loop gets one test of its condition more than the
list has elements: once the list is empty `RemoveOldest` changes nothing, so a
condition that still holds then holds for ever and `Add` does not return
(`none`); see `evictLoop_fuel_irrelevant`. -/
def Add (c : Cache V) (key : String) (value : V) : Option (Cache V) :=
  let c1 := insert c key value
  evictLoop (c1.ll.length + 1) c1

/-- The method `Len`. -/
def Len (c : Cache V) : Int := (c.ll.length : Int)

/-- The sum over the entries of `len(key) + value.Len()`. -/
def liveBytes (l : List (entry V)) : Int :=
  (l.map (fun e => keyLen e.key + Value.Len e.value)).sum

/-- One call on a store. -/
inductive Op (V : Type) where
  | get (key : String)
  | add (key : String) (value : V)
  | removeOldest

/-- The store after one call; `none` when the call does not return. -/
def step (c : Cache V) : Op V → Option (Cache V)
  | .get key => some (Get c key).2
  | .add key value => Add c key value
  | .removeOldest => some (RemoveOldest c)

/-- The store after a sequence of calls, each made once the previous one has
returned; `none` when one of them does not return. -/
def run (c : Cache V) : List (Op V) → Option (Cache V)
  | [] => some c
  | op :: ops => (step c op).bind (fun c1 => run c1 ops)

/-- The representation invariant of a store: no key is held twice and
`useBytes` is the sum of the sizes of the entries as `int64` holds it. -/
def WF (c : Cache V) : Prop :=
  (c.ll.map (fun e => e.key)).Nodup ∧ c.useBytes = wrap64 (liveBytes c.ll)

end lru

/-! ## Package `singleflight` (src/singleflight/singleflight.go) -/

namespace singleflight

/-- A Go `interface{}` value as the callers of `Do` produce it: `nil`, a
payload of type `α`, or an `error` value stored in the interface. -/
inductive Iface (α : Type) where
  | nil
  | val (a : α)
  | err (e : Error)
  deriving DecidableEq, Repr

/-- The conversion of a Go `error` to `interface{}`: the nil error becomes the
nil interface value. -/
def Iface.ofError {α : Type} : Option Error → Iface α
  | none => .nil
  | some e => .err e

/-- The Go struct `call`.  `done` stands for the wait group `wg`: it is false
from `c.wg.Add(1)` until `c.wg.Done()`. -/
structure call (α : Type) where
  done : Bool
  val : Iface α
  err : Option Error
  deriving DecidableEq, Repr

/-- The Go struct `Group`: the registry `m` of calls, keyed by request key
(the nil map is the empty list). -/
structure Group (α : Type) where
  m : List (String × call α)
  deriving DecidableEq, Repr

/-- The value of `new(call)`. -/
def newCall {α : Type} : call α := { done := true, val := .nil, err := none }

/-- The method `Do`, run by one caller while no other code runs.  `fn` is a
Go closure: it reads and writes a state `σ` outside the registry and may fail
to return.

When the registry holds a record for `key`, the caller waits for it: a record
that is done hands out its `val` and `err`, one that is not done is never
released by anyone, so the caller blocks.  Otherwise a record is published,
`fn` is called, the statement `c.val, c.val = fn()` assigns first the value
and then the error of `fn` to `c.val` (the field `c.err` is not assigned), the
record is marked done and deleted, and `c.val, c.err` is returned. -/
def Do {α σ : Type} (g : Group α) (key : String)
    (fn : σ → Except Fault ((Iface α × Option Error) × σ)) (s : σ) :
    Except Fault ((Iface α × Option Error) × Group α × σ) :=
  match g.m.lookup key with
  | some c =>
    if c.done then .ok ((c.val, c.err), g, s) else .error Fault.blocked
  | none =>
    let c0 : call α := { (newCall : call α) with done := false }
    let g1 : Group α := { m := (key, c0) :: g.m }
    match fn s with
    | .error f => .error f
    | .ok ((v, e), s1) =>
      let c1 : call α := { c0 with val := v }
      let c2 : call α := { c1 with val := Iface.ofError e }
      let c3 : call α := { c2 with done := true }
      let g2 : Group α := { m := g1.m.filter (fun p => p.1 != key) }
      .ok ((c3.val, c3.err), g2, s1)

end singleflight

/-! ## Package `cache` (src/byteview.go, src/peers.go, src/gocahce.go) -/

namespace pb

/-- Modelled from the spec: the generated message `pb.Request`, whose file is
not among the sources (spec section 6: `Request { group: string, key: string }`). -/
structure Request where
  Group : String
  Key : String
  deriving DecidableEq, Repr

/-- Modelled from the spec: the generated message `pb.Response`, whose file is
not among the sources (spec section 6: `Response { value: bytes }`). -/
structure Response where
  Value : List UInt8
  deriving DecidableEq, Repr

end pb

namespace gocache

/-- The Go struct `ByteView`. -/
structure ByteView where
  b : List UInt8
  deriving DecidableEq, Repr

/-- The function `cloneBytes`: a fresh slice with the same bytes. -/
def cloneBytes (b : List UInt8) : List UInt8 := b

/-- The method `ByteView.Len`. -/
def ByteView.Len (v : ByteView) : Int := (v.b.length : Int)

/-- The method `ByteView.ByteSlice`. -/
def ByteView.ByteSlice (v : ByteView) : List UInt8 := cloneBytes v.b

instance : lru.Value ByteView where
  Len := ByteView.Len

/-- Modelled from the spec: the struct `cache` of the main package (the
Concurrent Cache of spec section 4.2), whose file is not among the sources: one
eviction store, allocated on first `add` with `cacheBytes` as its bound and no
eviction callback. -/
structure cache where
  cacheBytes : Int
  lru : Option (lru.Cache ByteView)
  deriving DecidableEq, Repr

/-- Modelled from the spec: the method `cache.add` (spec section 4.2: "Lazily
constructs the underlying store on first `add`"), then `Add` on the store. -/
def cache.add (c : cache) (key : String) (value : ByteView) : Option cache :=
  let store := match c.lru with
    | some l => l
    | none => lru.NewCache c.cacheBytes false
  (lru.Add store key value).map (fun l => { c with lru := some l })

/-- Modelled from the spec: the method `cache.get` (spec section 4.2): a miss
when no store is allocated yet, otherwise `Get` on the store. -/
def cache.get (c : cache) (key : String) : Option ByteView × cache :=
  match c.lru with
  | none => (none, c)
  | some l =>
    match lru.Get l key with
    | (some v, l1) => (some v, { c with lru := some l1 })
    | (none, _) => (none, c)

/-- The interface `PeerGetter`: `Get(in, out)` either fails or fills
`out.Value`. -/
structure PeerGetter where
  Get : pb.Request → Except Error pb.Response

/-- The interface `PeerPicker`: `PickPeer(key)` returns `(peer, true)`
(`some peer`) or `(nil, false)` (`none`), or does not return: the picker of
this repository, `HTTPPool`, panics when it is asked before `Set`. -/
structure PeerPicker where
  PickPeer : String → Except Fault (Option PeerGetter)

/-- The interface `Getter`: the loader callback, `Get(key)` returning bytes or
an error. -/
structure Getter where
  Get : String → Except Error (List UInt8)

/-- What a group does outside its own memory, in the order it happens. -/
inductive Event where
  /-- A call `g.getter.Get(key)`. -/
  | getterGet (key : String)
  /-- A call `g.peers.PickPeer(key)`. -/
  | pickPeer (key : String)
  /-- A call `peer.Get(req, res)`. -/
  | peerGet (req : pb.Request)
  /-- A call `log.Println(msg)`. -/
  | log (msg : String)
  deriving DecidableEq, Repr

/-- The Go struct `Group`, with the record `events` of its outside calls. -/
structure Group where
  name : String
  getter : Getter
  mainCache : cache
  peers : Option PeerPicker
  loader : singleflight.Group ByteView
  events : List Event

/-- The result pair `(ByteView, error)` of the group's methods. -/
abbrev Result := ByteView × Option Error

/-- The function `NewGroup` for a non-nil getter (a nil getter panics), on the
registry `groups` of the package: the new group and the registry with it
stored under its name. -/
def NewGroup (groups : List (String × Group)) (name : String) (cacheBytes : Int)
    (getter : Getter) : Group × List (String × Group) :=
  let g : Group :=
    { name := name, getter := getter,
      mainCache := { cacheBytes := cacheBytes, lru := none },
      peers := none, loader := { m := [] }, events := [] }
  (g, (name, g) :: groups.filter (fun p => p.1 != name))

/-- The method `RegisterPeers`: panics when a picker is already set. -/
def Group.RegisterPeers (g : Group) (peers : PeerPicker) : Except Fault Group :=
  match g.peers with
  | some _ => .error (Fault.panic "注册节点不能重复调用")
  | none => .ok { g with peers := some peers }

/-- The method `populateCache`. -/
def Group.populateCache (g : Group) (key : String) (value : ByteView) : Except Fault Group :=
  match g.mainCache.add key value with
  | some mc => .ok { g with mainCache := mc }
  | none => .error Fault.diverges

/-- The method `getLocally`. -/
def Group.getLocally (g : Group) (key : String) : Except Fault (Result × Group) :=
  let g1 := { g with events := g.events ++ [Event.getterGet key] }
  match g.getter.Get key with
  | .error err => .ok ((ByteView.mk [], some err), g1)
  | .ok bytes =>
    let value := ByteView.mk (cloneBytes bytes)
    match g1.populateCache key value with
    | .error f => .error f
    | .ok g2 => .ok ((value, none), g2)

/-- The method `getFromPeer`. -/
def Group.getFromPeer (g : Group) (peer : PeerGetter) (key : String) : Result × Group :=
  let req : pb.Request := { Group := g.name, Key := key }
  let g1 := { g with events := g.events ++ [Event.peerGet req] }
  match peer.Get req with
  | .error err => ((ByteView.mk [], some err), g1)
  | .ok res => ((ByteView.mk res.Value, none), g1)

/-- The closure that `load` passes to `Do`.  Its state is the group together
with the named results `value` and `err` of `load`, which the statement
`value, err = g.getFromPeer(peer, key)` assigns. -/
def Group.loadFn (key : String) :
    Group × Result → Except Fault ((singleflight.Iface ByteView × Option Error) × (Group × Result))
  | (g, named) =>
    let getLocally := fun (g0 : Group) (named0 : Result) =>
      match g0.getLocally key with
      | .error f => .error f
      | .ok ((v, e), g1) => .ok ((singleflight.Iface.val v, e), (g1, named0))
    match g.peers with
    | none => getLocally g named
    | some peers =>
      let g1 := { g with events := g.events ++ [Event.pickPeer key] }
      match peers.PickPeer key with
      | .error f => .error f
      | .ok none => getLocally g1 named
      | .ok (some peer) =>
        match g1.getFromPeer peer key with
        | ((value, err), g2) =>
          if err ≠ none then
            .ok ((singleflight.Iface.val value, none), (g2, (value, err)))
          else
            let g3 := { g2 with events := g2.events ++ [Event.log "没有选择到正确的节点"] }
            getLocally g3 (value, err)

/-- The method `load`.  The named results start as `(ByteView{}, nil)`; the
short declaration `res, err := g.loader.Do(...)` assigns the named result
`err`; `res.(ByteView)` panics unless `res` holds a `ByteView`; the bare
`return` hands out the named results. -/
def Group.load (g : Group) (key : String) : Except Fault (Result × Group) :=
  match singleflight.Do g.loader key (Group.loadFn key) (g, (ByteView.mk [], none)) with
  | .error f => .error f
  | .ok ((res, err), sf, (g1, (value, _))) =>
    let g2 := { g1 with loader := sf }
    if err ≠ none then
      match res with
      | .val v => .ok ((v, none), g2)
      | _ => .error (Fault.panic "interface conversion")
    else .ok ((value, err), g2)

/-- The method `Get`. -/
def Group.Get (g : Group) (key : String) : Except Fault (Result × Group) :=
  if key = "" then .ok ((ByteView.mk [], some "key不能为空"), g)
  else
    match g.mainCache.get key with
    | (some value, mc) => .ok ((value, none), { g with mainCache := mc })
    | (none, _) => g.load key

end gocache

namespace gocache

/-- The state of the wrapper `cache` between two calls: its store, once
allocated, is well formed and has `cacheBytes` as its bound. -/
def cache.Inv (c : cache) : Prop :=
  ∀ l, c.lru = some l → lru.WF l ∧ l.maxBytes = c.cacheBytes

/-- The state of a group between two calls: no call is in flight in the
registry of `loader`, and `mainCache` is in the state `cache.Inv`. -/
def Group.Inv (g : Group) : Prop :=
  g.loader.m = [] ∧ g.mainCache.Inv

end gocache

/-! ## Sample inputs -/

namespace lru

/-- A sample value for the store: `n` zero bytes. -/
def sampleValue (n : Nat) : gocache.ByteView := { b := List.replicate n 0 }

/-- A sample sequence of calls: two new keys, a hit, an update of a live key,
an eviction by hand and a miss. -/
def sampleOps : List (Op gocache.ByteView) :=
  [.add "a" (sampleValue 3), .add "b" (sampleValue 4), .get "a",
   .add "b" (sampleValue 2), .removeOldest, .get "zz"]

end lru

namespace singleflight

/-- A sample closure for `Do`: it counts its calls in the state and returns
the pair `(v, e)`. -/
def countingFn (v : Iface Nat) (e : Option Error) :
    Nat → Except Fault ((Iface Nat × Option Error) × Nat) :=
  fun calls => .ok ((v, e), calls + 1)

end singleflight

namespace gocache

/-- The Go conversion `[]byte(s)`: the UTF-8 bytes of a string. -/
def bytesOf (s : String) : List UInt8 := s.data.flatMap String.utf8EncodeChar

/-- A sample loader: it returns `"value-" + key`. -/
def valueLoader : Getter := { Get := fun key => .ok (bytesOf ("value-" ++ key)) }

/-- A sample loader that fails on every key. -/
def failingLoader : Getter := { Get := fun _ => .error "source unavailable" }

/-- A sample remote peer whose fetch succeeds with `"remote-" + key`. -/
def remotePeer : PeerGetter :=
  { Get := fun req => .ok { Value := bytesOf ("remote-" ++ req.Key) } }

/-- A sample remote peer whose fetch fails. -/
def downPeer : PeerGetter := { Get := fun _ => .error "peer unreachable" }

/-- A sample picker that selects the given remote peer for every key. -/
def pickAlways (peer : PeerGetter) : PeerPicker := { PickPeer := fun _ => .ok (some peer) }

/-- A sample group: `NewGroup("scores", 2048, getter)` on an empty registry. -/
def sampleGroup (getter : Getter) : Group := (NewGroup [] "scores" 2048 getter).1

/-- The sample group after `RegisterPeers(pickAlways(peer))`. -/
def sampleGroupWithPeer (getter : Getter) (peer : PeerGetter) : Group :=
  { sampleGroup getter with peers := some (pickAlways peer) }

end gocache

/-! ## Package `consistenthash` (src/consistenthash/consistenthash.go) -/

namespace consistenthash

/-- The Go type `Hash`: a function from bytes to `uint32`. -/
abbrev Hash := List UInt8 → UInt32

/-- The Go struct `Map`.  The ring `keys` is a slice of `int`; the map
`hashMap` is the list of its assignments, latest first, so that the first
pair found for a position is the value the Go map holds for it. -/
structure Map where
  hash : Hash
  replicas : Int
  keys : List Int
  hashMap : List (Int × String)

/-- The function `NewMap(replicas, fn...)`.  The library checksum
`crc32.ChecksumIEEE` that it falls back on is a parameter. -/
def NewMap (ChecksumIEEE : Hash) (replicas : Int) (fn : List Hash) : Map :=
  { hash := match fn with
      | [] => ChecksumIEEE
      | f :: _ => f
    replicas := replicas, keys := [], hashMap := [] }

/-- The library function `strconv.Itoa` on the loop index. -/
def Itoa (i : Nat) : String := toString i

/-- The Go expression `int(m.hash([]byte(s)))`, with `int` of 64 bits. -/
def Map.position (m : Map) (s : String) : Int :=
  ((m.hash (gocache.bytesOf s)).toNat : Int)

/-- One round of the inner loop of `Add`: the position of virtual node `i` of
`key` is appended to the ring and assigned to `key` in the map. -/
def Map.addReplica (key : String) (m : Map) (i : Nat) : Map :=
  let hash := m.position (Itoa i ++ key)
  { m with keys := m.keys ++ [hash], hashMap := (hash, key) :: m.hashMap }

/-- The inner loop of `Add`, `for i := 0; i < m.replicas; i++`. -/
def Map.addNode (m : Map) (key : String) : Map :=
  (List.range m.replicas.toNat).foldl (Map.addReplica key) m

/-- The method `Add(keys...)`: both loops, then `sort.Ints(m.keys)`. -/
def Map.Add (m : Map) (keys : List String) : Map :=
  let m1 := keys.foldl Map.addNode m
  { m1 with keys := m1.keys.insertionSort (fun a b => a ≤ b) }

/-- The loop of the library function `sort.Search`: `i` and `j` close in on
the least index at which `f` holds, `h` being their midpoint.  `fuel` bounds
the number of rounds. -/
def searchLoop (f : Nat → Bool) : Nat → Nat → Nat → Nat
  | 0, i, _ => i
  | fuel + 1, i, j =>
    if i < j then
      let h := (i + j) / 2
      if !f h then searchLoop f fuel (h + 1) j else searchLoop f fuel i h
    else i

/-- The library function `sort.Search(n, f)`.  Every round shrinks `j - i`,
which starts as `n`, so `n` rounds are enough for the loop to exit. -/
def Search (n : Nat) (f : Nat → Bool) : Nat := searchLoop f n 0 n

/-- The method `Get`. -/
def Map.Get (m : Map) (key : String) : String :=
  if m.keys.length = 0 then ""
  else
    let hash := m.position key
    let idx := Search m.keys.length (fun i => decide (m.keys.getD i 0 ≥ hash))
    (m.hashMap.lookup (m.keys.getD (idx % m.keys.length) 0)).getD ""

/-- The ring position that answers for a hash: the least position that is not
below the hash, or the least position of all when every position is below
it. -/
def IsOwnerPos (keys : List Int) (hash p : Int) : Prop :=
  p ∈ keys ∧
  ((hash ≤ p ∧ ∀ q ∈ keys, hash ≤ q → p ≤ q) ∨
   ((∀ q ∈ keys, q < hash) ∧ ∀ q ∈ keys, p ≤ q))

/-- The ring `m1` is the ring `m` with further virtual nodes of the nodes in
`nodes`: same hash function and replica count, the assignments `added` put in
front of the map, and their positions joined to the ring. -/
def Map.Extends (nodes : List String) (m m1 : Map) : Prop :=
  m1.hash = m.hash ∧ m1.replicas = m.replicas ∧
  ∃ added : List (Int × String), m1.hashMap = added ++ m.hashMap ∧
    (∀ p, p ∈ m1.keys ↔ p ∈ m.keys ∨ p ∈ added.map Prod.fst) ∧
    ∀ x ∈ added, x.2 ∈ nodes

/-- The rings that the package can produce: `NewMap` followed by any sequence
of `Add` calls. -/
def Map.build (ChecksumIEEE : Hash) (replicas : Int) (fn : List Hash)
    (adds : List (List String)) : Map :=
  adds.foldl Map.Add (NewMap ChecksumIEEE replicas fn)

end consistenthash

/-! ## Package `cache`, peer transport (src/http.go) -/

deriving instance DecidableEq for Except

namespace gocache

/-- The constant `defaultBasePath`. -/
def defaultBasePath : String := "/_gocache/"

/-- The constant `defaultReplicas`. -/
def defaultReplicas : Int := 50

/-- The Go struct `httpGetter`. -/
structure httpGetter where
  bashUrl : String
  deriving DecidableEq, Repr

/-- The Go struct `HTTPPool`.  `peers` is `none` while the pointer is nil,
that is until `Set`; `httpGetters` is the list of the assignments to the map,
latest first. -/
structure HTTPPool where
  self : String
  basePath : String
  peers : Option consistenthash.Map
  httpGetters : List (String × httpGetter)

/-- The function `NewHTTPPool(self, basePath...)`. -/
def NewHTTPPool (self : String) (basePath : List String) : HTTPPool :=
  { self := self
    basePath := match basePath with
      | [] => defaultBasePath
      | p :: _ => p
    peers := none, httpGetters := [] }

/-- The method `Set(peers...)`, with the library checksum as a parameter. -/
def HTTPPool.Set (ChecksumIEEE : consistenthash.Hash) (h : HTTPPool) (peers : List String) :
    HTTPPool :=
  { h with
    peers := some ((consistenthash.NewMap ChecksumIEEE defaultReplicas []).Add peers)
    httpGetters :=
      peers.foldl (fun getters peer => (peer, { bashUrl := peer ++ h.basePath }) :: getters) [] }

/-- The method `PickPeer`.  The result `some client` stands for
`(client, true)`, where `client` is what the map `httpGetters` holds for the
peer (`none` for a nil pointer), and `none` for `(nil, false)`.  Calling it
before `Set` dereferences the nil ring.  Logging is left out. -/
def HTTPPool.PickPeer (h : HTTPPool) (key : String) :
    Except Fault (Option (Option httpGetter)) :=
  match h.peers with
  | none => .error (Fault.panic "nil pointer dereference")
  | some ring =>
    let peer := ring.Get key
    if peer ≠ "" ∧ peer ≠ h.self then .ok (some (h.httpGetters.lookup peer))
    else .ok none

/-- The pool as the `PeerPicker` that `RegisterPeers` is given.  The HTTP
exchange of a client, `httpGetter.Get`, is the parameter `fetch`.  A nil
client returned as `(nil, true)` is dereferenced by the `peer.Get` that `load`
calls next (`h.bashUrl`), so its fault is reported at the pick. -/
def HTTPPool.asPeerPicker (fetch : httpGetter → pb.Request → Except Error pb.Response)
    (h : HTTPPool) : PeerPicker :=
  { PickPeer := fun key =>
      match h.PickPeer key with
      | .error f => .error f
      | .ok none => .ok none
      | .ok (some none) => .error (Fault.panic "nil pointer dereference")
      | .ok (some (some client)) => .ok (some { Get := fetch client }) }

/-- One character of the library function `url.QueryEscape`: letters, digits
and `-`, `_`, `.`, `~` stay, a space becomes `+`, every other byte becomes
`%XX`. -/
def escapeChar (c : Char) : List Char :=
  if c.isAlphanum || c == '-' || c == '_' || c == '.' || c == '~' then [c]
  else if c == ' ' then ['+']
  else (String.utf8EncodeChar c).flatMap (fun b =>
    ['%', "0123456789ABCDEF".data.getD (b.toNat / 16) '0',
          "0123456789ABCDEF".data.getD (b.toNat % 16) '0'])

/-- The library function `url.QueryEscape`. -/
def QueryEscape (s : String) : String := String.mk (s.data.flatMap escapeChar)

/-- The URL that `httpGetter.Get` requests:
`fmt.Sprintf("%v/%v/%v", h.bashUrl, url.QueryEscape(group), url.QueryEscape(key))`. -/
def httpGetter.requestURL (h : httpGetter) (req : pb.Request) : String :=
  h.bashUrl ++ "/" ++ QueryEscape req.Group ++ "/" ++ QueryEscape req.Key

/-- The characters of a URL after its scheme separator `://`. -/
def afterScheme : List Char → List Char
  | [] => []
  | c :: rest =>
    match c, rest with
    | ':', '/' :: '/' :: tail => tail
    | _, _ => afterScheme rest

/-- The path of an absolute URL without query: what follows the host, from
the first `/` after the scheme separator.  This is the `r.URL.Path` that the
server sees for a path without escapes. -/
def urlPath (url : String) : String :=
  String.mk ((afterScheme url.data).dropWhile (fun c => c != '/'))

/-- The library call `strings.SplitN(s, "/", 2)`: `s` alone when it holds no
`/`, otherwise the text before the first `/` and the text after it. -/
def SplitN2 : List Char → List (List Char)
  | [] => [[]]
  | c :: rest =>
    if c = '/' then [[], rest]
    else
      match SplitN2 rest with
      | [first, second] => [c :: first, second]
      | _ => [c :: rest]

/-- What a handler has written to its `http.ResponseWriter`: the status, the
`Content-Type` header and the body. -/
structure HTTPResponse where
  status : Nat
  contentType : String
  body : List UInt8
  deriving DecidableEq, Repr

/-- The library function `http.Error(w, msg, code)`. -/
def httpError (msg : String) (code : Nat) : HTTPResponse :=
  { status := code, contentType := "text/plain; charset=utf-8", body := bytesOf msg ++ [10] }

/-- The function `GetGroup`: the group the registry holds under `name`, `none`
for nil. -/
def GetGroup (groups : List (String × Group)) (name : String) : Option Group :=
  groups.lookup name

/-- The registry after the group stored under `name` has changed state. -/
def setGroup (groups : List (String × Group)) (name : String) (g : Group) :
    List (String × Group) :=
  groups.map (fun p => if p.1 = name then (p.1, g) else p)

/-- The method `ServeHTTP` on a request with the given `r.URL.Path`; logging is
left out.  The registry `groups` of the package is passed in and handed back,
and the library function `proto.Marshal` is a parameter.  A path without the
prefix `basePath` panics. -/
def HTTPPool.ServeHTTP (Marshal : pb.Response → Except Error (List UInt8)) (h : HTTPPool)
    (groups : List (String × Group)) (path : String) :
    Except Fault (HTTPResponse × List (String × Group)) :=
  if !(h.basePath.data.isPrefixOf path.data) then
    .error (Fault.panic ("错误路径: " ++ path))
  else
    match SplitN2 (path.data.drop h.basePath.data.length) with
    | [groupName, key] =>
      match GetGroup groups (String.mk groupName) with
      | none =>
        .ok (httpError ("没有该group: " ++ String.mk groupName) 404, groups)
      | some group =>
        match group.Get (String.mk key) with
        | .error f => .error f
        | .ok ((view, err), group1) =>
          let groups1 := setGroup groups (String.mk groupName) group1
          match err with
          | some e => .ok (httpError e 500, groups1)
          | none =>
            match Marshal { Value := view.ByteSlice } with
            | .error e => .ok (httpError e 500, groups1)
            | .ok body =>
              .ok ({ status := 200, contentType := "application/octet-stream", body := body },
                groups1)
    | _ => .ok (httpError "错误请求" 400, groups)

end gocache

/-! ## Sample inputs for the ring, the store and the peer transport -/

namespace lru

/-- A sample value type whose `Len` method reports the number it carries,
whatever that number is. -/
structure reportedLen where
  n : Int
  deriving DecidableEq, Repr

instance : Value reportedLen where
  Len := fun v => v.n

end lru

namespace consistenthash

/-- A sample hash function: the sum of the bytes. -/
def sumHash : Hash :=
  fun b => (b.foldl (fun (acc : Nat) (x : UInt8) => acc + x.toNat) 0).toUInt32

end consistenthash

namespace gocache

/-- A sample marshaller: the bytes of the value as they are. -/
def rawMarshal : pb.Response → Except Error (List UInt8) := fun r => .ok r.Value

/-- A sample pool: node `http://localhost:8001` with the default base path and
two peers, itself and `http://localhost:8002`, under the sample hash. -/
def samplePool : HTTPPool :=
  (NewHTTPPool "http://localhost:8001" []).Set consistenthash.sumHash
    ["http://localhost:8001", "http://localhost:8002"]

/-- A sample registry: the one group `scores` with the sample loader. -/
def sampleGroups : List (String × Group) := (NewGroup [] "scores" 2048 valueLoader).2

/-- A sample HTTP exchange: no peer can be reached. -/
def refusedFetch : httpGetter → pb.Request → Except Error pb.Response :=
  fun _ _ => .error "connection refused"

/-- A sample registry: the one group `scores` with the sample loader, after
`RegisterPeers` of a new pool on which `Set` has not been called. -/
def unsetPoolGroups : List (String × Group) :=
  [("scores", { sampleGroup valueLoader with
      peers := some ((NewHTTPPool "http://localhost:8001" []).asPeerPicker refusedFetch) })]

end gocache

/-! ## Package `singleflight`, concurrent callers of `Do`

Several goroutines call `Do` on one `Group`.  Between its synchronisation
points a caller runs one of four sections of `Do`; the sections of different
callers are interleaved by a schedule, a list of caller numbers.  The records
`*call` live in a heap, a list in which a pointer is a position. -/

namespace singleflight

/-- Where a caller of `Do` stands: before `g.mu.Lock()` (`start`); at
`c.wg.Wait()` on the record `c` it found (`waiting`); after it has published
its own record `c` and before `fn()` (`running`); after `c.wg.Done()` and
before the second `g.mu.Lock()` (`ranFn`); after `return` (`returned`); or
stopped by a `fn` that did not return (`faulted`). -/
inductive Caller (α : Type) where
  | start
  | waiting (c : Nat)
  | running (c : Nat)
  | ranFn (c : Nat)
  | returned (val : Iface α) (err : Option Error)
  | faulted (f : Fault)
  deriving DecidableEq, Repr

/-- One `Group` with its callers: the registry `m` from keys to pointers, the
heap `calls` of records, the state `world` that the closures `fn` read and
write, and where each caller stands.  Two fields only record what happened:
`fnRuns` lists the callers that called `fn`, in order, and `deletes` counts
the executions of `delete(g.m, key)`. -/
structure Flight (α σ : Type) where
  m : List (String × Nat)
  calls : List (call α)
  world : σ
  callers : Nat → Caller α
  fnRuns : List Nat
  deletes : Nat

/-- A new `Group` (nil map, no record allocated) with every caller before its
call of `Do`. -/
def Flight.init {α σ : Type} (w : σ) : Flight α σ :=
  { m := [], calls := [], world := w, callers := fun _ => .start, fnRuns := [], deletes := 0 }

/-- One section of `Do`, run by caller `i`, whose call is `Do(key, fn)` for the
pair `(key, fn)` at position `i` of `progs`.

From `start`: under `g.mu`, a record found under `key` is waited for;
otherwise `new(call)` is allocated with `c.wg.Add(1)` and stored under `key`.
From `waiting`: `c.wg.Wait()` returns only once the record is done, and then
`c.val, c.err` is returned; until then the caller stays.  From `running`:
`fn()` is called, `c.val, c.val = fn()` assigns to `c.val` the value and then
the error of `fn`, and `c.wg.Done()` marks the record done; a `fn` that does
not return stops the caller.  From `ranFn`: under `g.mu`, `delete(g.m, key)`,
then `c.val, c.err` is returned.  The record behind the pointer `c` is
`s.calls.getD c newCall`; every pointer a caller holds is a position of the
heap. -/
def stepDo {α σ : Type}
    (progs : List (String × (σ → Except Fault ((Iface α × Option Error) × σ))))
    (i : Nat) (s : Flight α σ) : Flight α σ :=
  match progs[i]? with
  | none => s
  | some (key, fn) =>
    match s.callers i with
    | .start =>
      match s.m.lookup key with
      | some c => { s with callers := Function.update s.callers i (.waiting c) }
      | none =>
        { s with
          calls := s.calls ++ [{ (newCall : call α) with done := false }]
          m := (key, s.calls.length) :: s.m
          callers := Function.update s.callers i (.running s.calls.length) }
    | .waiting c =>
      let r := s.calls.getD c newCall
      if r.done then { s with callers := Function.update s.callers i (.returned r.val r.err) }
      else s
    | .running c =>
      match fn s.world with
      | .error f =>
        { s with
          callers := Function.update s.callers i (.faulted f)
          fnRuns := s.fnRuns ++ [i] }
      | .ok ((v, e), w1) =>
        let r := s.calls.getD c newCall
        let r1 : call α := { r with val := v }
        let r2 : call α := { r1 with val := Iface.ofError e }
        let r3 : call α := { r2 with done := true }
        { s with
          world := w1
          calls := s.calls.set c r3
          callers := Function.update s.callers i (.ranFn c)
          fnRuns := s.fnRuns ++ [i] }
    | .ranFn c =>
      let r := s.calls.getD c newCall
      { s with
        m := s.m.filter (fun p => p.1 != key)
        callers := Function.update s.callers i (.returned r.val r.err)
        deletes := s.deletes + 1 }
    | .returned _ _ => s
    | .faulted _ => s

/-- The sections of `Do` run in the order of the schedule. -/
def runSchedule {α σ : Type}
    (progs : List (String × (σ → Except Fault ((Iface α × Option Error) × σ))))
    (s : Flight α σ) (sched : List Nat) : Flight α σ :=
  sched.foldl (fun s i => stepDo progs i s) s

/-- Every call of the schedule overlaps the execution in flight: a caller
enters `Do` (takes its step from `start`) only while no record has been
deleted from the registry. -/
def overlapping {α σ : Type}
    (progs : List (String × (σ → Except Fault ((Iface α × Option Error) × σ)))) :
    Flight α σ → List Nat → Bool
  | _, [] => true
  | s, i :: rest =>
    (match progs[i]?, s.callers i with
      | some _, .start => s.deletes == 0
      | _, _ => true) &&
    overlapping progs (stepDo progs i s) rest

/-- What the state of the callers of one key `k` satisfies for a caller, when
`r` is the one record of the heap. -/
def Caller.sameKeyOk {α : Type} (r : call α) (fnRuns : List Nat) : Caller α → Prop
  | .start => True
  | .waiting c => c = 0
  | .running c => c = 0 ∧ r.done = false ∧ fnRuns = []
  | .ranFn c => c = 0 ∧ r.done = true
  | .returned v e => r.done = true ∧ v = r.val ∧ e = r.err
  | .faulted _ => True

/-- The states that callers of one key `k` reach while every call overlaps the
execution in flight: either nothing has happened, or the heap holds one
record, which the registry holds under `k` until it is deleted, `fn` has run
once exactly when the record is done, one caller at most is about to call
`fn`, and every caller that has returned has returned the fields of that
record. -/
def SameKeyInv {α σ : Type} (k : String) (s : Flight α σ) : Prop :=
  (s.calls = [] ∧ s.m = [] ∧ s.fnRuns = [] ∧ s.deletes = 0 ∧ ∀ i, s.callers i = .start) ∨
  (∃ r : call α, s.calls = [r] ∧
    (s.deletes = 0 → s.m = [(k, 0)]) ∧
    s.fnRuns.length ≤ 1 ∧
    (r.done = true → s.fnRuns.length = 1) ∧
    (r.done = false → s.deletes = 0) ∧
    (∀ i j ci cj, s.callers i = .running ci → s.callers j = .running cj → i = j) ∧
    (∀ i, (s.callers i).sameKeyOk r s.fnRuns))

/-- What the state of callers with distinct keys satisfies for a caller that
has called `fn` `count` times, `free` saying that the registry holds no
record under its key. -/
def Caller.distinctOk {α : Type} (count : Nat) (free : Prop) : Caller α → Prop
  | .start => count = 0 ∧ free
  | .waiting _ => False
  | .running _ => count = 0
  | .ranFn _ => count = 1
  | .returned _ _ => count = 1
  | .faulted _ => count = 1

/-- The states that callers with distinct keys reach: only callers of `progs`
have called `fn`, nobody waits, and a caller has called `fn` once as soon as it
is past `fn()`, and not before. -/
def DistinctKeyInv {α σ : Type}
    (progs : List (String × (σ → Except Fault ((Iface α × Option Error) × σ))))
    (s : Flight α σ) : Prop :=
  (∀ j ∈ s.fnRuns, j < progs.length) ∧
  ∀ i, (s.callers i).distinctOk (s.fnRuns.count i)
    (∀ key fn, progs[i]? = some (key, fn) → s.m.lookup key = none)

/-- Three sample callers of `Do("k", fn)` whose `fn` counts its calls in the
shared state and returns `(7, nil)`. -/
def sameKeyCallers : List (String × (Nat → Except Fault ((Iface Nat × Option Error) × Nat))) :=
  [("k", countingFn (.val 7) none), ("k", countingFn (.val 7) none),
   ("k", countingFn (.val 7) none)]

/-- Three sample callers of `Do` with the keys `a`, `b` and `c`. -/
def distinctKeyCallers :
    List (String × (Nat → Except Fault ((Iface Nat × Option Error) × Nat))) :=
  [("a", countingFn (.val 7) none), ("b", countingFn (.val 8) none),
   ("c", countingFn (.val 9) none)]

end singleflight
/-! ## Theorems about package `lru` -/

set_option linter.unusedSectionVars false

namespace lru

variable {V : Type} [Value V]

theorem wrap64_of_range (x : Int) (h1 : -9223372036854775808 ≤ x)
    (h2 : x < 9223372036854775808) : wrap64 x = x := by
  unfold wrap64; omega

theorem wrap64_zero : wrap64 0 = 0 := by decide

theorem wrap64_lt (x : Int) : wrap64 x < 9223372036854775808 := by
  unfold wrap64; omega

theorem wrap64_ge (x : Int) : -9223372036854775808 ≤ wrap64 x := by
  unfold wrap64; omega

theorem wrap64_add_wrap (a b : Int) : wrap64 (wrap64 a + b) = wrap64 (a + b) := by
  unfold wrap64; omega

theorem wrap64_sub_wrap (a b : Int) : wrap64 (wrap64 a - b) = wrap64 (a - b) := by
  unfold wrap64; omega

/-- A size that is within the bound, or any size under the bound 0, does not
satisfy the loop condition, even when it is held in `int64`. -/
theorem fits_of_le (m s : Int) (h : m = 0 ∨ s ≤ m) (hs : -9223372036854775808 ≤ s) :
    ¬ (m ≠ 0 ∧ m < wrap64 s) := by
  unfold wrap64; omega

theorem liveBytes_cons (e : entry V) (l : List (entry V)) :
    liveBytes (e :: l) = (keyLen e.key + Value.Len e.value) + liveBytes l := by
  simp [liveBytes]

theorem liveBytes_append (l1 l2 : List (entry V)) :
    liveBytes (l1 ++ l2) = liveBytes l1 + liveBytes l2 := by
  simp [liveBytes]

theorem RemoveOldest_nil (c : Cache V) (h : c.ll = []) : RemoveOldest c = c := by
  simp [RemoveOldest, h]

theorem RemoveOldest_concat (c : Cache V) (l : List (entry V)) (x : entry V)
    (h : c.ll = l ++ [x]) :
    RemoveOldest c =
      { c with
        ll := l
        useBytes := wrap64 (c.useBytes - (keyLen x.key + Value.Len x.value))
        evicted := if c.OnEvicted then c.evicted ++ [x] else c.evicted } := by
  simp [RemoveOldest, h]

/-- On an empty list the loop either exits at once or never. -/
theorem evictLoop_nil (c : Cache V) (h : c.ll = []) (n : Nat) :
    evictLoop n c = if c.maxBytes ≠ 0 ∧ c.maxBytes < c.useBytes then none else some c := by
  induction n with
  | zero => simp [evictLoop]
  | succ n ih =>
    by_cases hc : c.maxBytes ≠ 0 ∧ c.maxBytes < c.useBytes
    · simp only [evictLoop, if_pos hc, RemoveOldest_nil c h]
      rw [ih, if_pos hc]
    · simp only [evictLoop, if_neg hc]

theorem evictLoop_succ (n : Nat) : ∀ c : Cache V, c.ll.length ≤ n →
    evictLoop (n + 1) c = evictLoop n c := by
  induction n with
  | zero =>
    intro c hlen
    have h : c.ll = [] := List.length_eq_zero.mp (Nat.le_zero.mp hlen)
    rw [evictLoop_nil c h, evictLoop_nil c h]
  | succ n ih =>
    intro c hlen
    by_cases hc : c.maxBytes ≠ 0 ∧ c.maxBytes < c.useBytes
    · rw [evictLoop, if_pos hc]
      conv_rhs => rw [evictLoop, if_pos hc]
      apply ih
      rcases List.eq_nil_or_concat c.ll with h | ⟨l, x, h⟩
      · rw [RemoveOldest_nil c h, h]; simp
      · rw [List.concat_eq_append] at h
        rw [RemoveOldest_concat c l x h]
        simp only
        rw [h] at hlen
        simp at hlen
        omega
    · rw [evictLoop, if_neg hc]
      conv_rhs => rw [evictLoop, if_neg hc]

/-- More fuel than `Add` gives the loop never changes what the loop returns,
so `none` from `Add` means that the loop does not exit. -/
theorem evictLoop_fuel_irrelevant (c : Cache V) (n : Nat) (h : c.ll.length + 1 ≤ n) :
    evictLoop n c = evictLoop (c.ll.length + 1) c := by
  induction n with
  | zero => omega
  | succ n ih =>
    by_cases hn : c.ll.length + 1 ≤ n
    · rw [evictLoop_succ n c (by omega), ih hn]
    · have : n = c.ll.length := by omega
      rw [this]

theorem lookup_key {c : Cache V} {key : String} {kv : entry V} (h : lookup c key = some kv) :
    kv.key = key := by
  have := List.find?_some h
  simpa using this

theorem lookup_mem {c : Cache V} {key : String} {kv : entry V} (h : lookup c key = some kv) :
    kv ∈ c.ll :=
  List.mem_of_find?_eq_some h

theorem lookup_none {c : Cache V} {key : String} (h : lookup c key = none) :
    ∀ e ∈ c.ll, e.key ≠ key := by
  intro e he
  have := List.find?_eq_none.mp h e he
  simpa using this

theorem remove_of_absent (l : List (entry V)) (key : String) (h : ∀ e ∈ l, e.key ≠ key) :
    remove l key = l := by
  apply List.eraseP_of_forall_not
  intro e he
  simpa using h e he

theorem filter_of_absent (l : List (entry V)) (key : String) (h : ∀ e ∈ l, e.key ≠ key) :
    l.filter (fun e => e.key != key) = l := by
  apply List.filter_eq_self.mpr
  intro e he
  simpa using h e he

theorem remove_eq_filter (l : List (entry V)) (key : String)
    (hnd : (l.map (fun e => e.key)).Nodup) :
    remove l key = l.filter (fun e => e.key != key) := by
  induction l with
  | nil => rfl
  | cons e t ih =>
    simp only [List.map_cons, List.nodup_cons] at hnd
    by_cases hk : e.key = key
    · have habs : ∀ x ∈ t, x.key ≠ key := by
        intro x hx hxk
        apply hnd.1
        rw [hk, ← hxk]
        exact List.mem_map_of_mem (fun e => e.key) hx
      simp [remove, List.eraseP_cons, hk]
      exact (filter_of_absent t key habs).symm
    · have ih1 := ih hnd.2
      simp only [remove] at ih1
      simp [remove, List.eraseP_cons, hk, ih1]

theorem liveBytes_remove (l : List (entry V)) (key : String) (kv : entry V)
    (h : l.find? (fun e => e.key == key) = some kv) :
    liveBytes (remove l key) = liveBytes l - (keyLen kv.key + Value.Len kv.value) := by
  induction l with
  | nil => simp at h
  | cons e t ih =>
    by_cases hk : e.key = key
    · simp [List.find?_cons, hk] at h
      subst h
      simp [remove, List.eraseP_cons, hk, liveBytes_cons]
    · simp [List.find?_cons, hk] at h
      have ih1 := ih h
      simp only [remove] at ih1
      simp [remove, List.eraseP_cons, hk, liveBytes_cons, ih1]
      ring

theorem keys_filter_nodup (l : List (entry V)) (key : String)
    (hnd : (l.map (fun e => e.key)).Nodup) :
    ((l.filter (fun e => e.key != key)).map (fun e => e.key)).Nodup :=
  List.Nodup.sublist (List.Sublist.map _ (List.filter_sublist l)) hnd

theorem key_not_mem_filter (l : List (entry V)) (key : String) :
    key ∉ (l.filter (fun e => e.key != key)).map (fun e => e.key) := by
  simp

/-- The list that `insert` builds: the new entry in front of the other entries
in their previous order. -/
theorem insert_ll (c : Cache V) (key : String) (value : V) (h : WF c) :
    (insert c key value).ll =
      { key := key, value := value } :: c.ll.filter (fun e => e.key != key) := by
  unfold insert
  cases hl : lookup c key with
  | none => simp [filter_of_absent c.ll key (lookup_none hl)]
  | some kv => simp [lookup_key hl, remove_eq_filter c.ll key h.1]

/-- The list that `insert` builds for a key that is not live. -/
theorem insert_ll_new (c : Cache V) (key : String) (value : V)
    (h : ∀ e ∈ c.ll, e.key ≠ key) :
    (insert c key value).ll = { key := key, value := value } :: c.ll := by
  have hl : lookup c key = none := by
    apply List.find?_eq_none.mpr
    intro e he
    simpa using h e he
  unfold insert
  simp only [hl]

theorem insert_maxBytes (c : Cache V) (key : String) (value : V) :
    (insert c key value).maxBytes = c.maxBytes := by
  unfold insert
  cases lookup c key <;> rfl

theorem insert_wf (c : Cache V) (key : String) (value : V) (h : WF c) :
    WF (insert c key value) := by
  refine ⟨?_, ?_⟩
  · rw [insert_ll c key value h]
    simp only [List.map_cons, List.nodup_cons]
    exact ⟨key_not_mem_filter c.ll key, keys_filter_nodup c.ll key h.1⟩
  · unfold insert
    cases hl : lookup c key with
    | none =>
      simp only [liveBytes_cons]
      rw [h.2, wrap64_add_wrap]
      congr 1
      ring
    | some kv =>
      simp only [liveBytes_cons]
      rw [liveBytes_remove c.ll key kv hl, h.2, wrap64_add_wrap]
      congr 1
      ring

theorem Get_wf (c : Cache V) (key : String) (h : WF c) : WF (Get c key).2 := by
  unfold Get
  cases hl : lookup c key with
  | none => exact h
  | some kv =>
    refine ⟨?_, ?_⟩
    · simp only [List.map_cons, List.nodup_cons]
      rw [remove_eq_filter c.ll key h.1, lookup_key hl]
      exact ⟨key_not_mem_filter c.ll key, keys_filter_nodup c.ll key h.1⟩
    · simp only [liveBytes_cons]
      rw [liveBytes_remove c.ll key kv hl, h.2]
      congr 1
      ring

theorem Get_maxBytes (c : Cache V) (key : String) : (Get c key).2.maxBytes = c.maxBytes := by
  unfold Get
  cases lookup c key <;> rfl

theorem RemoveOldest_wf (c : Cache V) (h : WF c) : WF (RemoveOldest c) := by
  rcases List.eq_nil_or_concat c.ll with hn | ⟨l, x, hx⟩
  · rw [RemoveOldest_nil c hn]; exact h
  · rw [List.concat_eq_append] at hx
    rw [RemoveOldest_concat c l x hx]
    obtain ⟨h1, h2⟩ := h
    rw [hx] at h1 h2
    refine ⟨?_, ?_⟩
    · simp only [List.map_append] at h1
      exact (List.nodup_append.mp h1).1
    · simp only [h2, liveBytes_append, liveBytes_cons]
      rw [wrap64_sub_wrap]
      congr 1
      simp [liveBytes]

theorem RemoveOldest_maxBytes (c : Cache V) : (RemoveOldest c).maxBytes = c.maxBytes := by
  unfold RemoveOldest
  cases c.ll.getLast? <;> rfl

theorem evictLoop_exit (n : Nat) (c : Cache V)
    (h : ¬ (c.maxBytes ≠ 0 ∧ c.maxBytes < c.useBytes)) : evictLoop n c = some c := by
  cases n <;> rw [evictLoop, if_neg h]

theorem evictLoop_round (n : Nat) (c : Cache V)
    (h : c.maxBytes ≠ 0 ∧ c.maxBytes < c.useBytes) :
    evictLoop (n + 1) c = evictLoop n (RemoveOldest c) := by
  rw [evictLoop, if_pos h]

theorem evictLoop_wf (n : Nat) : ∀ c c1 : Cache V, WF c → evictLoop n c = some c1 →
    WF c1 ∧ c1.maxBytes = c.maxBytes := by
  induction n with
  | zero =>
    intro c c1 h he
    by_cases hc : c.maxBytes ≠ 0 ∧ c.maxBytes < c.useBytes
    · simp [evictLoop, hc] at he
    · rw [evictLoop, if_neg hc] at he
      cases he
      exact ⟨h, rfl⟩
  | succ n ih =>
    intro c c1 h he
    by_cases hc : c.maxBytes ≠ 0 ∧ c.maxBytes < c.useBytes
    · rw [evictLoop, if_pos hc] at he
      have := ih (RemoveOldest c) c1 (RemoveOldest_wf c h) he
      rw [RemoveOldest_maxBytes] at this
      exact this
    · rw [evictLoop, if_neg hc] at he
      cases he
      exact ⟨h, rfl⟩

/-- Whatever the loop returns holds a prefix of the list it started from: the
loop removes entries from the back only. -/
theorem evictLoop_prefix (n : Nat) : ∀ c c1 : Cache V, evictLoop n c = some c1 →
    c1.ll <+: c.ll := by
  induction n with
  | zero =>
    intro c c1 he
    by_cases hc : c.maxBytes ≠ 0 ∧ c.maxBytes < c.useBytes
    · simp [evictLoop, hc] at he
    · rw [evictLoop, if_neg hc] at he
      cases he
      exact List.prefix_refl _
  | succ n ih =>
    intro c c1 he
    by_cases hc : c.maxBytes ≠ 0 ∧ c.maxBytes < c.useBytes
    · rw [evictLoop, if_pos hc] at he
      have h1 := ih (RemoveOldest c) c1 he
      refine List.IsPrefix.trans h1 ?_
      rcases List.eq_nil_or_concat c.ll with hn | ⟨l, x, hx⟩
      · rw [RemoveOldest_nil c hn]
      · rw [List.concat_eq_append] at hx
        rw [RemoveOldest_concat c l x hx, hx]
        exact List.prefix_append l [x]
    · rw [evictLoop, if_neg hc] at he
      cases he
      exact List.prefix_refl _

theorem Add_wf (c c1 : Cache V) (key : String) (value : V) (h : WF c)
    (he : Add c key value = some c1) : WF c1 ∧ c1.maxBytes = c.maxBytes := by
  have := evictLoop_wf _ _ c1 (insert_wf c key value h) he
  rw [insert_maxBytes] at this
  exact this

/-- What `Add` returns holds a prefix of the list that `insert` builds. -/
theorem Add_prefix (c c1 : Cache V) (key : String) (value : V)
    (he : Add c key value = some c1) : c1.ll <+: (insert c key value).ll :=
  evictLoop_prefix _ _ c1 he

theorem NewCache_wf (maxBytes : Int) (onEvicted : Bool) :
    WF (NewCache maxBytes onEvicted : Cache V) := by
  simp [WF, NewCache, liveBytes, wrap64_zero]

theorem step_wf (c c1 : Cache V) (op : Op V) (h : WF c) (he : step c op = some c1) :
    WF c1 ∧ c1.maxBytes = c.maxBytes := by
  cases op with
  | get key =>
    simp only [step, Option.some.injEq] at he
    subst he
    exact ⟨Get_wf c key h, Get_maxBytes c key⟩
  | add key value => exact Add_wf c c1 key value h he
  | removeOldest =>
    simp only [step, Option.some.injEq] at he
    subst he
    exact ⟨RemoveOldest_wf c h, RemoveOldest_maxBytes c⟩

theorem run_wf (ops : List (Op V)) : ∀ c c1 : Cache V, WF c → run c ops = some c1 →
    WF c1 ∧ c1.maxBytes = c.maxBytes := by
  induction ops with
  | nil =>
    intro c c1 h he
    simp only [run, Option.some.injEq] at he
    subst he
    exact ⟨h, rfl⟩
  | cons op ops ih =>
    intro c c1 h he
    simp only [run] at he
    cases hs : step c op with
    | none => simp [hs] at he
    | some c2 =>
      rw [hs] at he
      simp only [Option.some_bind] at he
      obtain ⟨hw, hm⟩ := step_wf c c2 op h hs
      obtain ⟨hw1, hm1⟩ := ih c2 c1 hw he
      exact ⟨hw1, hm1.trans hm⟩

/-- The eviction loop on a store whose `useBytes` is the `int64` total, when
the prefix of length `j0` of the list satisfies the bound as `int64` sees it:
the loop returns and keeps a prefix at least that long, which satisfies the
bound, while every longer prefix violates it. -/
theorem evictLoop_stops (n : Nat) : ∀ (c : Cache V) (j0 : Nat),
    c.useBytes = wrap64 (liveBytes c.ll) → j0 ≤ c.ll.length →
    ¬ (c.maxBytes ≠ 0 ∧ c.maxBytes < wrap64 (liveBytes (c.ll.take j0))) →
    c.ll.length ≤ n + j0 →
    ∃ (c1 : Cache V) (j : Nat), evictLoop n c = some c1 ∧ j0 ≤ j ∧ j ≤ c.ll.length ∧
      c1.ll = c.ll.take j ∧ c1.maxBytes = c.maxBytes ∧
      c1.useBytes = wrap64 (liveBytes c1.ll) ∧
      ¬ (c.maxBytes ≠ 0 ∧ c.maxBytes < wrap64 (liveBytes c1.ll)) ∧
      ∀ i, j < i → i ≤ c.ll.length →
        c.maxBytes ≠ 0 ∧ c.maxBytes < wrap64 (liveBytes (c.ll.take i)) := by
  induction n with
  | zero =>
    intro c j0 hu hj0 hfit hlen
    have hjl : j0 = c.ll.length := by omega
    have hc : ¬ (c.maxBytes ≠ 0 ∧ c.maxBytes < c.useBytes) := by
      rw [hu]
      rw [hjl, List.take_length] at hfit
      exact hfit
    refine ⟨c, c.ll.length, evictLoop_exit 0 c hc, hj0, le_refl _, by simp, rfl, hu, ?_, ?_⟩
    · rw [← hu]; exact hc
    · intro i hi hle; omega
  | succ n ih =>
    intro c j0 hu hj0 hfit hlen
    by_cases hc : c.maxBytes ≠ 0 ∧ c.maxBytes < c.useBytes
    · have hne : j0 ≠ c.ll.length := by
        intro hjl
        rw [hjl, List.take_length, ← hu] at hfit
        exact hfit hc
      rcases List.eq_nil_or_concat c.ll with hnil | ⟨l, x, hx⟩
      · rw [hnil] at hj0 hne; simp at hj0 hne; omega
      · rw [List.concat_eq_append] at hx
        have hR := RemoveOldest_concat c l x hx
        have hlenc : c.ll.length = l.length + 1 := by rw [hx]; simp
        have hj0l : j0 ≤ l.length := by omega
        have htake : ∀ i, i ≤ l.length → c.ll.take i = l.take i := by
          intro i hi
          rw [hx, List.take_append_of_le_length hi]
        have huR : (RemoveOldest c).useBytes = wrap64 (liveBytes (RemoveOldest c).ll) := by
          rw [hR]
          simp only [hu, hx, liveBytes_append, liveBytes_cons]
          rw [wrap64_sub_wrap]
          congr 1
          simp [liveBytes]
        have hllR : (RemoveOldest c).ll = l := by rw [hR]
        have hmR : (RemoveOldest c).maxBytes = c.maxBytes := RemoveOldest_maxBytes c
        obtain ⟨c1, j, he, hj0j, hj, hll, hmax, hub, hbound, hlonger⟩ :=
          ih (RemoveOldest c) j0 huR (by rw [hllR]; exact hj0l)
            (by rw [hmR, hllR, ← htake j0 hj0l]; exact hfit) (by rw [hllR]; omega)
        rw [hllR] at hj hll hlonger
        rw [hmR] at hmax hbound hlonger
        refine ⟨c1, j, by rw [evictLoop_round n c hc]; exact he, hj0j, by omega, ?_, hmax, hub,
          hbound, ?_⟩
        · rw [hll, htake j hj]
        · intro i hji hile
          by_cases hil : i ≤ l.length
          · rw [htake i hil]; exact hlonger i hji hil
          · have hieq : i = c.ll.length := by omega
            rw [hieq, List.take_length, ← hu]
            exact hc
    · refine ⟨c, c.ll.length, evictLoop_exit _ c hc, hj0, le_refl _, by simp, rfl, hu, ?_, ?_⟩
      · rw [← hu]; exact hc
      · intro i hi hle; omega

/-- On a well-formed store with a bound that is not negative `Add` returns:
what remains is a prefix of the list that `insert` builds whose `int64` total
satisfies the bound, and the `int64` total of every longer prefix violates
it. -/
theorem Add_take (c : Cache V) (key : String) (value : V) (h : WF c) (hm : 0 ≤ c.maxBytes) :
    ∃ (c1 : Cache V) (j : Nat), Add c key value = some c1 ∧
      j ≤ (insert c key value).ll.length ∧
      c1.ll = (insert c key value).ll.take j ∧ c1.maxBytes = c.maxBytes ∧
      c1.useBytes = wrap64 (liveBytes c1.ll) ∧
      ¬ (c.maxBytes ≠ 0 ∧ c.maxBytes < wrap64 (liveBytes c1.ll)) ∧
      ∀ i, j < i → i ≤ (insert c key value).ll.length →
        c.maxBytes ≠ 0 ∧
          c.maxBytes < wrap64 (liveBytes ((insert c key value).ll.take i)) := by
  have hw := insert_wf c key value h
  have hmi := insert_maxBytes c key value
  obtain ⟨c1, j, he, _, hj, hll, hmax, hub, hbound, hlonger⟩ :=
    evictLoop_stops ((insert c key value).ll.length + 1) (insert c key value) 0 hw.2
      (Nat.zero_le _)
      (by
        rw [hmi]
        simp only [List.take_zero, liveBytes, List.map_nil, List.sum_nil, wrap64_zero]
        intro hcon
        omega)
      (by omega)
  rw [hmi] at hmax hbound hlonger
  exact ⟨c1, j, he, hj, hll, hmax, hub, hbound, hlonger⟩

/-- Every call returns on a well-formed store whose bound is not negative. -/
theorem step_total (c : Cache V) (op : Op V) (h : WF c) (hm : 0 ≤ c.maxBytes) :
    ∃ c1, step c op = some c1 := by
  cases op with
  | get key => exact ⟨_, rfl⟩
  | add key value =>
    obtain ⟨c1, _, he, _⟩ := Add_take c key value h hm
    exact ⟨c1, he⟩
  | removeOldest => exact ⟨_, rfl⟩

/-- Every sequence of calls returns on a well-formed store whose bound is not
negative. -/
theorem run_total (ops : List (Op V)) : ∀ c : Cache V, WF c → 0 ≤ c.maxBytes →
    ∃ c1, run c ops = some c1 := by
  induction ops with
  | nil => intro c _ _; exact ⟨c, rfl⟩
  | cons op ops ih =>
    intro c h hm
    obtain ⟨c2, hs⟩ := step_total c op h hm
    obtain ⟨hw, hmax⟩ := step_wf c c2 op h hs
    obtain ⟨c1, hr⟩ := ih c2 hw (by rw [hmax]; exact hm)
    exact ⟨c1, by simp [run, hs, hr]⟩

/-- Read-your-write: on a well-formed store, when the added entry on its own
does not satisfy the loop condition, `Add` returns and leaves the added entry
in front. -/
theorem Add_keeps_front (c : Cache V) (key : String) (value : V) (h : WF c)
    (hfit : ¬ (c.maxBytes ≠ 0 ∧ c.maxBytes < wrap64 (keyLen key + Value.Len value))) :
    ∃ (c1 : Cache V) (rest : List (entry V)), Add c key value = some c1 ∧
      c1.ll = { key := key, value := value } :: rest ∧ WF c1 ∧ c1.maxBytes = c.maxBytes := by
  have hw := insert_wf c key value h
  have hmi := insert_maxBytes c key value
  have hll := insert_ll c key value h
  obtain ⟨c1, j, he, hj1, _, hll1, _, _, _, _⟩ :=
    evictLoop_stops ((insert c key value).ll.length + 1) (insert c key value) 1 hw.2
      (by rw [hll]; simp)
      (by
        rw [hmi, hll]
        simp only [List.take_succ_cons, List.take_zero, liveBytes, List.map_cons,
          List.map_nil, List.sum_cons, List.sum_nil, add_zero]
        exact hfit)
      (by omega)
  have he1 : Add c key value = some c1 := he
  obtain ⟨hw1, hm1⟩ := Add_wf c c1 key value h he1
  obtain ⟨j1, rfl⟩ : ∃ j1, j = j1 + 1 := ⟨j - 1, by omega⟩
  rw [hll, List.take_succ_cons] at hll1
  exact ⟨c1, _, he1, hll1, hw1, hm1⟩

/-- Read-your-write for a value of a length that is not negative: on a
well-formed store whose bound is 0 or admits the entry on its own, `Add`
returns and the key is then found in front with the added value. -/
theorem Add_then_lookup (c : Cache V) (key : String) (value : V) (h : WF c)
    (hlen : 0 ≤ Value.Len value)
    (hfit : c.maxBytes = 0 ∨ keyLen key + Value.Len value ≤ c.maxBytes) :
    ∃ (c1 : Cache V) (rest : List (entry V)), Add c key value = some c1 ∧
      c1.ll = { key := key, value := value } :: rest ∧ WF c1 ∧ c1.maxBytes = c.maxBytes := by
  have hk : 0 ≤ keyLen key := by unfold keyLen; omega
  exact Add_keeps_front c key value h (fits_of_le _ _ hfit (by omega))

theorem Get_front (c : Cache V) (key : String) (value : V) (rest : List (entry V))
    (h : c.ll = { key := key, value := value } :: rest) :
    (Get c key).1 = some value := by
  simp [Get, lookup, h]

/-- With `maxBytes = 0` the loop of `Add` is not entered: nothing is evicted. -/
theorem Add_unbounded (c : Cache V) (key : String) (value : V) (h : c.maxBytes = 0) :
    Add c key value = some (insert c key value) := by
  unfold Add
  apply evictLoop_exit
  rw [insert_maxBytes, h]
  simp

/-- A list whose keys are pairwise different and that starts with `key` holds
one entry for `key`. -/
theorem one_entry_of_front (l rest : List (entry V)) (key : String) (value : V)
    (hnd : (l.map (fun e => e.key)).Nodup) (hl : l = { key := key, value := value } :: rest) :
    l.filter (fun e => e.key == key) = [{ key := key, value := value }] := by
  subst hl
  simp only [List.map_cons, List.nodup_cons] at hnd
  have hrest : rest.filter (fun e => e.key == key) = [] := by
    apply List.filter_eq_nil_iff.mpr
    intro e he hk
    apply hnd.1
    have : e.key = key := by simpa using hk
    rw [← this]
    exact List.mem_map_of_mem (fun e => e.key) he
  simp [List.filter_cons, hrest]

theorem liveBytes_nonneg (l : List (entry V)) (h : ∀ e ∈ l, 0 ≤ Value.Len e.value) :
    0 ≤ liveBytes l := by
  induction l with
  | nil => simp [liveBytes]
  | cons e t ih =>
    rw [liveBytes_cons]
    have h1 := h e (List.mem_cons_self _ _)
    have h2 := ih (fun x hx => h x (List.mem_cons_of_mem _ hx))
    have h3 : 0 ≤ keyLen e.key := by unfold keyLen; omega
    omega

/-- Among entries of lengths that are not negative a sublist weighs no more
than the list. -/
theorem liveBytes_sublist_le (l1 l2 : List (entry V)) (hs : l1.Sublist l2)
    (h : ∀ e ∈ l2, 0 ≤ Value.Len e.value) : liveBytes l1 ≤ liveBytes l2 := by
  induction hs with
  | slnil => exact le_refl _
  | cons a _ ih =>
    rw [liveBytes_cons]
    have h1 := h a (List.mem_cons_self _ _)
    have h2 := ih (fun x hx => h x (List.mem_cons_of_mem _ hx))
    have h3 : 0 ≤ keyLen a.key := by unfold keyLen; omega
    omega
  | cons₂ a _ ih =>
    rw [liveBytes_cons, liveBytes_cons]
    have h2 := ih (fun x hx => h x (List.mem_cons_of_mem _ hx))
    omega

/-- Two entries of a list whose keys are pairwise different are equal when
their keys are. -/
theorem entry_eq_of_key (l : List (entry V)) (hnd : (l.map (fun e => e.key)).Nodup)
    (a b : entry V) (ha : a ∈ l) (hb : b ∈ l) (hk : a.key = b.key) : a = b :=
  List.inj_on_of_nodup_map hnd ha hb hk

theorem lookup_of_mem (c : Cache V) (h : WF c) (e : entry V) (he : e ∈ c.ll) :
    lookup c e.key = some e := by
  cases hl : lookup c e.key with
  | none => exact absurd rfl (lookup_none hl e he)
  | some kv =>
    have := entry_eq_of_key c.ll h.1 kv e (lookup_mem hl) he (lookup_key hl)
    rw [this]

end lru

namespace lru

variable {V : Type} [Value V]

/-- The state of a store in which the `int64` total has never wrapped: it is
well formed with the bound `m`, every live value reports a length that is not
negative, and the live bytes are at most `m`. -/
theorem exact_useBytes (m : Int) (c : Cache V) (hw : WF c)
    (hnn : ∀ e ∈ c.ll, 0 ≤ Value.Len e.value) (hle : liveBytes c.ll ≤ m)
    (hm : m < 9223372036854775808) : c.useBytes = liveBytes c.ll := by
  rw [hw.2]
  exact wrap64_of_range _ (by have := liveBytes_nonneg c.ll hnn; omega) (by omega)

theorem Get_ll (c : Cache V) (key : String) :
    liveBytes (Get c key).2.ll = liveBytes c.ll ∧ ∀ e ∈ (Get c key).2.ll, e ∈ c.ll := by
  unfold Get
  cases hl : lookup c key with
  | none => exact ⟨rfl, fun _ h => h⟩
  | some kv =>
    refine ⟨?_, ?_⟩
    · simp only [liveBytes_cons]
      rw [liveBytes_remove c.ll key kv hl]
      ring
    · intro e he
      rcases List.mem_cons.mp he with h | h
      · rw [h]; exact lookup_mem hl
      · exact (List.eraseP_sublist c.ll).subset h

theorem RemoveOldest_sublist (c : Cache V) : (RemoveOldest c).ll.Sublist c.ll := by
  rcases List.eq_nil_or_concat c.ll with hn | ⟨l, x, hx⟩
  · rw [RemoveOldest_nil c hn]
  · rw [List.concat_eq_append] at hx
    rw [RemoveOldest_concat c l x hx, hx]
    exact List.sublist_append_left l [x]

/-- One call keeps a store within its bound, with an exact total, as long as
an added value reports a length that is not negative and the bound plus the
size of the added entry stays below `2^63`. -/
theorem step_exact (m : Int) (hpos : 0 < m) (c : Cache V) (op : Op V)
    (hw : WF c) (hmax : c.maxBytes = m)
    (hnn : ∀ e ∈ c.ll, 0 ≤ Value.Len e.value) (hle : liveBytes c.ll ≤ m)
    (hop : ∀ k v, op = Op.add k v →
      0 ≤ Value.Len v ∧ m + (keyLen k + Value.Len v) < 9223372036854775808) :
    ∃ c1, step c op = some c1 ∧ WF c1 ∧ c1.maxBytes = m ∧
      (∀ e ∈ c1.ll, 0 ≤ Value.Len e.value) ∧ liveBytes c1.ll ≤ m := by
  cases op with
  | get key =>
    refine ⟨_, rfl, Get_wf c key hw, (Get_maxBytes c key).trans hmax, ?_, ?_⟩
    · intro e he; exact hnn e ((Get_ll c key).2 e he)
    · rw [(Get_ll c key).1]; exact hle
  | removeOldest =>
    refine ⟨_, rfl, RemoveOldest_wf c hw, (RemoveOldest_maxBytes c).trans hmax, ?_, ?_⟩
    · intro e he; exact hnn e ((RemoveOldest_sublist c).subset he)
    · exact le_trans (liveBytes_sublist_le _ _ (RemoveOldest_sublist c) hnn) hle
  | add key value =>
    obtain ⟨hv, hsz⟩ := hop key value rfl
    obtain ⟨c1, j, he, _, hll, hm1, _, hbound, _⟩ :=
      Add_take c key value hw (by rw [hmax]; omega)
    obtain ⟨hw1, _⟩ := Add_wf c c1 key value hw he
    have hord := insert_ll c key value hw
    have hnnord : ∀ e ∈ (insert c key value).ll, 0 ≤ Value.Len e.value := by
      rw [hord]
      intro e he1
      rcases List.mem_cons.mp he1 with h | h
      · rw [h]; exact hv
      · exact hnn e (List.mem_of_mem_filter h)
    have hordle : liveBytes (insert c key value).ll ≤ keyLen key + Value.Len value + m := by
      rw [hord, liveBytes_cons]
      have := liveBytes_sublist_le _ _ (List.filter_sublist c.ll
        (p := fun e => e.key != key)) hnn
      simp only
      omega
    have hsub : c1.ll.Sublist (insert c key value).ll := by
      rw [hll]; exact List.take_sublist _ _
    have hnn1 : ∀ e ∈ c1.ll, 0 ≤ Value.Len e.value := fun e h => hnnord e (hsub.subset h)
    have h0 := liveBytes_nonneg c1.ll hnn1
    have h1 := liveBytes_sublist_le _ _ hsub hnnord
    refine ⟨c1, he, hw1, hm1.trans hmax, hnn1, ?_⟩
    rw [hmax, wrap64_of_range _ (by omega) (by omega)] at hbound
    by_contra hcon
    exact hbound ⟨by omega, by omega⟩

theorem run_exact (m : Int) (hpos : 0 < m) (ops : List (Op V)) : ∀ c : Cache V,
    WF c → c.maxBytes = m → (∀ e ∈ c.ll, 0 ≤ Value.Len e.value) → liveBytes c.ll ≤ m →
    (∀ k v, Op.add k v ∈ ops →
      0 ≤ Value.Len v ∧ m + (keyLen k + Value.Len v) < 9223372036854775808) →
    ∃ c1, run c ops = some c1 ∧ WF c1 ∧ c1.maxBytes = m ∧
      (∀ e ∈ c1.ll, 0 ≤ Value.Len e.value) ∧ liveBytes c1.ll ≤ m := by
  induction ops with
  | nil => intro c hw hmax hnn hle _; exact ⟨c, rfl, hw, hmax, hnn, hle⟩
  | cons op ops ih =>
    intro c hw hmax hnn hle hops
    obtain ⟨c2, hs, hw2, hmax2, hnn2, hle2⟩ := step_exact m hpos c op hw hmax hnn hle
      (fun k v h => hops k v (by rw [h]; exact List.mem_cons_self _ _))
    obtain ⟨c1, hr, h1⟩ := ih c2 hw2 hmax2 hnn2 hle2
      (fun k v h => hops k v (List.mem_cons_of_mem _ h))
    exact ⟨c1, by simp [run, hs, hr], h1⟩

/-- C8 as stated fails: on a store of 10 bytes, `Add("k", v)` with a value
that reports the length `2^63 - 1` makes the `int64` total wrap to `-2^63`, so
nothing is evicted and the store holds `2^63` live bytes. -/
theorem C8_counterexample :
    Add (NewCache 10 false) "k" (reportedLen.mk 9223372036854775807) =
      some { maxBytes := 10, useBytes := -9223372036854775808,
             ll := [⟨"k", reportedLen.mk 9223372036854775807⟩],
             OnEvicted := false, evicted := [] } ∧
    (0 : Int) ≤ Value.Len (reportedLen.mk 9223372036854775807) ∧
    (10 : Int) < liveBytes [(⟨"k", reportedLen.mk 9223372036854775807⟩ : entry reportedLen)] := by
  decide

/-- C8, amended: on a store created with `maxBytes > 0`, for every sequence of
calls in which each added value reports a length that is not negative and
`maxBytes + len(key) + value.Len()` stays within `int64`, every call returns,
and after a further such `Add` the total `useBytes` is the sum of
`len(key) + value.Len()` over the live entries and is at most `maxBytes`. -/
theorem C8_add_within_maxBytes (maxBytes : Int) (onEvicted : Bool) (hpos : 0 < maxBytes)
    (ops : List (Op V)) (key : String) (value : V)
    (hops : ∀ k v, Op.add k v ∈ ops ++ [Op.add key value] →
      0 ≤ Value.Len v ∧ maxBytes + (keyLen k + Value.Len v) < 9223372036854775808) :
    ∃ c c1 : Cache V, run (NewCache maxBytes onEvicted) ops = some c ∧
      Add c key value = some c1 ∧
      c1.useBytes = liveBytes c1.ll ∧ c1.useBytes ≤ maxBytes := by
  have hk : 0 ≤ keyLen key := by unfold keyLen; omega
  have hlast := hops key value (by simp)
  obtain ⟨c, hr, hw, hmax, hnn, hle⟩ := run_exact maxBytes hpos ops
    (NewCache maxBytes onEvicted : Cache V) (NewCache_wf maxBytes onEvicted) rfl
    (by simp [NewCache]) (by simp [NewCache, liveBytes]; omega)
    (fun k v h => hops k v (List.mem_append_left _ h))
  obtain ⟨c1, hs, hw1, _, hnn1, hle1⟩ := step_exact maxBytes hpos c (Op.add key value) hw hmax
    hnn hle (by
      intro k v h
      cases h
      exact hlast)
  have hex := exact_useBytes maxBytes c1 hw1 hnn1 hle1 (by omega)
  exact ⟨c, c1, hr, hs, hex, by rw [hex]; exact hle1⟩

/-- Witness of C8: a store of 10 bytes, after the sample calls, on `Add` of a
5-byte entry. -/
theorem C8_add_within_maxBytes_witness :
    (0 : Int) < 10 ∧
    ∃ c c1 : Cache gocache.ByteView, run (NewCache 10 false) sampleOps = some c ∧
      Add c "c" (sampleValue 4) = some c1 ∧
      c1.useBytes = liveBytes c1.ll ∧ c1.useBytes ≤ 10 :=
  ⟨by decide, C8_add_within_maxBytes 10 false (by decide) sampleOps "c" (sampleValue 4)
    (by
      intro k v h
      simp only [sampleOps, List.cons_append, List.nil_append, List.mem_cons, Op.add.injEq,
        reduceCtorEq, List.mem_singleton, List.not_mem_nil, false_or, or_false] at h
      rcases h with ⟨rfl, rfl⟩ | ⟨rfl, rfl⟩ | ⟨rfl, rfl⟩ | ⟨rfl, rfl⟩ <;> decide)⟩

end lru

namespace lru

variable {V : Type} [Value V]

/-- C9 as stated fails: on a store of 10 bytes, after `Add("k", v)` with a
value that reports the length `2^63 - 1`, `useBytes` is `-2^63` while the sum
over the live entries of `len(key) + value.Len()` is `2^63`. -/
theorem C9_counterexample :
    run (NewCache 10 false) [.add "k" (reportedLen.mk 9223372036854775807)] =
      some { maxBytes := 10, useBytes := -9223372036854775808,
             ll := [⟨"k", reportedLen.mk 9223372036854775807⟩],
             OnEvicted := false, evicted := [] } ∧
    liveBytes [(⟨"k", reportedLen.mk 9223372036854775807⟩ : entry reportedLen)] =
      9223372036854775808 := by
  decide

/-- C9, amended: starting from `NewCache`, after every sequence of `Get`, `Add`
(of a new or of a live key) and `RemoveOldest` calls that returns, `useBytes`
is the sum over the live entries of `len(key) + value.Len()` as `int64` holds
it, that is reduced modulo `2^64` into the `int64` range; it is 0 when the
store is empty, and it is exactly the sum whenever the sum lies in the `int64`
range; with a bound that is not negative every such sequence returns. -/
theorem C9_useBytes_exact (maxBytes : Int) (onEvicted : Bool) (ops : List (Op V)) :
    (∀ c : Cache V, run (NewCache maxBytes onEvicted) ops = some c →
      c.useBytes = wrap64 (liveBytes c.ll) ∧ (c.ll = [] → c.useBytes = 0) ∧
      (-9223372036854775808 ≤ liveBytes c.ll → liveBytes c.ll < 9223372036854775808 →
        c.useBytes = liveBytes c.ll)) ∧
    (0 ≤ maxBytes → ∃ c : Cache V, run (NewCache maxBytes onEvicted) ops = some c) := by
  have hw0 : WF (NewCache maxBytes onEvicted : Cache V) := NewCache_wf maxBytes onEvicted
  refine ⟨?_, ?_⟩
  · intro c hr
    obtain ⟨hw, _⟩ := run_wf ops _ c hw0 hr
    refine ⟨hw.2, ?_, ?_⟩
    · intro hnil
      rw [hw.2, hnil]
      exact wrap64_zero
    · intro h1 h2
      rw [hw.2]
      exact wrap64_of_range _ h1 h2
  · intro hm
    exact run_total ops _ hw0 hm

/-- Witness of C9: the sample calls on a store of 10 bytes leave the one entry
`("b", 2 bytes)` and `useBytes = 3`. -/
theorem C9_useBytes_exact_witness :
    run (NewCache 10 true) sampleOps =
      some { maxBytes := 10, useBytes := 3, ll := [⟨"b", sampleValue 2⟩],
             OnEvicted := true, evicted := [⟨"a", sampleValue 3⟩] } ∧
    (3 : Int) = liveBytes [(⟨"b", sampleValue 2⟩ : entry gocache.ByteView)] :=
  ⟨by decide,
   ((C9_useBytes_exact 10 true sampleOps).1
      { maxBytes := 10, useBytes := 3, ll := [⟨"b", sampleValue 2⟩],
        OnEvicted := true, evicted := [⟨"a", sampleValue 3⟩] } (by decide)).2.2
      (by decide) (by decide)⟩

/-- C10 as stated fails: a store of `2^62` bytes holds `x` with a value of
`2^62 - 1` bytes; `Add("k", v)` with a value that reports `2^63 - 2` bytes makes
the `int64` total wrap below zero, so nothing is evicted although the live
bytes exceed `maxBytes`. -/
theorem C10_counterexample :
    run (NewCache 4611686018427387904 false)
        [.add "x" (reportedLen.mk 4611686018427387903),
         .add "k" (reportedLen.mk 9223372036854775806)] =
      some { maxBytes := 4611686018427387904, useBytes := -4611686018427387905,
             ll := [⟨"k", reportedLen.mk 9223372036854775806⟩,
                    ⟨"x", reportedLen.mk 4611686018427387903⟩],
             OnEvicted := false, evicted := [] } ∧
    (4611686018427387904 : Int) <
      liveBytes [(⟨"k", reportedLen.mk 9223372036854775806⟩ : entry reportedLen),
                 ⟨"x", reportedLen.mk 4611686018427387903⟩] := by
  decide

/-- C10, amended: on a store with `maxBytes > 0`, `Add(key, value)` returns, and
what remains is a prefix of the recency order with the new entry in front and
the other entries in their previous order: the byte total of what remains, as
`int64` holds it, is at most `maxBytes`, and the `int64` total of every longer
prefix (a shorter evicted suffix) exceeds `maxBytes`.  When no value of the new
order reports a negative length and the byte total of the new order is below
`2^63`, these are the true byte totals. -/
theorem C10_add_evicts_lru_suffix (maxBytes : Int) (onEvicted : Bool) (hpos : 0 < maxBytes)
    (ops : List (Op V)) (key : String) (value : V) :
    ∃ (c c1 : Cache V) (j : Nat), run (NewCache maxBytes onEvicted) ops = some c ∧
      Add c key value = some c1 ∧
      c1.ll = (({ key := key, value := value } : entry V) ::
        c.ll.filter (fun e => e.key != key)).take j ∧
      wrap64 (liveBytes c1.ll) ≤ maxBytes ∧
      (∀ i, j < i → i ≤ (c.ll.filter (fun e => e.key != key)).length + 1 →
        maxBytes < wrap64 (liveBytes ((({ key := key, value := value } : entry V) ::
          c.ll.filter (fun e => e.key != key)).take i))) ∧
      ((∀ e ∈ (({ key := key, value := value } : entry V) ::
          c.ll.filter (fun e => e.key != key)), 0 ≤ Value.Len e.value) →
        liveBytes (({ key := key, value := value } : entry V) ::
          c.ll.filter (fun e => e.key != key)) < 9223372036854775808 →
        liveBytes c1.ll ≤ maxBytes ∧
        ∀ i, j < i → i ≤ (c.ll.filter (fun e => e.key != key)).length + 1 →
          maxBytes < liveBytes ((({ key := key, value := value } : entry V) ::
            c.ll.filter (fun e => e.key != key)).take i)) := by
  have hw0 : WF (NewCache maxBytes onEvicted : Cache V) := NewCache_wf maxBytes onEvicted
  obtain ⟨c, hr⟩ := run_total ops (NewCache maxBytes onEvicted : Cache V) hw0 (le_of_lt hpos)
  obtain ⟨hw, hmax⟩ := run_wf ops _ c hw0 hr
  have hmc : c.maxBytes = maxBytes := hmax
  obtain ⟨c1, j, he, _, hll, _, _, hbound, hlonger⟩ :=
    Add_take c key value hw (by rw [hmc]; exact le_of_lt hpos)
  rw [insert_ll c key value hw] at hll hlonger
  rw [hmc] at hbound hlonger
  have hb1 : wrap64 (liveBytes c1.ll) ≤ maxBytes := by
    by_contra hcon
    exact hbound ⟨by omega, by omega⟩
  have hl1 : ∀ i, j < i → i ≤ (c.ll.filter (fun e => e.key != key)).length + 1 →
      maxBytes < wrap64 (liveBytes ((({ key := key, value := value } : entry V) ::
        c.ll.filter (fun e => e.key != key)).take i)) := by
    intro i hji hile
    exact (hlonger i hji (by simpa using hile)).2
  refine ⟨c, c1, j, hr, he, hll, hb1, hl1, ?_⟩
  intro hnn htot
  have hexact : ∀ i, wrap64 (liveBytes ((({ key := key, value := value } : entry V) ::
      c.ll.filter (fun e => e.key != key)).take i)) =
      liveBytes ((({ key := key, value := value } : entry V) ::
        c.ll.filter (fun e => e.key != key)).take i) := by
    intro i
    have hsub := List.take_sublist i (({ key := key, value := value } : entry V) ::
      c.ll.filter (fun e => e.key != key))
    have h0 := liveBytes_nonneg _ (fun e h => hnn e (hsub.subset h))
    have h1 := liveBytes_sublist_le _ _ hsub hnn
    exact wrap64_of_range _ (by omega) (by omega)
  refine ⟨?_, ?_⟩
  · rw [hll, ← hexact j, ← hll]
    exact hb1
  · intro i hji hile
    rw [← hexact i]
    exact hl1 i hji hile

/-- Witness of C10: on a store of 10 bytes holding `b` (5 bytes) in front of
`a` (4 bytes), adding `c` with 4 bytes evicts `a` only. -/
theorem C10_add_evicts_lru_suffix_witness :
    (0 : Int) < 10 ∧
    ∃ (c c1 : Cache gocache.ByteView) (j : Nat),
      run (NewCache 10 false) [.add "a" (sampleValue 3), .add "b" (sampleValue 4)] = some c ∧
      Add c "c" (sampleValue 3) = some c1 ∧
      c1.ll = ((⟨"c", sampleValue 3⟩ : entry gocache.ByteView) ::
        c.ll.filter (fun e => e.key != "c")).take j ∧
      wrap64 (liveBytes c1.ll) ≤ 10 ∧
      (∀ i, j < i → i ≤ (c.ll.filter (fun e => e.key != "c")).length + 1 →
        10 < wrap64 (liveBytes (((⟨"c", sampleValue 3⟩ : entry gocache.ByteView) ::
          c.ll.filter (fun e => e.key != "c")).take i))) ∧
      ((∀ e ∈ ((⟨"c", sampleValue 3⟩ : entry gocache.ByteView) ::
          c.ll.filter (fun e => e.key != "c")), 0 ≤ Value.Len e.value) →
        liveBytes ((⟨"c", sampleValue 3⟩ : entry gocache.ByteView) ::
          c.ll.filter (fun e => e.key != "c")) < 9223372036854775808 →
        liveBytes c1.ll ≤ 10 ∧
        ∀ i, j < i → i ≤ (c.ll.filter (fun e => e.key != "c")).length + 1 →
          10 < liveBytes (((⟨"c", sampleValue 3⟩ : entry gocache.ByteView) ::
            c.ll.filter (fun e => e.key != "c")).take i)) :=
  ⟨by decide, C10_add_evicts_lru_suffix 10 false (by decide)
    [.add "a" (sampleValue 3), .add "b" (sampleValue 4)] "c" (sampleValue 3)⟩

/-- C19, evaluated: on a store created with `maxBytes = -1`, `Add("a", v)` with
a value of one byte does not return: the loop evicts the entry it has just
added and then never exits, whatever number of rounds it is given.  The claim
says that `Add` returns with `a` in the store. -/
theorem C19_add_negative_maxBytes_never_returns :
    Add (NewCache (-1) false) "a" (sampleValue 1) = none ∧
    ∀ fuel : Nat,
      evictLoop fuel (insert (NewCache (-1) false) "a" (sampleValue 1)) = none := by
  refine ⟨by decide, ?_⟩
  intro fuel
  cases fuel with
  | zero => decide
  | succ n =>
    rw [evictLoop_round n _ (by decide)]
    rw [evictLoop_nil _ (by decide) n]
    decide

end lru

namespace lru

variable {V : Type} [Value V]

/-- What `Add` of a key that is not live returns holds a prefix of the list
with the new entry in front. -/
theorem Add_prefix_new (c c1 : Cache V) (key : String) (value : V)
    (h : ∀ e ∈ c.ll, e.key ≠ key) (he : Add c key value = some c1) :
    c1.ll <+: { key := key, value := value } :: c.ll := by
  have := Add_prefix c c1 key value he
  rw [insert_ll_new c key value h] at this
  exact this

/-- The recency scenario of the store: `A`, `B`, `C` are added in that order
and are all live afterwards, `Get(A)` is called, and `Add(D)` evicts exactly
one entry, so that three entries remain.  Then `B` is the one evicted and the
list is `D`, `A`, `C`. -/
theorem recency_scenario (m : Int) (onEvicted : Bool) (A B C D : String)
    (vA vB vC vD : V) (c3 c5 : Cache V)
    (hAB : A ≠ B) (hAC : A ≠ C) (hAD : A ≠ D) (hBC : B ≠ C) (hBD : B ≠ D) (hCD : C ≠ D)
    (h3 : run (NewCache m onEvicted) [.add A vA, .add B vB, .add C vC] = some c3)
    (hlen3 : c3.ll.length = 3)
    (h5 : run c3 [.get A, .add D vD] = some c5)
    (hlen5 : c5.ll.length = 3) :
    c5.ll = [⟨D, vD⟩, ⟨A, vA⟩, ⟨C, vC⟩] := by
  simp only [run, step, Option.bind_eq_some, Option.some.injEq, exists_eq_right] at h3
  obtain ⟨c1, he1, c2, he2, he3⟩ := h3
  have p1 := Add_prefix_new _ c1 A vA (by simp [NewCache]) he1
  have hm1 : ∀ e ∈ c1.ll, e = (⟨A, vA⟩ : entry V) := by
    intro e he
    have := p1.subset he
    simpa [NewCache] using this
  have p2 := Add_prefix_new c1 c2 B vB
    (by intro e he; rw [hm1 e he]; exact hAB) he2
  have hm2 : ∀ e ∈ c2.ll, e = (⟨B, vB⟩ : entry V) ∨ e = (⟨A, vA⟩ : entry V) := by
    intro e he
    rcases List.mem_cons.mp (p2.subset he) with h | h
    · exact Or.inl h
    · exact Or.inr (hm1 e h)
  have p3 := Add_prefix_new c2 c3 C vC
    (by
      intro e he
      rcases hm2 e he with h | h
      · rw [h]; exact hBC
      · rw [h]; exact hAC) he3
  have l1 := p1.length_le
  have l2 := p2.length_le
  have l3 := p3.length_le
  simp only [List.length_cons, NewCache, List.length_nil] at l1 l2 l3
  have e1 : c1.ll = [⟨A, vA⟩] := p1.eq_of_length (by simp [NewCache]; omega)
  have e2 : c2.ll = [⟨B, vB⟩, ⟨A, vA⟩] := by
    rw [← e1]; exact p2.eq_of_length (by simp; omega)
  have e3 : c3.ll = [⟨C, vC⟩, ⟨B, vB⟩, ⟨A, vA⟩] := by
    rw [← e2]; exact p3.eq_of_length (by simp; omega)
  simp only [run, step, Option.bind_eq_some, Option.some.injEq, exists_eq_right,
    exists_eq_left'] at h5
  have hg : (Get c3 A).2.ll = [⟨A, vA⟩, ⟨C, vC⟩, ⟨B, vB⟩] := by
    simp [Get, lookup, remove, e3, List.find?_cons, List.eraseP_cons, hAC.symm, hAB.symm]
  have p5 := Add_prefix_new (Get c3 A).2 c5 D vD
    (by
      intro e he
      rw [hg] at he
      simp only [List.mem_cons, List.mem_singleton, List.not_mem_nil, or_false] at he
      rcases he with h | h | h
      · rw [h]; exact hAD
      · rw [h]; exact hCD
      · rw [h]; exact hBD) h5
  rw [hg] at p5
  have := List.prefix_iff_eq_take.mp p5
  rw [hlen5] at this
  rw [this]
  rfl

/-- C11: on every store reached from `NewCache`, `Get(key)` on a live key
returns its value with `found = true` and puts its entry in front, the other
entries keeping their order, with the same number of entries and all other
fields, `useBytes` among them, unchanged; `Get` on a key that is not live
returns `found = false` and changes nothing.  Consequently, when `A`, `B`, `C`
have been added in that order and are live, `Get(A)` is called and an `Add(D)`
evicts exactly one entry, then `B` is evicted and `A` is kept: the list is
`D`, `A`, `C`. -/
theorem C11_get_moves_to_front (maxBytes : Int) (onEvicted : Bool) (ops : List (Op V))
    (c : Cache V) (hr : run (NewCache maxBytes onEvicted) ops = some c) (key : String) :
    (∀ e ∈ c.ll, e.key = key →
      Get c key = (some e.value, { c with ll := e :: c.ll.filter (fun x => x.key != key) }) ∧
      (e :: c.ll.filter (fun x => x.key != key)).length = c.ll.length) ∧
    ((∀ e ∈ c.ll, e.key ≠ key) → Get c key = (none, c)) ∧
    (∀ (m : Int) (A B C D : String) (vA vB vC vD : V) (c3 c5 : Cache V),
      A ≠ B → A ≠ C → A ≠ D → B ≠ C → B ≠ D → C ≠ D →
      run (NewCache m onEvicted) [.add A vA, .add B vB, .add C vC] = some c3 →
      c3.ll.length = 3 →
      run c3 [.get A, .add D vD] = some c5 →
      c5.ll.length = 3 →
      c5.ll = [⟨D, vD⟩, ⟨A, vA⟩, ⟨C, vC⟩]) := by
  obtain ⟨hw, _⟩ := run_wf ops _ c (NewCache_wf maxBytes onEvicted) hr
  refine ⟨?_, ?_, ?_⟩
  · intro e he hk
    have hl : lookup c key = some e := by rw [← hk]; exact lookup_of_mem c hw e he
    refine ⟨?_, ?_⟩
    · simp only [Get, hl, remove_eq_filter c.ll key hw.1]
    · rw [← remove_eq_filter c.ll key hw.1]
      have hpa : (fun x : entry V => x.key == key) e = true := by simp [hk]
      have hpos : 0 < c.ll.length := List.length_pos_of_mem he
      simp only [remove, List.length_cons]
      rw [List.length_eraseP_of_mem he hpa]
      omega
  · intro habs
    have hl : lookup c key = none := by
      apply List.find?_eq_none.mpr
      intro e he
      simpa using habs e he
    simp only [Get, hl]
  · intro m A B C D vA vB vC vD c3 c5 hAB hAC hAD hBC hBD hCD h3 hlen3 h5 hlen5
    exact recency_scenario m onEvicted A B C D vA vB vC vD c3 c5 hAB hAC hAD hBC hBD hCD
      h3 hlen3 h5 hlen5

/-- Witness of C11: on a store of 13 bytes the keys `A`, `B`, `C` are added
with 3 bytes each and are live (12 bytes), `Get("A")` is called, and
`Add("D")` with 3 bytes evicts one entry: the list is then `D`, `A`, `C`. -/
theorem C11_get_moves_to_front_witness :
    run (NewCache 13 false)
        [.add "A" (sampleValue 3), .add "B" (sampleValue 3), .add "C" (sampleValue 3)] =
      some { maxBytes := 13, useBytes := 12,
             ll := [⟨"C", sampleValue 3⟩, ⟨"B", sampleValue 3⟩, ⟨"A", sampleValue 3⟩],
             OnEvicted := false, evicted := [] } ∧
    run ({ maxBytes := 13, useBytes := 12,
           ll := [⟨"C", sampleValue 3⟩, ⟨"B", sampleValue 3⟩, ⟨"A", sampleValue 3⟩],
           OnEvicted := false, evicted := [] } : Cache gocache.ByteView)
        [.get "A", .add "D" (sampleValue 3)] =
      some { maxBytes := 13, useBytes := 12,
             ll := [⟨"D", sampleValue 3⟩, ⟨"A", sampleValue 3⟩, ⟨"C", sampleValue 3⟩],
             OnEvicted := false, evicted := [] } ∧
    ({ maxBytes := 13, useBytes := 12,
       ll := [⟨"D", sampleValue 3⟩, ⟨"A", sampleValue 3⟩, ⟨"C", sampleValue 3⟩],
       OnEvicted := false, evicted := [] } : Cache gocache.ByteView).ll =
      [⟨"D", sampleValue 3⟩, ⟨"A", sampleValue 3⟩, ⟨"C", sampleValue 3⟩] :=
  ⟨by decide, by decide,
   (C11_get_moves_to_front 13 false ([] : List (Op gocache.ByteView)) _ rfl "A").2.2
      13 "A" "B" "C" "D" (sampleValue 3) (sampleValue 3) (sampleValue 3) (sampleValue 3)
      { maxBytes := 13, useBytes := 12,
        ll := [⟨"C", sampleValue 3⟩, ⟨"B", sampleValue 3⟩, ⟨"A", sampleValue 3⟩],
        OnEvicted := false, evicted := [] }
      { maxBytes := 13, useBytes := 12,
        ll := [⟨"D", sampleValue 3⟩, ⟨"A", sampleValue 3⟩, ⟨"C", sampleValue 3⟩],
        OnEvicted := false, evicted := [] }
      (by decide) (by decide) (by decide) (by decide) (by decide) (by decide)
      (by decide) (by decide) (by decide) (by decide)⟩

/-- C20 as stated fails: a store of `2^62` bytes holds `x` with a value of
`2^62 - 1` bytes; `Add("k", v)` with `len("k") + v.Len() = 2^63 - 1`, which is
more than `maxBytes`, makes the `int64` total wrap below zero, so nothing is
evicted and the store is not left empty. -/
theorem C20_counterexample :
    Add ({ maxBytes := 4611686018427387904, useBytes := 4611686018427387904,
           ll := [⟨"x", reportedLen.mk 4611686018427387903⟩],
           OnEvicted := false, evicted := [] } : Cache reportedLen)
        "k" (reportedLen.mk 9223372036854775806) =
      some { maxBytes := 4611686018427387904, useBytes := -4611686018427387905,
             ll := [⟨"k", reportedLen.mk 9223372036854775806⟩,
                    ⟨"x", reportedLen.mk 4611686018427387903⟩],
             OnEvicted := false, evicted := [] } ∧
    run (NewCache 4611686018427387904 false) [.add "x" (reportedLen.mk 4611686018427387903)] =
      some ({ maxBytes := 4611686018427387904, useBytes := 4611686018427387904,
              ll := [⟨"x", reportedLen.mk 4611686018427387903⟩],
              OnEvicted := false, evicted := [] } : Cache reportedLen) ∧
    (0 : Int) < 4611686018427387904 ∧
    (4611686018427387904 : Int) < keyLen "k" + Value.Len (reportedLen.mk 9223372036854775806) := by
  decide

/-- C20, amended: on every store reached from `NewCache`, for a value whose
reported length is an `int64` (at least `-2^63`), when `maxBytes = 0` or
`len(key) + value.Len() <= maxBytes`, `Add(key, value)` returns and right after
it `Get(key)` returns `(value, true)` and the store holds exactly one entry for
`key`; when `maxBytes > 0`, `len(key) + value.Len() > maxBytes`, every live
value reports a length that is not negative and the byte total with the new
entry is below `2^63`, `Add(key, value)` returns and leaves the store empty. -/
theorem C20_read_your_write (maxBytes : Int) (onEvicted : Bool) (ops : List (Op V))
    (c : Cache V) (hr : run (NewCache maxBytes onEvicted) ops = some c)
    (key : String) (value : V) :
    ((c.maxBytes = 0 ∨ keyLen key + Value.Len value ≤ c.maxBytes) →
      -9223372036854775808 ≤ Value.Len value →
      ∃ c1 : Cache V, Add c key value = some c1 ∧ (Get c1 key).1 = some value ∧
        c1.ll.filter (fun e => e.key == key) = [⟨key, value⟩]) ∧
    (0 < c.maxBytes → c.maxBytes < keyLen key + Value.Len value →
      (∀ e ∈ c.ll, 0 ≤ Value.Len e.value) →
      liveBytes (({ key := key, value := value } : entry V) ::
        c.ll.filter (fun e => e.key != key)) < 9223372036854775808 →
      ∃ c1 : Cache V, Add c key value = some c1 ∧ c1.ll = []) := by
  obtain ⟨hw, _⟩ := run_wf ops _ c (NewCache_wf maxBytes onEvicted) hr
  have hk : 0 ≤ keyLen key := by unfold keyLen; omega
  refine ⟨?_, ?_⟩
  · intro hfit hint
    obtain ⟨c1, rest, he, hll, hw1, _⟩ :=
      Add_keeps_front c key value hw (fits_of_le _ _ hfit (by omega))
    exact ⟨c1, he, Get_front c1 key value rest hll,
      one_entry_of_front c1.ll rest key value hw1.1 hll⟩
  · intro hpos hbig hlen htot
    obtain ⟨c1, j, he, _, hll, _, _, hbound, _⟩ := Add_take c key value hw (le_of_lt hpos)
    refine ⟨c1, he, ?_⟩
    rw [insert_ll c key value hw] at hll
    cases j with
    | zero => rw [hll]; rfl
    | succ j1 =>
      exfalso
      rw [hll, List.take_succ_cons, liveBytes_cons] at hbound
      rw [liveBytes_cons] at htot
      have hsub := List.take_sublist j1 (c.ll.filter (fun e => e.key != key))
      have hnnf : ∀ e ∈ c.ll.filter (fun e => e.key != key), 0 ≤ Value.Len e.value :=
        fun e h => hlen e (List.mem_of_mem_filter h)
      have h0 := liveBytes_nonneg _ (fun e h => hnnf e (hsub.subset h))
      have h1 := liveBytes_sublist_le _ _ hsub hnnf
      simp only at hbound htot
      rw [wrap64_of_range _ (by omega) (by omega)] at hbound
      exact hbound ⟨by omega, by omega⟩

/-- Witness of C20: on the store left by the sample calls (10 bytes, `b` live),
adding `c` with 4 bytes fits, and adding `huge` with 20 bytes empties the
store. -/
theorem C20_read_your_write_witness :
    (∃ c1 : Cache gocache.ByteView,
      Add ({ maxBytes := 10, useBytes := 3, ll := [⟨"b", sampleValue 2⟩],
             OnEvicted := true, evicted := [⟨"a", sampleValue 3⟩] }) "c" (sampleValue 4)
        = some c1 ∧
      (Get c1 "c").1 = some (sampleValue 4) ∧
      c1.ll.filter (fun e => e.key == "c") = [⟨"c", sampleValue 4⟩]) ∧
    (∃ c1 : Cache gocache.ByteView,
      Add ({ maxBytes := 10, useBytes := 3, ll := [⟨"b", sampleValue 2⟩],
             OnEvicted := true, evicted := [⟨"a", sampleValue 3⟩] }) "huge" (sampleValue 20)
        = some c1 ∧ c1.ll = []) :=
  ⟨(C20_read_your_write 10 true sampleOps _ (by decide) "c" (sampleValue 4)).1
      (Or.inr (by decide)) (by decide),
   (C20_read_your_write 10 true sampleOps _ (by decide) "huge" (sampleValue 20)).2
      (by decide) (by decide) (by decide) (by decide)⟩

end lru
/-! ## Theorems about package `singleflight` -/

namespace singleflight

/-- What `Do` computes for a key without a record, when `fn` returns: `fn` has
run once (the state is the one it leaves), the record is gone again, and the
pair handed out is the error of `fn` in the value position with a nil error. -/
theorem Do_fresh {α σ : Type} (g : Group α) (key : String)
    (fn : σ → Except Fault ((Iface α × Option Error) × σ)) (s s1 : σ)
    (v : Iface α) (e : Option Error)
    (hfree : g.m.lookup key = none) (hfn : fn s = .ok ((v, e), s1)) :
    Do g key fn s =
      .ok ((Iface.ofError e, none),
        { m := ((key, { done := false, val := .nil, err := none }) :: g.m).filter
            (fun p => p.1 != key) }, s1) := by
  simp [Do, hfree, hfn, newCall]

theorem Do_fresh_fault {α σ : Type} (g : Group α) (key : String)
    (fn : σ → Except Fault ((Iface α × Option Error) × σ)) (s : σ) (f : Fault)
    (hfree : g.m.lookup key = none) (hfn : fn s = .error f) :
    Do g key fn s = .error f := by
  simp [Do, hfree, hfn]

/-- C5, evaluated: on an empty registry `Do("k", fn)` runs `fn` once and leaves
the registry empty, but for `fn` returning `(7, nil)` it returns `(nil, nil)`,
and for `fn` returning `(nil, "boom")` it returns the error as the value,
`("boom", nil)`, instead of the pair that `fn` returned. -/
theorem C5_do_returns_error_as_value :
    Do { m := [] } "k" (countingFn (.val 7) none) 0 = .ok ((.nil, none), { m := [] }, 1) ∧
    Do { m := [] } "k" (countingFn .nil (some "boom")) 0 =
      .ok ((.err "boom", none), { m := [] }, 1) := by
  constructor <;> rfl

end singleflight

/-! ## Theorems about package `cache` -/

namespace gocache

theorem getLocally_loader (g : Group) (key : String) (r : Result) (g1 : Group)
    (h : g.getLocally key = .ok (r, g1)) : g1.loader = g.loader ∧ g1.peers = g.peers := by
  unfold Group.getLocally at h
  cases hg : g.getter.Get key with
  | error err =>
    simp only [hg] at h
    cases h
    exact ⟨rfl, rfl⟩
  | ok bytes =>
    simp only [hg, Group.populateCache] at h
    cases ha : g.mainCache.add key { b := cloneBytes bytes } with
    | none => simp [ha] at h
    | some mc =>
      simp only [ha] at h
      cases h
      exact ⟨rfl, rfl⟩

/-- A miss without a peer picker and without a call in flight: `Get` calls
`getLocally` and, when that returns, hands out the named results of `load`,
which nothing has assigned: the empty `ByteView` and the nil error. -/
theorem Get_miss_no_peers (g : Group) (key : String) (hkey : key ≠ "")
    (hpeers : g.peers = none) (hmiss : (g.mainCache.get key).1 = none)
    (hfree : g.loader.m.lookup key = none) :
    g.Get key =
      match g.getLocally key with
      | .error f => .error f
      | .ok (_, g1) =>
        .ok ((ByteView.mk [], none),
          { g1 with loader := { m := ((key, { done := false, val := .nil, err := none }) ::
              g.loader.m).filter (fun p => p.1 != key) } }) := by
  have hget : g.Get key = g.load key := by
    unfold Group.Get
    rw [if_neg hkey]
    rcases hc : g.mainCache.get key with ⟨o, mc⟩
    rw [hc] at hmiss
    simp only at hmiss
    subst hmiss
    rfl
  rw [hget]
  unfold Group.load
  cases hl : g.getLocally key with
  | error f =>
    have hfn : Group.loadFn key (g, (ByteView.mk [], none)) = .error f := by
      simp [Group.loadFn, hpeers, hl]
    rw [singleflight.Do_fresh_fault _ _ _ _ f hfree hfn]
  | ok p =>
    obtain ⟨⟨v, e⟩, g1⟩ := p
    have hfn : Group.loadFn key (g, (ByteView.mk [], none)) =
        .ok ((singleflight.Iface.val v, e), (g1, (ByteView.mk [], none))) := by
      simp [Group.loadFn, hpeers, hl]
    rw [singleflight.Do_fresh _ _ _ _ _ _ _ hfree hfn]
    simp

end gocache

namespace gocache

/-- The store that `cache.add` works on satisfies the store part of the
group invariant whenever the wrapper does. -/
theorem cache_store_wf (c : cache)
    (hinv : c.Inv) :
    lru.WF (match c.lru with
      | some l => l
      | none => lru.NewCache c.cacheBytes false) ∧
    (match c.lru with
      | some l => l
      | none => (lru.NewCache c.cacheBytes false : lru.Cache ByteView)).maxBytes
        = c.cacheBytes := by
  cases hl : c.lru with
  | none => exact ⟨lru.NewCache_wf _ _, rfl⟩
  | some l => exact hinv l hl

theorem cache_add_inv (c mc : cache) (key : String) (value : ByteView)
    (hinv : c.Inv)
    (h : c.add key value = some mc) :
    mc.cacheBytes = c.cacheBytes ∧ mc.Inv := by
  obtain ⟨hw, hm⟩ := cache_store_wf c hinv
  unfold cache.add at h
  simp only [Option.map_eq_some'] at h
  obtain ⟨l1, ha, rfl⟩ := h
  obtain ⟨hw1, hm1⟩ := lru.Add_wf _ l1 key value hw ha
  refine ⟨rfl, ?_⟩
  intro l hl
  simp only [Option.some.injEq] at hl
  subst hl
  exact ⟨hw1, hm1.trans hm⟩

theorem cache_get_inv (c mc : cache) (key : String) (o : Option ByteView)
    (hinv : c.Inv)
    (h : c.get key = (o, mc)) :
    mc.cacheBytes = c.cacheBytes ∧ mc.Inv := by
  unfold cache.get at h
  cases hl : c.lru with
  | none =>
    simp only [hl, Prod.mk.injEq] at h
    obtain ⟨_, rfl⟩ := h
    exact ⟨rfl, hinv⟩
  | some l0 =>
    obtain ⟨hw, hm⟩ := hinv l0 hl
    have hgw := lru.Get_wf l0 key hw
    have hgm := lru.Get_maxBytes l0 key
    rcases hg : lru.Get l0 key with ⟨o1, l1⟩
    rw [hg] at hgw hgm
    cases o1 with
    | none =>
      simp only [hl, hg, Prod.mk.injEq] at h
      obtain ⟨_, rfl⟩ := h
      exact ⟨rfl, hinv⟩
    | some v =>
      simp only [hl, hg, Prod.mk.injEq] at h
      obtain ⟨_, rfl⟩ := h
      refine ⟨rfl, ?_⟩
      intro l hl1
      simp only [Option.some.injEq] at hl1
      subst hl1
      exact ⟨hgw, hgm.trans hm⟩

/-- A value that fits the budget on its own is stored by `cache.add` and
found by the next `cache.get`. -/
theorem cache_add_then_get (c : cache) (key : String) (value : ByteView)
    (hinv : c.Inv)
    (hfit : c.cacheBytes = 0 ∨ lru.keyLen key + value.Len ≤ c.cacheBytes) :
    ∃ mc mc2 : cache, c.add key value = some mc ∧ mc.get key = (some value, mc2) := by
  obtain ⟨hw, hm⟩ := cache_store_wf c hinv
  have hk : 0 ≤ lru.keyLen key := by unfold lru.keyLen; omega
  have hv : 0 ≤ value.Len := by unfold ByteView.Len; omega
  obtain ⟨c1, rest, ha, hll, _, _⟩ :=
    lru.Add_then_lookup _ key value hw hv (by rw [hm]; exact hfit)
  have hg := lru.Get_front c1 key value rest hll
  rcases hg2 : lru.Get c1 key with ⟨o, l1⟩
  rw [hg2] at hg
  simp only at hg
  subst hg
  refine ⟨{ c with lru := some c1 }, { c with lru := some l1 }, ?_, ?_⟩
  · unfold cache.add
    simp only [ha, Option.map_some']
  · simp only [cache.get, hg2]

end gocache

namespace gocache

/-- A new group is in the state `Group.Inv`. -/
theorem NewGroup_inv (groups : List (String × Group)) (name : String) (cacheBytes : Int)
    (getter : Getter) : (NewGroup groups name cacheBytes getter).1.Inv := by
  refine ⟨rfl, ?_⟩
  intro l hl
  cases hl

theorem getLocally_inv (g g1 : Group) (key : String) (r : Result)
    (hinv : g.mainCache.Inv) (h : g.getLocally key = .ok (r, g1)) : g1.mainCache.Inv := by
  unfold Group.getLocally at h
  cases hg : g.getter.Get key with
  | error err =>
    simp only [hg] at h
    cases h
    exact hinv
  | ok bytes =>
    simp only [hg, Group.populateCache] at h
    cases ha : g.mainCache.add key { b := cloneBytes bytes } with
    | none => simp [ha] at h
    | some mc =>
      simp only [ha] at h
      cases h
      exact (cache_add_inv g.mainCache mc key _ hinv ha).2

theorem loadFn_inv (g g1 : Group) (key : String) (named named1 : Result)
    (x : singleflight.Iface ByteView × Option Error)
    (hinv : g.mainCache.Inv) (h : Group.loadFn key (g, named) = .ok (x, (g1, named1))) :
    g1.mainCache.Inv := by
  have hloc : ∀ (g0 : Group) (n0 : Result), g0.mainCache.Inv →
      (match g0.getLocally key with
        | .error f => (.error f : Except Fault
            ((singleflight.Iface ByteView × Option Error) × (Group × Result)))
        | .ok ((v, e), g2) => .ok ((singleflight.Iface.val v, e), (g2, n0)))
        = .ok (x, (g1, named1)) → g1.mainCache.Inv := by
    intro g0 n0 h0 heq
    cases hl : g0.getLocally key with
    | error f => simp [hl] at heq
    | ok p =>
      obtain ⟨⟨v, e⟩, g2⟩ := p
      simp only [hl, Except.ok.injEq, Prod.mk.injEq] at heq
      obtain ⟨_, hg, _⟩ := heq
      subst hg
      exact getLocally_inv g0 g2 key _ h0 hl
  unfold Group.loadFn at h
  cases hp : g.peers with
  | none =>
    simp only [hp] at h
    exact hloc g named hinv h
  | some peers =>
    simp only [hp] at h
    cases hpick : peers.PickPeer key with
    | error f => simp [hpick] at h
    | ok picked =>
      cases picked with
      | none =>
        simp only [hpick] at h
        refine hloc _ named ?_ h
        exact hinv
      | some peer =>
        simp only [hpick] at h
        unfold Group.getFromPeer at h
        cases hget : peer.Get { Group := g.name, Key := key } with
        | error err =>
          simp [hget] at h
          obtain ⟨_, hg, _⟩ := h
          subst hg
          exact hinv
        | ok res =>
          simp only [hget, ne_eq, not_true_eq_false, if_false] at h
          refine hloc _ _ ?_ h
          exact hinv

/-- Every `Get` that returns leaves the group in the state `Group.Inv`. -/
theorem Get_inv (g g1 : Group) (key : String) (r : Result) (hinv : g.Inv)
    (h : g.Get key = .ok (r, g1)) : g1.Inv := by
  obtain ⟨hreg, hcache⟩ := hinv
  unfold Group.Get at h
  by_cases hkey : key = ""
  · rw [if_pos hkey] at h
    cases h
    exact ⟨hreg, hcache⟩
  · rw [if_neg hkey] at h
    rcases hc : g.mainCache.get key with ⟨o, mc⟩
    rw [hc] at h
    cases o with
    | some v =>
      simp only [Except.ok.injEq, Prod.mk.injEq] at h
      obtain ⟨_, rfl⟩ := h
      exact ⟨hreg, (cache_get_inv g.mainCache mc key _ hcache hc).2⟩
    | none =>
      simp only at h
      have hfree : g.loader.m.lookup key = none := by rw [hreg]; rfl
      unfold Group.load at h
      cases hfn : Group.loadFn key (g, (ByteView.mk [], none)) with
      | error f =>
        rw [singleflight.Do_fresh_fault _ _ _ _ f hfree hfn] at h
        cases h
      | ok p =>
        obtain ⟨⟨v, e⟩, g2, named⟩ := p
        rw [singleflight.Do_fresh _ _ _ _ _ _ _ hfree hfn] at h
        simp only [ne_eq, not_true_eq_false, if_false, Except.ok.injEq, Prod.mk.injEq] at h
        obtain ⟨_, rfl⟩ := h
        refine ⟨?_, loadFn_inv g g2 key _ named _ hcache hfn⟩
        simp [hreg]

end gocache

namespace gocache

/-- The sample group with a peer is what `RegisterPeers` returns on the fresh
sample group. -/
theorem sampleGroup_RegisterPeers (getter : Getter) (peer : PeerGetter) :
    ((sampleGroup getter).RegisterPeers (pickAlways peer)).toOption.map
        (fun g => (g.peers.isSome, g.events, g.mainCache, g.loader)) =
      some ((sampleGroupWithPeer getter peer).peers.isSome,
        (sampleGroupWithPeer getter peer).events,
        (sampleGroupWithPeer getter peer).mainCache,
        (sampleGroupWithPeer getter peer).loader) ∧
    (sampleGroup getter).RegisterPeers (pickAlways peer) =
      .ok (sampleGroupWithPeer getter peer) :=
  ⟨rfl, rfl⟩

/-- C1, evaluated: a fresh group with budget 2048, no peer picker and the
loader returning `"value-" + key`.  The loader succeeds on `"k1"` with the
bytes of `"value-k1"` and `Get("k1")` calls it once, but what `Get` returns is
the empty `ByteView` with a nil error, not those bytes. -/
theorem C1_get_miss_returns_empty_view :
    valueLoader.Get "k1" = .ok (bytesOf "value-k1") ∧
    bytesOf "value-k1" ≠ [] ∧
    ((sampleGroup valueLoader).Get "k1").toOption.map (fun r => (r.1, r.2.events)) =
      some ((ByteView.mk [], none), [Event.getterGet "k1"]) := by
  refine ⟨rfl, by decide, by decide⟩

/-- C2, evaluated: a fresh group with no peer picker and a loader that fails.
`Get("k1")` calls the loader, which returns the error `"source unavailable"`,
and `Get` returns the empty `ByteView` with a nil error: the loader's error
does not reach the caller. -/
theorem C2_get_swallows_loader_error :
    failingLoader.Get "k1" = .error "source unavailable" ∧
    ((sampleGroup failingLoader).Get "k1").toOption.map (fun r => (r.1, r.2.events)) =
      some ((ByteView.mk [], none), [Event.getterGet "k1"]) := by
  refine ⟨rfl, by decide⟩

/-- C3, evaluated: a group whose picker selects a remote peer for every key and
whose peer fetch succeeds.  `Get("k1")` fetches from the peer and then still
calls the local loader and stores the loader's bytes under `"k1"` in the local
cache. -/
theorem C3_get_peer_success_still_loads :
    remotePeer.Get { Group := "scores", Key := "k1" } =
      .ok { Value := bytesOf "remote-k1" } ∧
    ((sampleGroupWithPeer valueLoader remotePeer).Get "k1").toOption.map
        (fun r => (r.1, r.2.events, r.2.mainCache.lru.map (fun l => l.ll))) =
      some ((ByteView.mk (bytesOf "remote-k1"), none),
        [Event.pickPeer "k1", Event.peerGet { Group := "scores", Key := "k1" },
         Event.log "没有选择到正确的节点", Event.getterGet "k1"],
        some [{ key := "k1", value := ByteView.mk (bytesOf "value-k1") }]) := by
  refine ⟨rfl, by decide⟩

/-- C4, evaluated: a group whose picker selects a remote peer for every key and
whose peer fetch fails, with a loader that would succeed.  `Get("k1")` does
not call the loader at all and returns the empty `ByteView` with a nil error. -/
theorem C4_get_peer_failure_skips_loader :
    downPeer.Get { Group := "scores", Key := "k1" } = .error "peer unreachable" ∧
    valueLoader.Get "k1" = .ok (bytesOf "value-k1") ∧
    ((sampleGroupWithPeer valueLoader downPeer).Get "k1").toOption.map
        (fun r => (r.1, r.2.events, r.2.mainCache.lru.map (fun l => l.ll))) =
      some ((ByteView.mk [], none),
        [Event.pickPeer "k1", Event.peerGet { Group := "scores", Key := "k1" }],
        none) := by
  refine ⟨rfl, rfl, by decide⟩

/-- C7: for every state of a group, `Get("")` returns a non-nil error and
leaves the group as it was: its cache is unchanged and the record of calls to
the loader, to the peer picker and to peers has not grown. -/
theorem C7_get_empty_key (g : Group) :
    g.Get "" = .ok ((ByteView.mk [], some "key不能为空"), g) := by
  simp [Group.Get]

/-- C6: a group between calls with no peer picker, a non-empty key that is not
cached, a loader that succeeds on it with bytes `b`, and a budget that is 0 or
admits `len(key) + len(b)`.  The first `Get(key)` returns after one call of the
loader, and the second `Get(key)` returns `b` with a nil error without any
further call: the record of outside calls after both is the one loader call. -/
theorem C6_second_get_served_from_cache (g : Group) (key : String) (b : List UInt8)
    (hkey : key ≠ "") (hpeers : g.peers = none) (hinv : g.Inv)
    (hmiss : (g.mainCache.get key).1 = none)
    (hload : g.getter.Get key = .ok b)
    (hfit : g.mainCache.cacheBytes = 0 ∨
      lru.keyLen key + (b.length : Int) ≤ g.mainCache.cacheBytes) :
    ∃ (r1 : Result) (g1 g2 : Group),
      g.Get key = .ok (r1, g1) ∧
      g1.events = g.events ++ [Event.getterGet key] ∧
      g1.Get key = .ok ((ByteView.mk b, none), g2) ∧
      g2.events = g.events ++ [Event.getterGet key] := by
  obtain ⟨hreg, hcache⟩ := hinv
  have hfree : g.loader.m.lookup key = none := by rw [hreg]; rfl
  obtain ⟨mc, mc2, hadd, hget⟩ :=
    cache_add_then_get g.mainCache key (ByteView.mk b) hcache hfit
  have hlocal : g.getLocally key =
      .ok ((ByteView.mk b, none),
        { g with events := g.events ++ [Event.getterGet key], mainCache := mc }) := by
    simp [Group.getLocally, Group.populateCache, hload, cloneBytes, hadd]
  rw [Get_miss_no_peers g key hkey hpeers hmiss hfree, hlocal]
  refine ⟨(ByteView.mk [], none),
    { g with
      events := g.events ++ [Event.getterGet key], mainCache := mc,
      loader := { m := ((key, { done := false, val := .nil, err := none }) ::
        g.loader.m).filter (fun p => p.1 != key) } },
    { g with
      events := g.events ++ [Event.getterGet key], mainCache := mc2,
      loader := { m := ((key, { done := false, val := .nil, err := none }) ::
        g.loader.m).filter (fun p => p.1 != key) } },
    rfl, rfl, ?_, rfl⟩
  simp only [Group.Get, if_neg hkey, hget]

/-- Witness of C6: the fresh sample group with the loader of `"value-" + key`
and the key `"k1"`. -/
theorem C6_second_get_served_from_cache_witness :
    ∃ (r1 : Result) (g1 g2 : Group),
      (sampleGroup valueLoader).Get "k1" = .ok (r1, g1) ∧
      g1.events = (sampleGroup valueLoader).events ++ [Event.getterGet "k1"] ∧
      g1.Get "k1" = .ok ((ByteView.mk (bytesOf "value-k1"), none), g2) ∧
      g2.events = (sampleGroup valueLoader).events ++ [Event.getterGet "k1"] :=
  C6_second_get_served_from_cache (sampleGroup valueLoader) "k1" (bytesOf "value-k1")
    (by decide) rfl ⟨rfl, by intro l hl; cases hl⟩ rfl rfl (by decide)

end gocache

/-! ## Theorems about package `consistenthash` -/

namespace consistenthash

/-- The loop of `sort.Search` on a predicate that, once true, stays true below
`n`: it returns the least index at which the predicate holds, or the upper
bound when there is none. -/
theorem searchLoop_spec (f : Nat → Bool) (n : Nat)
    (hmono : ∀ a b, a ≤ b → b < n → f a = true → f b = true) :
    ∀ fuel i j, i ≤ j → j ≤ n → j - i ≤ fuel →
      (∀ a, a < i → f a = false) → (∀ a, j ≤ a → a < n → f a = true) →
      i ≤ searchLoop f fuel i j ∧ searchLoop f fuel i j ≤ j ∧
      (∀ a, a < searchLoop f fuel i j → f a = false) ∧
      (∀ a, searchLoop f fuel i j ≤ a → a < n → f a = true) := by
  intro fuel
  induction fuel with
  | zero =>
    intro i j hij hjn hfuel hlo hhi
    have : i = j := by omega
    subst this
    simp only [searchLoop]
    exact ⟨le_refl _, le_refl _, hlo, hhi⟩
  | succ fuel ih =>
    intro i j hij hjn hfuel hlo hhi
    by_cases hlt : i < j
    · have hh1 : i ≤ (i + j) / 2 := by omega
      have hh2 : (i + j) / 2 < j := by omega
      cases hf : f ((i + j) / 2) with
      | false =>
        have hlo1 : ∀ a, a < (i + j) / 2 + 1 → f a = false := by
          intro a ha
          cases hfa : f a with
          | false => rfl
          | true =>
            have := hmono a ((i + j) / 2) (by omega) (by omega) hfa
            rw [hf] at this
            cases this
        have := ih ((i + j) / 2 + 1) j (by omega) hjn (by omega) hlo1 hhi
        simp only [searchLoop, if_pos hlt, hf, Bool.not_false, if_true]
        exact ⟨by omega, this.2.1, this.2.2.1, this.2.2.2⟩
      | true =>
        have hhi1 : ∀ a, (i + j) / 2 ≤ a → a < n → f a = true := by
          intro a ha han
          exact hmono ((i + j) / 2) a ha han hf
        have := ih i ((i + j) / 2) hh1 (by omega) (by omega) hlo hhi1
        simp only [searchLoop, if_pos hlt, hf, Bool.not_true, Bool.false_eq_true, if_false]
        exact ⟨this.1, by omega, this.2.2.1, this.2.2.2⟩
    · have : i = j := by omega
      subst this
      simp only [searchLoop, if_neg hlt]
      exact ⟨le_refl _, le_refl _, hlo, hhi⟩

theorem Search_spec (f : Nat → Bool) (n : Nat)
    (hmono : ∀ a b, a ≤ b → b < n → f a = true → f b = true) :
    Search n f ≤ n ∧ (∀ a, a < Search n f → f a = false) ∧
    (∀ a, Search n f ≤ a → a < n → f a = true) := by
  have := searchLoop_spec f n hmono n 0 n (Nat.zero_le _) (le_refl _) (by omega)
    (by intro a ha; omega) (by intro a ha han; omega)
  exact ⟨this.2.1, this.2.2.1, this.2.2.2⟩

/-- In a sorted ring the positions grow with the index. -/
theorem sorted_getD_mono (keys : List Int) (hs : keys.Sorted (fun a b => a ≤ b))
    (a b : Nat) (hab : a ≤ b) (hb : b < keys.length) : keys.getD a 0 ≤ keys.getD b 0 := by
  rw [List.getD_eq_getElem keys 0 (by omega), List.getD_eq_getElem keys 0 hb]
  rcases Nat.eq_or_lt_of_le hab with h | h
  · subst h; exact le_refl _
  · exact List.pairwise_iff_getElem.mp hs a b (by omega) hb h

theorem getD_mem (keys : List Int) (a : Nat) (ha : a < keys.length) : keys.getD a 0 ∈ keys := by
  rw [List.getD_eq_getElem keys 0 ha]
  exact List.getElem_mem ha

theorem mem_getD (keys : List Int) (q : Int) (hq : q ∈ keys) :
    ∃ a, a < keys.length ∧ keys.getD a 0 = q := by
  obtain ⟨a, ha, h⟩ := List.getElem_of_mem hq
  exact ⟨a, ha, by rw [List.getD_eq_getElem keys 0 ha]; exact h⟩

theorem IsOwnerPos_unique (keys : List Int) (hash p q : Int)
    (hp : IsOwnerPos keys hash p) (hq : IsOwnerPos keys hash q) : p = q := by
  obtain ⟨hpm, hp1 | hp2⟩ := hp <;> obtain ⟨hqm, hq1 | hq2⟩ := hq
  · have := hp1.2 q hqm hq1.1
    have := hq1.2 p hpm hp1.1
    omega
  · have := hq2.1 p hpm
    omega
  · have := hp2.1 q hqm
    omega
  · have := hp2.2 q hqm
    have := hq2.2 p hpm
    omega

/-- The position answers for the hash in a larger ring only if it does in the
smaller one, as long as it lies in the smaller one. -/
theorem IsOwnerPos_of_subset (keys keys1 : List Int) (hash p : Int)
    (hsub : ∀ q ∈ keys, q ∈ keys1) (hp : IsOwnerPos keys1 hash p) (hmem : p ∈ keys) :
    IsOwnerPos keys hash p := by
  obtain ⟨_, hp1 | hp2⟩ := hp
  · exact ⟨hmem, Or.inl ⟨hp1.1, fun q hq hle => hp1.2 q (hsub q hq) hle⟩⟩
  · exact ⟨hmem, Or.inr ⟨fun q hq => hp2.1 q (hsub q hq), fun q hq => hp2.2 q (hsub q hq)⟩⟩

/-- On a sorted ring that is not empty, `Get` returns what the map holds for
the position that answers for the hash of the key. -/
theorem Get_spec (m : Map) (key : String) (hs : m.keys.Sorted (fun a b => a ≤ b))
    (hne : m.keys ≠ []) :
    ∃ p, IsOwnerPos m.keys (m.position key) p ∧
      m.Get key = (m.hashMap.lookup p).getD "" := by
  have hlen : m.keys.length ≠ 0 := by
    intro h; exact hne (List.length_eq_zero.mp h)
  have hpos : 0 < m.keys.length := Nat.pos_of_ne_zero hlen
  have hmono : ∀ a b, a ≤ b → b < m.keys.length →
      (fun i => decide (m.keys.getD i 0 ≥ m.position key)) a = true →
      (fun i => decide (m.keys.getD i 0 ≥ m.position key)) b = true := by
    intro a b hab hb hfa
    simp only [ge_iff_le, decide_eq_true_eq] at hfa ⊢
    exact le_trans hfa (sorted_getD_mono m.keys hs a b hab hb)
  obtain ⟨hr, hbelow, habove⟩ := Search_spec _ m.keys.length hmono
  refine ⟨m.keys.getD (Search m.keys.length
      (fun i => decide (m.keys.getD i 0 ≥ m.position key)) % m.keys.length) 0, ?_, ?_⟩
  · refine ⟨getD_mem m.keys _ (Nat.mod_lt _ hpos), ?_⟩
    rcases Nat.eq_or_lt_of_le hr with heq | hlt
    · right
      rw [heq, Nat.mod_self]
      have hall : ∀ q ∈ m.keys, q < m.position key := by
        intro q hq
        obtain ⟨a, ha, rfl⟩ := mem_getD m.keys q hq
        have := hbelow a (by rw [heq]; exact ha)
        simp only [ge_iff_le, decide_eq_false_iff_not, not_le] at this
        exact this
      refine ⟨hall, ?_⟩
      intro q hq
      obtain ⟨a, ha, rfl⟩ := mem_getD m.keys q hq
      exact sorted_getD_mono m.keys hs 0 a (Nat.zero_le _) ha
    · left
      rw [Nat.mod_eq_of_lt hlt]
      have hge := habove _ (le_refl _) hlt
      simp only [ge_iff_le, decide_eq_true_eq] at hge
      refine ⟨hge, ?_⟩
      intro q hq hle
      obtain ⟨a, ha, rfl⟩ := mem_getD m.keys q hq
      by_cases har : a < Search m.keys.length
          (fun i => decide (m.keys.getD i 0 ≥ m.position key))
      · have := hbelow a har
        simp only [ge_iff_le, decide_eq_false_iff_not, not_le] at this
        omega
      · exact sorted_getD_mono m.keys hs _ a (by omega) ha
  · simp only [Map.Get, if_neg hlen]

/-- On a sorted ring, `Get` returns what the map holds for any position that
answers for the hash of the key. -/
theorem Get_of_isOwnerPos (m : Map) (key : String) (hs : m.keys.Sorted (fun a b => a ≤ b))
    (p : Int) (hp : IsOwnerPos m.keys (m.position key) p) :
    m.Get key = (m.hashMap.lookup p).getD "" := by
  have hne : m.keys ≠ [] := by
    intro h
    have := hp.1
    rw [h] at this
    simp at this
  obtain ⟨q, hq, hget⟩ := Get_spec m key hs hne
  rw [hget, IsOwnerPos_unique m.keys _ p q hp hq]

theorem Get_empty (m : Map) (key : String) (h : m.keys = []) : m.Get key = "" := by
  simp [Map.Get, h]

theorem Add_sorted (m : Map) (keys : List String) :
    (m.Add keys).keys.Sorted (fun a b => a ≤ b) := by
  unfold Map.Add
  exact List.sorted_insertionSort _ _

theorem build_sorted (ChecksumIEEE : Hash) (replicas : Int) (fn : List Hash)
    (adds : List (List String)) :
    (Map.build ChecksumIEEE replicas fn adds).keys.Sorted (fun a b => a ≤ b) := by
  unfold Map.build
  rcases List.eq_nil_or_concat adds with h | ⟨l, x, h⟩
  · subst h
    simp [NewMap]
  · subst h
    rw [List.concat_eq_append, List.foldl_append]
    exact Add_sorted _ _

end consistenthash

namespace consistenthash

theorem Extends_refl (nodes : List String) (m : Map) : Map.Extends nodes m m :=
  ⟨rfl, rfl, [], rfl, by simp, by simp⟩

theorem Extends_trans (nodes : List String) (m m1 m2 : Map)
    (h1 : Map.Extends nodes m m1) (h2 : Map.Extends nodes m1 m2) : Map.Extends nodes m m2 := by
  obtain ⟨hh1, hr1, a1, hm1, hk1, hn1⟩ := h1
  obtain ⟨hh2, hr2, a2, hm2, hk2, hn2⟩ := h2
  refine ⟨hh2.trans hh1, hr2.trans hr1, a2 ++ a1, ?_, ?_, ?_⟩
  · rw [hm2, hm1, List.append_assoc]
  · intro p
    rw [hk2 p, hk1 p]
    simp only [List.map_append, List.mem_append]
    tauto
  · intro x hx
    rcases List.mem_append.mp hx with h | h
    · exact hn2 x h
    · exact hn1 x h

theorem Extends_mono (nodes nodes1 : List String) (m m1 : Map)
    (hsub : ∀ x ∈ nodes, x ∈ nodes1) (h : Map.Extends nodes m m1) :
    Map.Extends nodes1 m m1 := by
  obtain ⟨hh, hr, a, hm, hk, hn⟩ := h
  exact ⟨hh, hr, a, hm, hk, fun x hx => hsub _ (hn x hx)⟩

theorem addReplica_extends (nodes : List String) (key : String) (hkey : key ∈ nodes)
    (m : Map) (i : Nat) : Map.Extends nodes m (Map.addReplica key m i) := by
  refine ⟨rfl, rfl, [(m.position (Itoa i ++ key), key)], rfl, ?_, ?_⟩
  · intro p
    simp [Map.addReplica]
  · intro x hx
    simp only [List.mem_singleton] at hx
    subst hx
    exact hkey

theorem addNode_extends (nodes : List String) (key : String) (hkey : key ∈ nodes)
    (m : Map) : Map.Extends nodes m (m.addNode key) := by
  unfold Map.addNode
  generalize List.range m.replicas.toNat = l
  induction l generalizing m with
  | nil => exact Extends_refl nodes m
  | cons i t ih =>
    rw [List.foldl_cons]
    exact Extends_trans nodes m _ _ (addReplica_extends nodes key hkey m i) (ih _)

theorem foldl_addNode_extends (nodes keys : List String) (hsub : ∀ x ∈ keys, x ∈ nodes)
    (m : Map) : Map.Extends nodes m (keys.foldl Map.addNode m) := by
  induction keys generalizing m with
  | nil => exact Extends_refl nodes m
  | cons k t ih =>
    rw [List.foldl_cons]
    exact Extends_trans nodes m _ _
      (addNode_extends nodes k (hsub k (List.mem_cons_self _ _)) m)
      (ih (fun x hx => hsub x (List.mem_cons_of_mem _ hx)) _)

/-- The ring after `Add(keys...)` is the ring before with further virtual
nodes of `keys`. -/
theorem Add_extends (m : Map) (keys : List String) : Map.Extends keys m (m.Add keys) := by
  obtain ⟨hh, hr, a, hm, hk, hn⟩ := foldl_addNode_extends keys keys (fun _ h => h) m
  refine ⟨hh, hr, a, hm, ?_, hn⟩
  intro p
  rw [← hk p]
  unfold Map.Add
  exact List.mem_insertionSort _

theorem build_extends (ChecksumIEEE : Hash) (replicas : Int) (fn : List Hash)
    (adds : List (List String)) :
    Map.Extends adds.flatten (NewMap ChecksumIEEE replicas fn)
      (Map.build ChecksumIEEE replicas fn adds) := by
  unfold Map.build
  generalize NewMap ChecksumIEEE replicas fn = m0
  induction adds using List.reverseRecOn with
  | nil => exact Extends_refl _ _
  | append_singleton l x ih =>
    rw [List.foldl_append]
    simp only [List.foldl_cons, List.foldl_nil]
    refine Extends_trans _ m0 _ _ (Extends_mono _ _ _ _ ?_ ih)
      (Extends_mono _ _ _ _ ?_ (Add_extends _ x))
    · intro y hy; simp only [List.flatten_append, List.mem_append]; exact Or.inl hy
    · intro y hy; simp [hy]

theorem lookup_of_mem_keys (l : List (Int × String)) (p : Int)
    (h : p ∈ l.map Prod.fst) : ∃ s, l.lookup p = some s ∧ (p, s) ∈ l := by
  induction l with
  | nil => simp at h
  | cons x t ih =>
    obtain ⟨q, s⟩ := x
    by_cases hq : p = q
    · subst hq
      exact ⟨s, by simp [List.lookup], List.mem_cons_self _ _⟩
    · have ht : p ∈ t.map Prod.fst := by
        simp only [List.map_cons, List.mem_cons] at h
        rcases h with h | h
        · exact absurd h hq
        · exact h
      obtain ⟨s1, hs1, hm1⟩ := ih ht
      refine ⟨s1, ?_, List.mem_cons_of_mem _ hm1⟩
      have : (p == q) = false := by simpa using hq
      simp [List.lookup, this, hs1]

theorem lookup_of_not_mem_keys (l : List (Int × String)) (p : Int)
    (h : p ∉ l.map Prod.fst) : l.lookup p = none := by
  induction l with
  | nil => rfl
  | cons x t ih =>
    obtain ⟨q, s⟩ := x
    simp only [List.map_cons, List.mem_cons, not_or] at h
    have : (p == q) = false := by simpa using h.1
    simp [List.lookup, this, ih h.2]

/-- In a ring that extends another the map holds, for a position of the
extension, one of the new nodes, and for any other position what it held. -/
theorem Extends_lookup (nodes : List String) (m m1 : Map) (h : Map.Extends nodes m m1)
    (p : Int) :
    (∃ s ∈ nodes, m1.hashMap.lookup p = some s) ∨
    ((p ∈ m1.keys → p ∈ m.keys) ∧ m1.hashMap.lookup p = m.hashMap.lookup p) := by
  obtain ⟨_, _, a, hm, hk, hn⟩ := h
  by_cases hp : p ∈ a.map Prod.fst
  · left
    obtain ⟨s, hs, hmem⟩ := lookup_of_mem_keys a p hp
    exact ⟨s, hn _ hmem, by rw [hm, List.lookup_append, hs]; rfl⟩
  · right
    refine ⟨?_, ?_⟩
    · intro hp1
      rcases (hk p).mp hp1 with h1 | h1
      · exact h1
      · exact absurd h1 hp
    · rw [hm, List.lookup_append, lookup_of_not_mem_keys a p hp]
      rfl

theorem Extends_position (nodes : List String) (m m1 : Map) (h : Map.Extends nodes m m1)
    (s : String) : m1.position s = m.position s := by
  unfold Map.position
  rw [h.1]

/-- Every position of a ring built by the package has a node recorded. -/
theorem build_recorded (ChecksumIEEE : Hash) (replicas : Int) (fn : List Hash)
    (adds : List (List String)) (p : Int)
    (hp : p ∈ (Map.build ChecksumIEEE replicas fn adds).keys) :
    ∃ s ∈ adds.flatten, (Map.build ChecksumIEEE replicas fn adds).hashMap.lookup p = some s := by
  rcases Extends_lookup _ _ _ (build_extends ChecksumIEEE replicas fn adds) p with h | h
  · exact h
  · have := h.1 hp
    simp [NewMap] at this

/-- The owner after `Add(nodes...)` on a sorted ring is the owner before or
one of the added nodes. -/
theorem Add_owner (m : Map) (hs : m.keys.Sorted (fun a b => a ≤ b)) (nodes : List String)
    (key : String) :
    (m.Add nodes).Get key = m.Get key ∨ (m.Add nodes).Get key ∈ nodes := by
  have hext := Add_extends m nodes
  have hs1 := Add_sorted m nodes
  by_cases hne : (m.Add nodes).keys = []
  · left
    have hm : m.keys = [] := by
      apply List.eq_nil_iff_forall_not_mem.mpr
      intro q hq
      have : q ∈ (m.Add nodes).keys := (hext.2.2.choose_spec.2.1 q).mpr (Or.inl hq)
      rw [hne] at this
      simp at this
    rw [Get_empty _ key hne, Get_empty _ key hm]
  · obtain ⟨p, hp, hget⟩ := Get_spec (m.Add nodes) key hs1 hne
    rcases Extends_lookup nodes m _ hext p with ⟨s, hsn, hl⟩ | ⟨hmem, hl⟩
    · right
      rw [hget, hl]
      exact hsn
    · left
      have hpm : p ∈ m.keys := hmem hp.1
      rw [Extends_position nodes m _ hext key] at hp
      have hsub : ∀ q ∈ m.keys, q ∈ (m.Add nodes).keys := by
        intro q hq
        exact (hext.2.2.choose_spec.2.1 q).mpr (Or.inl hq)
      have hp0 := IsOwnerPos_of_subset m.keys _ _ p hsub hp hpm
      rw [hget, hl, Get_of_isOwnerPos m key hs p hp0]

end consistenthash

namespace consistenthash

/-- C12: on every ring `m` built by `NewMap` and any sequence of `Add` calls,
`Get(key)` returns `""` when the ring has no positions; otherwise it returns
the node recorded for the smallest position that is not below the hash of the
key (a position equal to the hash is that position), or, when every position
is below the hash, the node recorded for the smallest position of all.  Such
a position exists whenever the ring is not empty. -/
theorem C12_get_ring_successor (ChecksumIEEE : Hash) (replicas : Int) (fn : List Hash)
    (adds : List (List String)) (key : String) (m : Map)
    (hm : m = Map.build ChecksumIEEE replicas fn adds) :
    (m.keys = [] → m.Get key = "") ∧
    (∀ p ∈ m.keys, m.position key ≤ p → (∀ q ∈ m.keys, m.position key ≤ q → p ≤ q) →
      m.hashMap.lookup p = some (m.Get key)) ∧
    ((∀ q ∈ m.keys, q < m.position key) → ∀ p ∈ m.keys, (∀ q ∈ m.keys, p ≤ q) →
      m.hashMap.lookup p = some (m.Get key)) ∧
    (m.keys ≠ [] → ∃ p, IsOwnerPos m.keys (m.position key) p ∧
      m.hashMap.lookup p = some (m.Get key)) := by
  subst hm
  have hs := build_sorted ChecksumIEEE replicas fn adds
  have hrec : ∀ p, IsOwnerPos (Map.build ChecksumIEEE replicas fn adds).keys
      ((Map.build ChecksumIEEE replicas fn adds).position key) p →
      (Map.build ChecksumIEEE replicas fn adds).hashMap.lookup p =
        some ((Map.build ChecksumIEEE replicas fn adds).Get key) := by
    intro p hp
    obtain ⟨s, _, hl⟩ := build_recorded ChecksumIEEE replicas fn adds p hp.1
    rw [Get_of_isOwnerPos _ key hs p hp, hl]
    rfl
  refine ⟨Get_empty _ key, ?_, ?_, ?_⟩
  · intro p hp hle hmin
    exact hrec p ⟨hp, Or.inl ⟨hle, hmin⟩⟩
  · intro hall p hp hmin
    exact hrec p ⟨hp, Or.inr ⟨hall, hmin⟩⟩
  · intro hne
    obtain ⟨p, hp, _⟩ := Get_spec _ key hs hne
    exact ⟨p, hp, hrec p hp⟩

/-- Witness of C12: the ring of the nodes `6`, `4`, `2` with three replicas
under the sample hash has the positions 98 to 104; the key `e` has the hash
101, for which position 101 answers, and the node recorded there is `4`. -/
theorem C12_get_ring_successor_witness :
    (Map.build sumHash 3 [] [["6", "4", "2"]]).keys = [98, 99, 100, 100, 101, 102, 102, 103, 104] ∧
    (Map.build sumHash 3 [] [["6", "4", "2"]]).position "e" = 101 ∧
    (Map.build sumHash 3 [] [["6", "4", "2"]]).hashMap.lookup 101 =
      some ((Map.build sumHash 3 [] [["6", "4", "2"]]).Get "e") ∧
    (Map.build sumHash 3 [] [["6", "4", "2"]]).Get "e" = "4" :=
  ⟨by decide, by decide,
   (C12_get_ring_successor sumHash 3 [] [["6", "4", "2"]] "e" _ rfl).2.1 101
     (by decide) (by decide) (by decide),
   by decide⟩

/-- C13: on every ring built by `NewMap` and any sequence of `Add` calls, with
any hash function, for every node `n` and every key, the owner that `Get`
returns after `Add(n)` is the owner it returned before or `n` itself. -/
theorem C13_add_moves_keys_only_to_new_node (ChecksumIEEE : Hash) (replicas : Int)
    (fn : List Hash) (adds : List (List String)) (n key : String) :
    ((Map.build ChecksumIEEE replicas fn adds).Add [n]).Get key =
        (Map.build ChecksumIEEE replicas fn adds).Get key ∨
    ((Map.build ChecksumIEEE replicas fn adds).Add [n]).Get key = n := by
  rcases Add_owner _ (build_sorted ChecksumIEEE replicas fn adds) [n] key with h | h
  · exact Or.inl h
  · exact Or.inr (by simpa using h)

end consistenthash

/-! ## Theorems about the peer transport -/

namespace gocache

theorem httpGetters_lookup (basePath : String) (peers : List String) (peer : String) :
    ∀ acc : List (String × httpGetter),
      (peers.foldl (fun getters p => (p, ({ bashUrl := p ++ basePath } : httpGetter)) :: getters)
        acc).lookup peer =
      if peer ∈ peers then some { bashUrl := peer ++ basePath } else acc.lookup peer := by
  induction peers with
  | nil => intro acc; simp
  | cons p t ih =>
    intro acc
    rw [List.foldl_cons, ih]
    by_cases ht : peer ∈ t
    · simp [ht]
    · by_cases hp : peer = p
      · subst hp
        simp [ht, List.lookup]
      · have hb : (peer == p) = false := by simpa using hp
        simp [ht, hp, List.lookup, hb]

/-- The owner that the ring of a pool returns is one of the peers passed to
`Set`, or `""` when the ring is empty. -/
theorem ring_owner_mem (ChecksumIEEE : consistenthash.Hash) (peers : List String)
    (key : String) :
    ((consistenthash.NewMap ChecksumIEEE defaultReplicas []).Add peers).Get key = "" ∨
    ((consistenthash.NewMap ChecksumIEEE defaultReplicas []).Add peers).Get key ∈ peers := by
  have hb : (consistenthash.NewMap ChecksumIEEE defaultReplicas []).Add peers =
      consistenthash.Map.build ChecksumIEEE defaultReplicas [] [peers] := rfl
  rw [hb]
  by_cases hne : (consistenthash.Map.build ChecksumIEEE defaultReplicas [] [peers]).keys = []
  · left
    exact consistenthash.Get_empty _ key hne
  · right
    obtain ⟨p, hp, hget⟩ := consistenthash.Get_spec _ key
      (consistenthash.build_sorted ChecksumIEEE defaultReplicas [] [peers]) hne
    obtain ⟨s, hs, hl⟩ :=
      consistenthash.build_recorded ChecksumIEEE defaultReplicas [] [peers] p hp.1
    rw [hget, hl]
    simpa using hs

/-- C14: on a pool on which `Set(peers...)` has been called, `PickPeer(key)`
returns without a panic; it returns `found = false` when the peer list is
empty and when the owner of the key on the ring is the pool itself; and
whenever it returns `found = true`, the client is the stub that `Set` created
for the owner of the key, with the address of that owner followed by the base
path, and that owner is one of the peers passed to `Set` and is not the pool
itself. -/
theorem C14_pickPeer_after_set (ChecksumIEEE : consistenthash.Hash) (h0 : HTTPPool)
    (peers : List String) (key : String) :
    (h0.Set ChecksumIEEE peers).peers =
      some ((consistenthash.NewMap ChecksumIEEE defaultReplicas []).Add peers) ∧
    (∃ r, (h0.Set ChecksumIEEE peers).PickPeer key = .ok r) ∧
    (peers = [] → (h0.Set ChecksumIEEE peers).PickPeer key = .ok none) ∧
    (((consistenthash.NewMap ChecksumIEEE defaultReplicas []).Add peers).Get key = h0.self →
      (h0.Set ChecksumIEEE peers).PickPeer key = .ok none) ∧
    (∀ client, (h0.Set ChecksumIEEE peers).PickPeer key = .ok (some client) →
      client = some { bashUrl :=
        ((consistenthash.NewMap ChecksumIEEE defaultReplicas []).Add peers).Get key
          ++ h0.basePath } ∧
      ((consistenthash.NewMap ChecksumIEEE defaultReplicas []).Add peers).Get key ∈ peers ∧
      ((consistenthash.NewMap ChecksumIEEE defaultReplicas []).Add peers).Get key ≠ h0.self) := by
  refine ⟨rfl, ?_, ?_, ?_, ?_⟩
  · simp only [HTTPPool.PickPeer, HTTPPool.Set]
    split <;> exact ⟨_, rfl⟩
  · intro hnil
    subst hnil
    have : ((consistenthash.NewMap ChecksumIEEE defaultReplicas []).Add []).Get key = "" :=
      consistenthash.Get_empty _ key rfl
    simp [HTTPPool.PickPeer, HTTPPool.Set, this]
  · intro hself
    simp [HTTPPool.PickPeer, HTTPPool.Set, hself]
  · intro client hc
    simp only [HTTPPool.PickPeer, HTTPPool.Set] at hc
    split at hc
    · rename_i hcond
      simp only [Except.ok.injEq, Option.some.injEq] at hc
      have hmem : ((consistenthash.NewMap ChecksumIEEE defaultReplicas []).Add peers).Get key
          ∈ peers := by
        rcases ring_owner_mem ChecksumIEEE peers key with h | h
        · exact absurd h hcond.1
        · exact h
      rw [httpGetters_lookup, if_pos hmem] at hc
      exact ⟨hc.symm, hmem, hcond.2⟩
    · simp at hc

set_option maxRecDepth 100000

/-- Witness of C14: on the sample pool the key `zzzzzzzzzzzzzzmm` is owned by
the other node, whose stub is returned, and the key `k1` is owned by the pool
itself. -/
theorem C14_pickPeer_after_set_witness :
    samplePool.PickPeer "zzzzzzzzzzzzzzmm" =
      .ok (some (some { bashUrl := "http://localhost:8002/_gocache/" })) ∧
    samplePool.PickPeer "k1" = .ok none ∧
    (some { bashUrl := "http://localhost:8002/_gocache/" } : Option httpGetter) =
      some { bashUrl :=
        ((consistenthash.NewMap consistenthash.sumHash defaultReplicas []).Add
          ["http://localhost:8001", "http://localhost:8002"]).Get "zzzzzzzzzzzzzzmm"
          ++ (NewHTTPPool "http://localhost:8001" []).basePath } :=
  ⟨by decide, by decide,
   ((C14_pickPeer_after_set consistenthash.sumHash (NewHTTPPool "http://localhost:8001" [])
      ["http://localhost:8001", "http://localhost:8002"] "zzzzzzzzzzzzzzmm").2.2.2.2
      (some { bashUrl := "http://localhost:8002/_gocache/" }) (by decide)).1⟩

end gocache

namespace gocache

theorem cache_add_total (c : cache) (key : String) (value : ByteView) (hinv : c.Inv)
    (hb : 0 ≤ c.cacheBytes) : ∃ mc, c.add key value = some mc := by
  obtain ⟨hw, hm⟩ := cache_store_wf c hinv
  obtain ⟨c1, _, ha, _⟩ := lru.Add_take _ key value hw (by rw [hm]; exact hb)
  exact ⟨{ c with lru := some c1 }, by unfold cache.add; simp only [ha, Option.map_some']⟩

theorem getLocally_total (g : Group) (key : String) (hinv : g.mainCache.Inv)
    (hb : 0 ≤ g.mainCache.cacheBytes) : ∃ r g1, g.getLocally key = .ok (r, g1) := by
  unfold Group.getLocally
  cases hg : g.getter.Get key with
  | error err => exact ⟨_, _, rfl⟩
  | ok bytes =>
    obtain ⟨mc, ha⟩ := cache_add_total g.mainCache key { b := cloneBytes bytes } hinv hb
    simp only [Group.populateCache, ha]
    exact ⟨_, _, rfl⟩

theorem loadFn_total (g : Group) (key : String) (named : Result) (hinv : g.mainCache.Inv)
    (hb : 0 ≤ g.mainCache.cacheBytes)
    (hpk : ∀ p, g.peers = some p → ∃ r, p.PickPeer key = .ok r) :
    ∃ x s, Group.loadFn key (g, named) = .ok (x, s) := by
  have hloc : ∀ (g0 : Group) (n0 : Result), g0.mainCache.Inv → 0 ≤ g0.mainCache.cacheBytes →
      ∃ x s, (match g0.getLocally key with
        | .error f => (.error f : Except Fault
            ((singleflight.Iface ByteView × Option Error) × (Group × Result)))
        | .ok ((v, e), g2) => .ok ((singleflight.Iface.val v, e), (g2, n0))) = .ok (x, s) := by
    intro g0 n0 h0 hb0
    obtain ⟨⟨v, e⟩, g2, hl⟩ := getLocally_total g0 key h0 hb0
    rw [hl]
    exact ⟨_, _, rfl⟩
  unfold Group.loadFn
  cases hp : g.peers with
  | none =>
    simp only [hp]
    exact hloc g named hinv hb
  | some peers =>
    simp only [hp]
    obtain ⟨picked, hpick⟩ := hpk peers hp
    cases picked with
    | none =>
      simp only [hpick]
      refine hloc _ named ?_ ?_
      · exact hinv
      · exact hb
    | some peer =>
      simp only [hpick]
      unfold Group.getFromPeer
      cases hget : peer.Get { Group := g.name, Key := key } with
      | error err =>
        simp only [hget, ne_eq, reduceCtorEq, not_false_eq_true, if_true]
        exact ⟨_, _, rfl⟩
      | ok res =>
        simp only [hget, ne_eq, not_true_eq_false, if_false]
        refine hloc _ _ ?_ ?_
        · exact hinv
        · exact hb

/-- A group between calls whose budget is not negative and whose picker, if
one is registered, returns for the key, answers `Get` of that key. -/
theorem Get_total (g : Group) (key : String) (hinv : g.Inv)
    (hb : 0 ≤ g.mainCache.cacheBytes)
    (hpk : ∀ p, g.peers = some p → ∃ r, p.PickPeer key = .ok r) :
    ∃ r g1, g.Get key = .ok (r, g1) := by
  obtain ⟨hreg, hcache⟩ := hinv
  unfold Group.Get
  by_cases hkey : key = ""
  · rw [if_pos hkey]
    exact ⟨_, _, rfl⟩
  · rw [if_neg hkey]
    rcases hc : g.mainCache.get key with ⟨o, mc⟩
    cases o with
    | some v => exact ⟨_, _, rfl⟩
    | none =>
      simp only
      have hfree : g.loader.m.lookup key = none := by rw [hreg]; rfl
      obtain ⟨⟨v, e⟩, ⟨g2, named⟩, hfn⟩ := loadFn_total g key (ByteView.mk [], none) hcache hb hpk
      unfold Group.load
      rw [singleflight.Do_fresh _ _ _ _ _ _ _ hfree hfn]
      simp only [ne_eq, not_true_eq_false, if_false]
      exact ⟨_, _, rfl⟩

/-- A miss on a group between calls whose picker panics for the key: `Get`
panics as the picker does. -/
theorem Get_picker_fault (g : Group) (key : String) (p : PeerPicker) (f : Fault)
    (hinv : g.Inv) (hkey : key ≠ "") (hmiss : (g.mainCache.get key).1 = none)
    (hp : g.peers = some p) (hpick : p.PickPeer key = .error f) :
    g.Get key = .error f := by
  obtain ⟨hreg, _⟩ := hinv
  have hfree : g.loader.m.lookup key = none := by rw [hreg]; rfl
  unfold Group.Get
  rw [if_neg hkey]
  rcases hc : g.mainCache.get key with ⟨o, mc⟩
  rw [hc] at hmiss
  simp only at hmiss
  subst hmiss
  simp only
  have hfn : Group.loadFn key (g, (ByteView.mk [], none)) = .error f := by
    simp [Group.loadFn, hp, hpick]
  unfold Group.load
  rw [singleflight.Do_fresh_fault _ _ _ _ f hfree hfn]

theorem SplitN2_no_slash (r : List Char) (h : '/' ∉ r) : SplitN2 r = [r] := by
  induction r with
  | nil => rfl
  | cons c t ih =>
    simp only [List.mem_cons, not_or] at h
    have hc : c ≠ '/' := fun hc => h.1 hc.symm
    simp only [SplitN2, if_neg hc, ih h.2]

theorem SplitN2_slash (a b : List Char) (h : '/' ∉ a) : SplitN2 (a ++ '/' :: b) = [a, b] := by
  induction a with
  | nil => simp [SplitN2]
  | cons c t ih =>
    simp only [List.mem_cons, not_or] at h
    have hc : c ≠ '/' := fun hc => h.1 hc.symm
    have ih1 := ih h.2
    rw [List.cons_append]
    simp only [SplitN2, if_neg hc]
    rw [ih1]

/-- A text holds no `/`, or splits at its first `/`. -/
theorem split_cases (r : List Char) :
    '/' ∉ r ∨ ∃ a b, r = a ++ '/' :: b ∧ '/' ∉ a := by
  induction r with
  | nil => left; simp
  | cons c t ih =>
    by_cases hc : c = '/'
    · right
      exact ⟨[], t, by simp [hc], by simp⟩
    · rcases ih with h | ⟨a, b, hab, ha⟩
      · left
        simp only [List.mem_cons, not_or]
        exact ⟨fun h1 => hc h1.symm, h⟩
      · right
        refine ⟨c :: a, b, by simp [hab], ?_⟩
        simp only [List.mem_cons, not_or]
        exact ⟨fun h1 => hc h1.symm, ha⟩

end gocache

namespace gocache

/-- What `ServeHTTP` does on a path with the prefix whose remainder holds
no `/`. -/
theorem ServeHTTP_no_slash (Marshal : pb.Response → Except Error (List UInt8)) (h : HTTPPool)
    (groups : List (String × Group)) (path : String)
    (hpre : h.basePath.data.isPrefixOf path.data = true)
    (hno : '/' ∉ path.data.drop h.basePath.data.length) :
    h.ServeHTTP Marshal groups path = .ok (httpError "错误请求" 400, groups) := by
  unfold HTTPPool.ServeHTTP
  simp only [hpre, Bool.not_true, Bool.false_eq_true, if_false, SplitN2_no_slash _ hno]

/-- What `ServeHTTP` does on a path with the prefix whose remainder is `a`,
a `/` and `b`, with no `/` in `a`. -/
theorem ServeHTTP_slash (Marshal : pb.Response → Except Error (List UInt8)) (h : HTTPPool)
    (groups : List (String × Group)) (path : String) (a b : List Char)
    (hpre : h.basePath.data.isPrefixOf path.data = true)
    (hr : path.data.drop h.basePath.data.length = a ++ '/' :: b) (ha : '/' ∉ a) :
    h.ServeHTTP Marshal groups path =
      match GetGroup groups (String.mk a) with
      | none => .ok (httpError ("没有该group: " ++ String.mk a) 404, groups)
      | some group =>
        match group.Get (String.mk b) with
        | .error f => .error f
        | .ok ((view, err), group1) =>
          match err with
          | some e => .ok (httpError e 500, setGroup groups (String.mk a) group1)
          | none =>
            match Marshal { Value := view.ByteSlice } with
            | .error e => .ok (httpError e 500, setGroup groups (String.mk a) group1)
            | .ok body =>
              .ok ({ status := 200, contentType := "application/octet-stream", body := body },
                setGroup groups (String.mk a) group1) := by
  unfold HTTPPool.ServeHTTP
  simp only [hpre, Bool.not_true, Bool.false_eq_true, if_false, hr, SplitN2_slash a b ha]

/-- The status that `ServeHTTP` writes once the group has answered. -/
theorem ServeHTTP_slash_status (Marshal : pb.Response → Except Error (List UInt8))
    (h : HTTPPool) (groups : List (String × Group)) (path : String) (a b : List Char)
    (hpre : h.basePath.data.isPrefixOf path.data = true)
    (hr : path.data.drop h.basePath.data.length = a ++ '/' :: b) (ha : '/' ∉ a)
    (resp : HTTPResponse) (groups1 : List (String × Group))
    (hs : h.ServeHTTP Marshal groups path = .ok (resp, groups1)) :
    (GetGroup groups (String.mk a) = none ∧ resp.status = 404) ∨
    (∃ g r g1, GetGroup groups (String.mk a) = some g ∧ g.Get (String.mk b) = .ok (r, g1) ∧
      groups1 = setGroup groups (String.mk a) g1 ∧ (resp.status = 200 ∨ resp.status = 500)) := by
  rw [ServeHTTP_slash Marshal h groups path a b hpre hr ha] at hs
  cases hg : GetGroup groups (String.mk a) with
  | none =>
    simp only [hg, Except.ok.injEq, Prod.mk.injEq] at hs
    left
    exact ⟨rfl, by rw [← hs.1]; rfl⟩
  | some g =>
    right
    simp only [hg] at hs
    cases hget : g.Get (String.mk b) with
    | error f => simp [hget] at hs
    | ok p =>
      obtain ⟨⟨view, err⟩, g1⟩ := p
      simp only [hget] at hs
      refine ⟨g, (view, err), g1, rfl, hget, ?_⟩
      cases err with
      | some e =>
        simp only [Except.ok.injEq, Prod.mk.injEq] at hs
        exact ⟨hs.2.symm, Or.inr (by rw [← hs.1]; rfl)⟩
      | none =>
        simp only at hs
        cases hm : Marshal { Value := view.ByteSlice } with
        | error e =>
          simp only [hm, Except.ok.injEq, Prod.mk.injEq] at hs
          exact ⟨hs.2.symm, Or.inr (by rw [← hs.1]; rfl)⟩
        | ok body =>
          simp only [hm, Except.ok.injEq, Prod.mk.injEq] at hs
          exact ⟨hs.2.symm, Or.inl (by rw [← hs.1])⟩

end gocache

namespace gocache

/-- C15, evaluated: the stub that `Set` creates for the peer
`http://localhost:8002` requests, for the group `scores` and the key `k1`, the
URL `http://localhost:8002/_gocache//scores/k1`.  Its path has two slashes
after the base path, so `ServeHTTP` of a pool with the same base path splits
it into the group name `""` and the key `scores/k1`, and answers 404 although
the group `scores` is registered. -/
theorem C15_client_url_has_empty_group_segment :
    samplePool.httpGetters.lookup "http://localhost:8002" =
      some { bashUrl := "http://localhost:8002/_gocache/" } ∧
    (httpGetter.mk "http://localhost:8002/_gocache/").requestURL
        { Group := "scores", Key := "k1" } = "http://localhost:8002/_gocache//scores/k1" ∧
    urlPath "http://localhost:8002/_gocache//scores/k1" = "/_gocache//scores/k1" ∧
    SplitN2 ("/_gocache//scores/k1".data.drop
        (NewHTTPPool "http://localhost:8002" []).basePath.data.length) =
      ["".data, "scores/k1".data] ∧
    (GetGroup sampleGroups "scores").isSome = true ∧
    ((NewHTTPPool "http://localhost:8002" []).ServeHTTP rawMarshal sampleGroups
        "/_gocache//scores/k1").toOption.map (fun r => r.1.status) = some 404 := by
  refine ⟨by decide, by decide, by decide, by decide, by decide, by decide⟩

/-- C16 as stated fails: on a path without the base path `ServeHTTP` panics and
writes no response. -/
theorem C16_counterexample :
    (NewHTTPPool "http://localhost:8001" []).ServeHTTP rawMarshal sampleGroups "/other/scores/k1"
      = .error (Fault.panic "错误路径: /other/scores/k1") := by
  rfl

/-- C16, amended: on a path that starts with the base path, with every
registered group between calls, of a budget that is not negative and with a
peer picker, if it has one, that returns for every key, `ServeHTTP` returns
without a panic after writing a response whose status is 200, 400, 404 or 500;
on a path that does not start with the base path it panics with the message of
its guard; and on a path that starts with the base path and names a registered
group between calls and a key that is not empty and not cached, it panics when
the group's picker does, as the picker `HTTPPool` does before `Set`. -/
theorem C16_serve_answers_or_panics (Marshal : pb.Response → Except Error (List UInt8))
    (h : HTTPPool) (groups : List (String × Group)) (path : String) :
    (h.basePath.data.isPrefixOf path.data = true →
      (∀ name g, GetGroup groups name = some g → g.Inv ∧ 0 ≤ g.mainCache.cacheBytes ∧
        ∀ p, g.peers = some p → ∀ key, ∃ r, p.PickPeer key = .ok r) →
      ∃ resp groups1, h.ServeHTTP Marshal groups path = .ok (resp, groups1) ∧
        (resp.status = 200 ∨ resp.status = 400 ∨ resp.status = 404 ∨ resp.status = 500)) ∧
    (h.basePath.data.isPrefixOf path.data = false →
      h.ServeHTTP Marshal groups path = .error (Fault.panic ("错误路径: " ++ path))) ∧
    (h.basePath.data.isPrefixOf path.data = true →
      ∀ (a b : List Char) (g : Group) (p : PeerPicker) (f : Fault),
        path.data.drop h.basePath.data.length = a ++ '/' :: b → '/' ∉ a →
        GetGroup groups (String.mk a) = some g → g.Inv → String.mk b ≠ "" →
        (g.mainCache.get (String.mk b)).1 = none →
        g.peers = some p → p.PickPeer (String.mk b) = .error f →
        h.ServeHTTP Marshal groups path = .error f) := by
  refine ⟨?_, ?_, ?_⟩
  · intro hpre hgroups
    rcases split_cases (path.data.drop h.basePath.data.length) with hno | ⟨a, b, hr, ha⟩
    · exact ⟨_, _, ServeHTTP_no_slash Marshal h groups path hpre hno, Or.inr (Or.inl rfl)⟩
    · rw [ServeHTTP_slash Marshal h groups path a b hpre hr ha]
      cases hg : GetGroup groups (String.mk a) with
      | none => exact ⟨_, _, rfl, Or.inr (Or.inr (Or.inl rfl))⟩
      | some g =>
        obtain ⟨hinv, hb, hpk⟩ := hgroups _ g hg
        obtain ⟨⟨view, err⟩, g1, hget⟩ :=
          Get_total g (String.mk b) hinv hb (fun p hp => hpk p hp (String.mk b))
        simp only [hget]
        cases err with
        | some e => exact ⟨_, _, rfl, Or.inr (Or.inr (Or.inr rfl))⟩
        | none =>
          simp only
          cases hm : Marshal { Value := view.ByteSlice } with
          | error e => exact ⟨_, _, rfl, Or.inr (Or.inr (Or.inr rfl))⟩
          | ok body => exact ⟨_, _, rfl, Or.inl rfl⟩
  · intro hpre
    unfold HTTPPool.ServeHTTP
    simp only [hpre, Bool.not_false, if_true]
  · intro hpre a b g p f hr ha hg hinv hkey hmiss hp hpick
    rw [ServeHTTP_slash Marshal h groups path a b hpre hr ha, hg]
    simp only [Get_picker_fault g (String.mk b) p f hinv hkey hmiss hp hpick]

/-- Witness of C16: the sample pool with the sample registry answers the path
`/_gocache/scores/k1`, and panics on `/other/scores/k1`; with the registry
whose group has a pool without `Set` as its picker it panics on
`/_gocache/scores/k1`. -/
theorem C16_serve_answers_or_panics_witness :
    (∃ resp groups1,
      samplePool.ServeHTTP rawMarshal sampleGroups "/_gocache/scores/k1" = .ok (resp, groups1) ∧
      (resp.status = 200 ∨ resp.status = 400 ∨ resp.status = 404 ∨ resp.status = 500)) ∧
    samplePool.ServeHTTP rawMarshal sampleGroups "/other/scores/k1" =
      .error (Fault.panic ("错误路径: " ++ "/other/scores/k1")) ∧
    samplePool.ServeHTTP rawMarshal unsetPoolGroups "/_gocache/scores/k1" =
      .error (Fault.panic "nil pointer dereference") :=
  ⟨(C16_serve_answers_or_panics rawMarshal samplePool sampleGroups "/_gocache/scores/k1").1
      (by decide)
      (by
        intro name g hg
        simp only [GetGroup, sampleGroups, NewGroup, List.filter_nil, List.lookup] at hg
        split at hg
        · simp only [Option.some.injEq] at hg
          subst hg
          exact ⟨⟨rfl, by intro l hl; cases hl⟩, by decide, by intro p hp; cases hp⟩
        · cases hg),
   (C16_serve_answers_or_panics rawMarshal samplePool sampleGroups "/other/scores/k1").2.1
      (by decide),
   (C16_serve_answers_or_panics rawMarshal samplePool unsetPoolGroups "/_gocache/scores/k1").2.2
      (by decide) "scores".data "k1".data
      { sampleGroup valueLoader with
        peers := some ((NewHTTPPool "http://localhost:8001" []).asPeerPicker refusedFetch) }
      ((NewHTTPPool "http://localhost:8001" []).asPeerPicker refusedFetch)
      (Fault.panic "nil pointer dereference")
      (by decide) (by decide) rfl ⟨rfl, by intro l hl; cases hl⟩ (by decide) rfl rfl rfl⟩

/-- C17: on a path that starts with the base path, with remainder `r` after
it: when `r` holds no `/`, `ServeHTTP` answers 400 and leaves the registry as
it was; when `r` is `a`, a `/` and `b` with no `/` in `a`, the group name is
`a` and the key is all of `b`, and `ServeHTTP` answers 404 when no group is
registered under `a`, fails as `Get(b)` of that group fails, and otherwise
answers 200 or 500 with the group's new state stored; and every response it
writes has status 400 exactly when `r` holds no `/`. -/
theorem C17_serve_status_of_path (Marshal : pb.Response → Except Error (List UInt8))
    (h : HTTPPool) (groups : List (String × Group)) (path : String)
    (hpre : h.basePath.data.isPrefixOf path.data = true) :
    ('/' ∉ path.data.drop h.basePath.data.length →
      h.ServeHTTP Marshal groups path = .ok (httpError "错误请求" 400, groups)) ∧
    (∀ a b : List Char, path.data.drop h.basePath.data.length = a ++ '/' :: b → '/' ∉ a →
      (GetGroup groups (String.mk a) = none →
        h.ServeHTTP Marshal groups path =
          .ok (httpError ("没有该group: " ++ String.mk a) 404, groups)) ∧
      (∀ g f, GetGroup groups (String.mk a) = some g → g.Get (String.mk b) = .error f →
        h.ServeHTTP Marshal groups path = .error f) ∧
      (∀ g r g1, GetGroup groups (String.mk a) = some g → g.Get (String.mk b) = .ok (r, g1) →
        ∃ resp, h.ServeHTTP Marshal groups path = .ok (resp, setGroup groups (String.mk a) g1) ∧
          (resp.status = 200 ∨ resp.status = 500))) ∧
    (∀ resp groups1, h.ServeHTTP Marshal groups path = .ok (resp, groups1) →
      (resp.status = 400 ↔ '/' ∉ path.data.drop h.basePath.data.length)) := by
  refine ⟨ServeHTTP_no_slash Marshal h groups path hpre, ?_, ?_⟩
  · intro a b hr ha
    have hs := ServeHTTP_slash Marshal h groups path a b hpre hr ha
    refine ⟨?_, ?_, ?_⟩
    · intro hg
      rw [hs, hg]
    · intro g f hg hget
      rw [hs, hg]
      simp only [hget]
    · intro g r g1 hg hget
      obtain ⟨view, err⟩ := r
      rw [hs, hg]
      simp only [hget]
      cases err with
      | some e => exact ⟨_, rfl, Or.inr rfl⟩
      | none =>
        simp only
        cases hm : Marshal { Value := view.ByteSlice } with
        | error e => exact ⟨_, rfl, Or.inr rfl⟩
        | ok body => exact ⟨_, rfl, Or.inl rfl⟩
  · intro resp groups1 hs
    rcases split_cases (path.data.drop h.basePath.data.length) with hno | ⟨a, b, hr, ha⟩
    · rw [ServeHTTP_no_slash Marshal h groups path hpre hno] at hs
      simp only [Except.ok.injEq, Prod.mk.injEq] at hs
      constructor
      · intro _; exact hno
      · intro _; rw [← hs.1]; rfl
    · have hyes : ¬ '/' ∉ path.data.drop h.basePath.data.length := by
        rw [hr]; simp
      rcases ServeHTTP_slash_status Marshal h groups path a b hpre hr ha resp groups1 hs with
        ⟨_, h404⟩ | ⟨_, _, _, _, _, _, h200 | h500⟩
      · constructor
        · intro h400; omega
        · intro hno; exact absurd hno hyes
      · constructor
        · intro h400; omega
        · intro hno; exact absurd hno hyes
      · constructor
        · intro h400; omega
        · intro hno; exact absurd hno hyes

/-- Witness of C17: on the sample pool the path `/_gocache/scores` is answered
with 400, and the path `/_gocache/names/a/b`, whose group `names` is not
registered, with 404. -/
theorem C17_serve_status_of_path_witness :
    samplePool.ServeHTTP rawMarshal sampleGroups "/_gocache/scores" =
      .ok (httpError "错误请求" 400, sampleGroups) ∧
    samplePool.ServeHTTP rawMarshal sampleGroups "/_gocache/names/a/b" =
      .ok (httpError ("没有该group: " ++ String.mk "names".data) 404, sampleGroups) :=
  ⟨(C17_serve_status_of_path rawMarshal samplePool sampleGroups "/_gocache/scores"
      (by decide)).1 (by decide),
   ((C17_serve_status_of_path rawMarshal samplePool sampleGroups "/_gocache/names/a/b"
      (by decide)).2.1 "names".data "a/b".data (by decide) (by decide)).1 rfl⟩

end gocache

/-! ## Theorems about concurrent callers of `Do` -/

namespace singleflight

theorem runSchedule_nil {α σ : Type}
    (progs : List (String × (σ → Except Fault ((Iface α × Option Error) × σ))))
    (s : Flight α σ) : runSchedule progs s [] = s := rfl

theorem runSchedule_cons {α σ : Type}
    (progs : List (String × (σ → Except Fault ((Iface α × Option Error) × σ))))
    (s : Flight α σ) (i : Nat) (rest : List Nat) :
    runSchedule progs s (i :: rest) = runSchedule progs (stepDo progs i s) rest := rfl

/-- The state `Flight.init` is a state of callers of one key. -/
theorem init_sameKeyInv {α σ : Type} (k : String) (w : σ) :
    SameKeyInv k (Flight.init w : Flight α σ) :=
  Or.inl ⟨rfl, rfl, rfl, rfl, fun _ => rfl⟩

/-- A step of a caller of the key `k` that overlaps the execution in flight
keeps `SameKeyInv`. -/
theorem stepDo_sameKeyInv {α σ : Type}
    (progs : List (String × (σ → Except Fault ((Iface α × Option Error) × σ))))
    (k : String) (i : Nat) (s : Flight α σ)
    (hk : ∀ key fn, progs[i]? = some (key, fn) → key = k)
    (hov : ∀ p, progs[i]? = some p → s.callers i = .start → s.deletes = 0)
    (hinv : SameKeyInv k s) : SameKeyInv k (stepDo progs i s) := by
  unfold stepDo
  cases hp : progs[i]? with
  | none => exact hinv
  | some p =>
    obtain ⟨key, fn⟩ := p
    have hkey : key = k := hk key fn hp
    subst hkey
    simp only
    rcases hinv with ⟨hc, hm, hf, hd, hall⟩ | ⟨r, hc, hm, hlen, hdone, hnd, huniq, hok⟩
    · rw [hall i]
      simp only [hm, List.lookup_nil, hc, List.nil_append, List.length_nil]
      refine Or.inr ⟨_, rfl, fun _ => rfl, by simp [hf], by simp, fun _ => hd, ?_, ?_⟩
      · intro a b ca cb ha hb
        simp only at ha hb
        have ha1 : a = i := by
          by_contra hne
          rw [Function.update_noteq hne, hall a] at ha
          cases ha
        have hb1 : b = i := by
          by_contra hne
          rw [Function.update_noteq hne, hall b] at hb
          cases hb
        rw [ha1, hb1]
      · intro j
        simp only
        by_cases hj : j = i
        · subst hj
          rw [Function.update_same]
          exact ⟨rfl, rfl, hf⟩
        · rw [Function.update_noteq hj, hall j]
          trivial
    · have hoki := hok i
      cases hci : s.callers i with
      | start =>
        have hd := hov _ hp hci
        simp only [hm hd, List.lookup_cons, beq_self_eq_true]
        refine Or.inr ⟨r, hc, fun _ => rfl, hlen, hdone, hnd, ?_, ?_⟩
        · intro a b ca cb ha hb
          simp only at ha hb
          have ha1 : a ≠ i := by
            intro h; subst h; rw [Function.update_same] at ha; cases ha
          have hb1 : b ≠ i := by
            intro h; subst h; rw [Function.update_same] at hb; cases hb
          rw [Function.update_noteq ha1] at ha
          rw [Function.update_noteq hb1] at hb
          exact huniq a b ca cb ha hb
        · intro j
          simp only
          by_cases hj : j = i
          · subst hj
            rw [Function.update_same]
            exact rfl
          · rw [Function.update_noteq hj]
            exact hok j
      | waiting c =>
        rw [hci] at hoki
        have hc0 : c = 0 := hoki
        subst hc0
        simp only [hc, List.getD_cons_zero]
        by_cases hdn : r.done = true
        · simp only [hdn, if_true]
          refine Or.inr ⟨r, rfl, hm, hlen, hdone, hnd, ?_, ?_⟩
          · intro a b ca cb ha hb
            simp only at ha hb
            have ha1 : a ≠ i := by
              intro h; subst h; rw [Function.update_same] at ha; cases ha
            have hb1 : b ≠ i := by
              intro h; subst h; rw [Function.update_same] at hb; cases hb
            rw [Function.update_noteq ha1] at ha
            rw [Function.update_noteq hb1] at hb
            exact huniq a b ca cb ha hb
          · intro j
            simp only
            by_cases hj : j = i
            · subst hj
              rw [Function.update_same]
              exact ⟨hdn, rfl, rfl⟩
            · rw [Function.update_noteq hj]
              exact hok j
        · simp only [hdn, if_false]
          exact Or.inr ⟨r, hc, hm, hlen, hdone, hnd, huniq, hok⟩
      | running c =>
        rw [hci] at hoki
        obtain ⟨hc0, hrd, hfr⟩ := hoki
        subst hc0
        have hother : ∀ j, j ≠ i → ∀ cj, s.callers j ≠ .running cj := by
          intro j hj cj hcj
          exact hj (huniq j i cj 0 hcj hci)
        cases hfn : fn s.world with
        | error f =>
          simp only
          refine Or.inr ⟨r, hc, hm, by simp [hfr], fun _ => by simp [hfr], hnd, ?_, ?_⟩
          · intro a b ca cb ha hb
            simp only at ha hb
            have ha1 : a = i := by
              by_contra hne
              rw [Function.update_noteq hne] at ha
              exact hother a hne ca ha
            subst ha1
            rw [Function.update_same] at ha
            cases ha
          · intro j
            simp only
            by_cases hj : j = i
            · subst hj
              rw [Function.update_same]
              trivial
            · rw [Function.update_noteq hj]
              have := hok j
              cases hcj : s.callers j with
              | running cj => exact absurd hcj (hother j hj cj)
              | start => trivial
              | waiting cj => rw [hcj] at this; exact this
              | ranFn cj => rw [hcj] at this; exact this
              | returned v e => rw [hcj] at this; exact this
              | faulted f => trivial
        | ok res =>
          obtain ⟨⟨v, e⟩, w1⟩ := res
          simp only [hc, List.getD_cons_zero, List.set_cons_zero]
          refine Or.inr ⟨_, rfl, hm, by simp [hfr], fun _ => by simp [hfr], ?_, ?_, ?_⟩
          · intro h; cases h
          · intro a b ca cb ha hb
            simp only at ha hb
            have ha1 : a = i := by
              by_contra hne
              rw [Function.update_noteq hne] at ha
              exact hother a hne ca ha
            subst ha1
            rw [Function.update_same] at ha
            cases ha
          · intro j
            simp only
            by_cases hj : j = i
            · subst hj
              rw [Function.update_same]
              exact ⟨rfl, rfl⟩
            · rw [Function.update_noteq hj]
              have := hok j
              cases hcj : s.callers j with
              | running cj => exact absurd hcj (hother j hj cj)
              | start => trivial
              | waiting cj => rw [hcj] at this; exact this
              | ranFn cj => rw [hcj] at this; exact ⟨this.1, rfl⟩
              | returned v1 e1 =>
                rw [hcj] at this
                have h1 : r.done = true := this.1
                rw [hrd] at h1
                cases h1
              | faulted f => trivial
      | ranFn c =>
        rw [hci] at hoki
        obtain ⟨hc0, hrd⟩ := hoki
        subst hc0
        simp only [hc, List.getD_cons_zero]
        refine Or.inr ⟨r, rfl, ?_, hlen, hdone, ?_, ?_, ?_⟩
        · intro h; simp at h
        · intro h; rw [hrd] at h; cases h
        · intro a b ca cb ha hb
          simp only at ha hb
          have ha1 : a ≠ i := by
            intro h; subst h; rw [Function.update_same] at ha; cases ha
          have hb1 : b ≠ i := by
            intro h; subst h; rw [Function.update_same] at hb; cases hb
          rw [Function.update_noteq ha1] at ha
          rw [Function.update_noteq hb1] at hb
          exact huniq a b ca cb ha hb
        · intro j
          simp only
          by_cases hj : j = i
          · subst hj
            rw [Function.update_same]
            exact ⟨hrd, rfl, rfl⟩
          · rw [Function.update_noteq hj]
            exact hok j
      | returned v e => exact Or.inr ⟨r, hc, hm, hlen, hdone, hnd, huniq, hok⟩
      | faulted f => exact Or.inr ⟨r, hc, hm, hlen, hdone, hnd, huniq, hok⟩

/-- Every schedule whose calls overlap the execution in flight keeps
`SameKeyInv`. -/
theorem runSchedule_sameKeyInv {α σ : Type}
    (progs : List (String × (σ → Except Fault ((Iface α × Option Error) × σ))))
    (k : String) (hk : ∀ key ∈ progs.map Prod.fst, key = k) (sched : List Nat) :
    ∀ s : Flight α σ, SameKeyInv k s → overlapping progs s sched = true →
      SameKeyInv k (runSchedule progs s sched) := by
  induction sched with
  | nil => intro s hinv _; exact hinv
  | cons i rest ih =>
    intro s hinv hov
    rw [runSchedule_cons]
    simp only [overlapping, Bool.and_eq_true] at hov
    obtain ⟨hnow, hrest⟩ := hov
    refine ih _ (stepDo_sameKeyInv progs k i s ?_ ?_ hinv) hrest
    · intro key fn hp
      exact hk key (List.mem_map.mpr ⟨(key, fn), List.getElem?_mem hp, rfl⟩)
    · intro p hp hstart
      simp only [hp, hstart, beq_iff_eq] at hnow
      exact hnow

theorem lookup_filter_none (l : List (String × Nat)) (a key : String)
    (h : l.lookup a = none) : (l.filter (fun p => p.1 != key)).lookup a = none := by
  induction l with
  | nil => rfl
  | cons x xs ih =>
    obtain ⟨k1, c1⟩ := x
    simp only [List.lookup_cons] at h
    cases hx : (a == k1) with
    | true => simp [hx] at h
    | false =>
      simp only [hx] at h
      simp only [List.filter_cons]
      split
      · simp only [List.lookup_cons, hx]
        exact ih h
      · exact ih h

/-- Callers of `progs` with distinct keys: two positions with the same key are
one position. -/
theorem key_inj {α σ : Type}
    (progs : List (String × (σ → Except Fault ((Iface α × Option Error) × σ))))
    (hnd : (progs.map Prod.fst).Nodup) (i j : Nat) (ki kj : String)
    (fi fj : σ → Except Fault ((Iface α × Option Error) × σ))
    (hi : progs[i]? = some (ki, fi)) (hj : progs[j]? = some (kj, fj)) (h : ki = kj) :
    i = j := by
  obtain ⟨hi1, hi2⟩ := List.getElem?_eq_some.mp hi
  obtain ⟨hj1, hj2⟩ := List.getElem?_eq_some.mp hj
  have hi3 : i < (progs.map Prod.fst).length := by simpa using hi1
  have hj3 : j < (progs.map Prod.fst).length := by simpa using hj1
  have e1 : (progs.map Prod.fst)[i] = ki := by simp [hi2]
  have e2 : (progs.map Prod.fst)[j] = kj := by simp [hj2]
  exact (List.Nodup.getElem_inj_iff hnd).mp (by rw [e1, e2, h])

theorem distinctOk_congr {α : Type} (c : Caller α) (n n1 : Nat) (free free1 : Prop)
    (hn : n = n1) (hf : free → free1) (h : c.distinctOk n free) : c.distinctOk n1 free1 := by
  subst hn
  cases c with
  | start => exact ⟨h.1, hf h.2⟩
  | waiting c => exact h
  | running c => exact h
  | ranFn c => exact h
  | returned v e => exact h
  | faulted f => exact h

/-- The state `Flight.init` is a state of callers with distinct keys. -/
theorem init_distinctKeyInv {α σ : Type}
    (progs : List (String × (σ → Except Fault ((Iface α × Option Error) × σ)))) (w : σ) :
    DistinctKeyInv progs (Flight.init w : Flight α σ) := by
  refine ⟨?_, ?_⟩
  · intro j hj
    cases hj
  · intro i
    exact ⟨rfl, fun _ _ _ => rfl⟩

/-- A step of a caller keeps `DistinctKeyInv` when the keys are distinct. -/
theorem stepDo_distinctKeyInv {α σ : Type}
    (progs : List (String × (σ → Except Fault ((Iface α × Option Error) × σ))))
    (hnd : (progs.map Prod.fst).Nodup) (i : Nat) (s : Flight α σ)
    (hinv : DistinctKeyInv progs s) : DistinctKeyInv progs (stepDo progs i s) := by
  unfold stepDo
  cases hp : progs[i]? with
  | none => exact hinv
  | some p =>
    obtain ⟨key, fn⟩ := p
    obtain ⟨hmem, hok⟩ := hinv
    have hi : i < progs.length := (List.getElem?_eq_some.mp hp).1
    have hoki := hok i
    have hcount : ∀ j, j ≠ i → (s.fnRuns ++ [i]).count j = s.fnRuns.count j := by
      intro j hj
      rw [List.count_append, List.count_singleton]
      have : (i == j) = false := by simpa using fun h : i = j => hj h.symm
      simp [this]
    have hmem1 : ∀ j ∈ s.fnRuns ++ [i], j < progs.length := by
      intro j hj
      rcases List.mem_append.mp hj with h | h
      · exact hmem j h
      · rw [List.mem_singleton.mp h]; exact hi
    simp only
    cases hci : s.callers i with
    | start =>
      rw [hci] at hoki
      obtain ⟨hc0, hfree⟩ := hoki
      simp only [hfree key fn hp]
      refine ⟨hmem, ?_⟩
      intro j
      simp only
      by_cases hj : j = i
      · subst hj
        rw [Function.update_same]
        exact hc0
      · rw [Function.update_noteq hj]
        refine distinctOk_congr _ _ _ _ _ rfl ?_ (hok j)
        intro hf kj fj hpj
        have hne : (kj == key) = false := by
          have : kj ≠ key := fun h => hj (key_inj progs hnd j i kj key fj fn hpj hp h)
          simpa using this
        simp only [List.lookup_cons, hne]
        exact hf kj fj hpj
    | waiting c =>
      rw [hci] at hoki
      exact absurd hoki (by intro h; exact h)
    | running c =>
      rw [hci] at hoki
      have hc0 : s.fnRuns.count i = 0 := hoki
      have hself : (s.fnRuns ++ [i]).count i = 1 := by
        rw [List.count_append, List.count_singleton, hc0]
        simp
      cases hfn : fn s.world with
      | error f =>
        simp only
        refine ⟨hmem1, ?_⟩
        intro j
        simp only
        by_cases hj : j = i
        · subst hj
          rw [Function.update_same]
          exact hself
        · rw [Function.update_noteq hj]
          exact distinctOk_congr _ _ _ _ _ (hcount j hj).symm (fun h => h) (hok j)
      | ok res =>
        obtain ⟨⟨v, e⟩, w1⟩ := res
        simp only
        refine ⟨hmem1, ?_⟩
        intro j
        simp only
        by_cases hj : j = i
        · subst hj
          rw [Function.update_same]
          exact hself
        · rw [Function.update_noteq hj]
          exact distinctOk_congr _ _ _ _ _ (hcount j hj).symm (fun h => h) (hok j)
    | ranFn c =>
      rw [hci] at hoki
      have hc1 : s.fnRuns.count i = 1 := hoki
      refine ⟨hmem, ?_⟩
      intro j
      simp only
      by_cases hj : j = i
      · subst hj
        rw [Function.update_same]
        exact hc1
      · rw [Function.update_noteq hj]
        refine distinctOk_congr _ _ _ _ _ rfl ?_ (hok j)
        intro hf kj fj hpj
        exact lookup_filter_none _ _ _ (hf kj fj hpj)
    | returned v e => exact ⟨hmem, hok⟩
    | faulted f => exact ⟨hmem, hok⟩

/-- Every schedule keeps `DistinctKeyInv` when the keys are distinct. -/
theorem runSchedule_distinctKeyInv {α σ : Type}
    (progs : List (String × (σ → Except Fault ((Iface α × Option Error) × σ))))
    (hnd : (progs.map Prod.fst).Nodup) (sched : List Nat) :
    ∀ s : Flight α σ, DistinctKeyInv progs s → DistinctKeyInv progs (runSchedule progs s sched) := by
  induction sched with
  | nil => intro s hinv; exact hinv
  | cons i rest ih =>
    intro s hinv
    rw [runSchedule_cons]
    exact ih _ (stepDo_distinctKeyInv progs hnd i s hinv)

/-- With closures that return and add one to a counter of the shared state,
the counter has grown by the number of calls of `fn`. -/
theorem stepDo_counter {α σ : Type}
    (progs : List (String × (σ → Except Fault ((Iface α × Option Error) × σ))))
    (count : σ → Nat)
    (hinc : ∀ p ∈ progs, ∀ w, ∃ r w1, p.2 w = .ok (r, w1) ∧ count w1 = count w + 1)
    (i : Nat) (s : Flight α σ) (c0 : Nat) (h : count s.world = c0 + s.fnRuns.length) :
    count (stepDo progs i s).world = c0 + (stepDo progs i s).fnRuns.length := by
  unfold stepDo
  cases hp : progs[i]? with
  | none => exact h
  | some p =>
    obtain ⟨key, fn⟩ := p
    simp only
    cases hci : s.callers i with
    | start =>
      simp only
      split <;> exact h
    | waiting c =>
      simp only
      split <;> exact h
    | running c =>
      obtain ⟨r, w1, hfn, hw⟩ := hinc (key, fn) (List.getElem?_mem hp) s.world
      simp only at hfn
      obtain ⟨v, e⟩ := r
      simp only [hfn, List.length_append, List.length_singleton]
      omega
    | ranFn c => exact h
    | returned v e => exact h
    | faulted f => exact h

theorem runSchedule_counter {α σ : Type}
    (progs : List (String × (σ → Except Fault ((Iface α × Option Error) × σ))))
    (count : σ → Nat)
    (hinc : ∀ p ∈ progs, ∀ w, ∃ r w1, p.2 w = .ok (r, w1) ∧ count w1 = count w + 1)
    (c0 : Nat) (sched : List Nat) :
    ∀ s : Flight α σ, count s.world = c0 + s.fnRuns.length →
      count (runSchedule progs s sched).world = c0 + (runSchedule progs s sched).fnRuns.length := by
  induction sched with
  | nil => intro s h; exact h
  | cons i rest ih =>
    intro s h
    rw [runSchedule_cons]
    exact ih _ (stepDo_counter progs count hinc i s c0 h)

end singleflight

namespace singleflight

theorem runSchedule_append {α σ : Type}
    (progs : List (String × (σ → Except Fault ((Iface α × Option Error) × σ))))
    (s : Flight α σ) (a b : List Nat) :
    runSchedule progs s (a ++ b) = runSchedule progs (runSchedule progs s a) b := by
  simp [runSchedule, List.foldl_append]

theorem overlapping_append {α σ : Type}
    (progs : List (String × (σ → Except Fault ((Iface α × Option Error) × σ))))
    (a b : List Nat) : ∀ s : Flight α σ,
    overlapping progs s (a ++ b) =
      (overlapping progs s a && overlapping progs (runSchedule progs s a) b) := by
  induction a with
  | nil => intro s; simp [overlapping, runSchedule_nil]
  | cons i rest ih =>
    intro s
    simp only [List.cons_append, overlapping, runSchedule_cons, List.append_eq, ih,
      Bool.and_assoc]

/-- The `n + 1` first callers of one key enter `Do` one after the other: the
first publishes a record and is about to call `fn`, the others wait for that
record, and every entry overlaps. -/
theorem enter_all {α σ : Type}
    (progs : List (String × (σ → Except Fault ((Iface α × Option Error) × σ))))
    (k : String) (hk : ∀ key ∈ progs.map Prod.fst, key = k) (w0 : σ) (n : Nat)
    (hn : n + 1 ≤ progs.length) :
    runSchedule progs (Flight.init w0) (List.range (n + 1)) =
      { m := [(k, 0)], calls := [{ (newCall : call α) with done := false }], world := w0,
        callers := fun i => if i = 0 then .running 0 else if i < n + 1 then .waiting 0 else .start,
        fnRuns := [], deletes := 0 } ∧
    overlapping progs (Flight.init w0) (List.range (n + 1)) = true := by
  induction n with
  | zero =>
    have h0 : 0 < progs.length := by omega
    obtain ⟨⟨key, fn⟩, hp⟩ : ∃ p, progs[0]? = some p := ⟨_, List.getElem?_eq_getElem h0⟩
    have hkey : key = k :=
      hk key (List.mem_map.mpr ⟨(key, fn), List.getElem?_mem hp, rfl⟩)
    subst hkey
    have hr : List.range (0 + 1) = [0] := rfl
    refine ⟨?_, ?_⟩
    · rw [hr]
      simp only [runSchedule_cons, runSchedule_nil, stepDo, hp, Flight.init,
        List.lookup_nil, List.nil_append, List.length_nil]
      congr 1
      funext i
      by_cases hi : i = 0
      · subst hi
        simp
      · simp [hi, Function.update_noteq hi]
    · rw [hr]
      simp [overlapping, hp, Flight.init]
  | succ n ih =>
    obtain ⟨hrun, hov⟩ := ih (by omega)
    have h0 : n + 1 < progs.length := by omega
    obtain ⟨⟨key, fn⟩, hp⟩ : ∃ p, progs[n + 1]? = some p :=
      ⟨_, List.getElem?_eq_getElem h0⟩
    have hkey : key = k :=
      hk key (List.mem_map.mpr ⟨(key, fn), List.getElem?_mem hp, rfl⟩)
    subst hkey
    refine ⟨?_, ?_⟩
    · rw [List.range_succ, runSchedule_append, hrun]
      simp only [runSchedule_cons, runSchedule_nil, stepDo, hp, List.lookup_cons,
        beq_self_eq_true, Nat.add_one_ne_zero, if_false, lt_self_iff_false]
      congr 1
      funext i
      by_cases hi : i = n + 1
      · subst hi
        simp
      · rw [Function.update_noteq hi]
        by_cases hi0 : i = 0
        · simp [hi0]
        · simp only [hi0, if_false]
          by_cases hlt : i < n + 1
          · simp [hlt, Nat.lt_succ_of_lt hlt]
          · have : ¬ i < n + 1 + 1 := by omega
            simp [hlt, this]
    · rw [List.range_succ, overlapping_append, hov, hrun]
      simp [overlapping, hp]

/-- After all `n` callers of one key have entered and the first has run `fn`
and deleted the record, the `j` first callers take one more step: each caller
that waited reads the record, which is done, and returns its fields; no step
is an entry. -/
theorem read_all {α σ : Type}
    (progs : List (String × (σ → Except Fault ((Iface α × Option Error) × σ))))
    (w1 : σ) (x : Iface α) (n : Nat) (hn : n ≤ progs.length) (j : Nat) (hj : j ≤ n) :
    runSchedule progs
        { m := [], calls := [{ done := true, val := x, err := none }], world := w1,
          callers := fun i => if i = 0 then .returned x none
            else if i < n then .waiting 0 else .start,
          fnRuns := [0], deletes := 1 } (List.range j) =
      { m := [], calls := [{ done := true, val := x, err := none }], world := w1,
        callers := fun i => if i = 0 then .returned x none
          else if i < j then .returned x none
          else if i < n then .waiting 0 else .start,
        fnRuns := [0], deletes := 1 } ∧
    overlapping progs
        { m := [], calls := [{ done := true, val := x, err := none }], world := w1,
          callers := fun i => if i = 0 then .returned x none
            else if i < n then .waiting 0 else .start,
          fnRuns := [0], deletes := 1 } (List.range j) = true := by
  induction j with
  | zero =>
    refine ⟨?_, rfl⟩
    rw [List.range_zero, runSchedule_nil]
    congr 1
  | succ j ih =>
    obtain ⟨hrun, hov⟩ := ih (by omega)
    have h0 : j < progs.length := by omega
    obtain ⟨⟨key, fn⟩, hp⟩ : ∃ p, progs[j]? = some p := ⟨_, List.getElem?_eq_getElem h0⟩
    refine ⟨?_, ?_⟩
    · rw [List.range_succ, runSchedule_append, hrun]
      by_cases hj0 : j = 0
      · subst hj0
        simp only [runSchedule_cons, runSchedule_nil, stepDo, hp, if_true]
        congr 1
        funext i
        by_cases hi0 : i = 0
        · simp [hi0]
        · have : ¬ i < 0 + 1 := by omega
          simp [hi0, this]
      · have hjn : j < n := by omega
        simp only [runSchedule_cons, runSchedule_nil, stepDo, hp, hj0, if_false,
          lt_self_iff_false, hjn, if_true, List.getD_cons_zero]
        congr 1
        funext i
        by_cases hi : i = j
        · subst hi
          simp [hj0]
        · rw [Function.update_noteq hi]
          by_cases hi0 : i = 0
          · simp [hi0]
          · simp only [hi0, if_false]
            by_cases hlt : i < j
            · simp [hlt, Nat.lt_succ_of_lt hlt]
            · have : ¬ i < j + 1 := by omega
              simp [hlt, this]
    · rw [List.range_succ, overlapping_append, hov, hrun]
      by_cases hj0 : j = 0
      · subst hj0
        simp [overlapping, hp]
      · have hjn : j < n := by omega
        simp [overlapping, hp, hj0, hjn]

/-- All callers of one key can overlap and return: when the `fn` of the first
caller returns `(v, e)`, the schedule in which all callers enter, the first
calls `fn` and deletes the record, and then every caller takes one more step,
is overlapping, calls `fn` once, and every caller returns
`(Iface.ofError e, nil)`. -/
theorem overlapping_run_returns {α σ : Type}
    (progs : List (String × (σ → Except Fault ((Iface α × Option Error) × σ))))
    (k : String) (hk : ∀ key ∈ progs.map Prod.fst, key = k) (w0 w1 : σ)
    (fn : σ → Except Fault ((Iface α × Option Error) × σ)) (v : Iface α) (e : Option Error)
    (hp : progs[0]? = some (k, fn)) (hfn : fn w0 = .ok ((v, e), w1)) :
    overlapping progs (Flight.init w0)
        (List.range progs.length ++ [0, 0] ++ List.range progs.length) = true ∧
    (runSchedule progs (Flight.init w0)
        (List.range progs.length ++ [0, 0] ++ List.range progs.length)).fnRuns = [0] ∧
    (runSchedule progs (Flight.init w0)
        (List.range progs.length ++ [0, 0] ++ List.range progs.length)).world = w1 ∧
    ∀ i, i < progs.length →
      (runSchedule progs (Flight.init w0)
        (List.range progs.length ++ [0, 0] ++ List.range progs.length)).callers i =
        .returned (Iface.ofError e) none := by
  obtain ⟨hlen, _⟩ := List.getElem?_eq_some.mp hp
  obtain ⟨n, hn⟩ : ∃ n, progs.length = n + 1 := ⟨progs.length - 1, by omega⟩
  obtain ⟨hrun1, hov1⟩ := enter_all progs k hk w0 n (by omega)
  obtain ⟨hrun3, hov3⟩ :=
    read_all progs w1 (Iface.ofError e) (n + 1) (by omega) (n + 1) (le_refl _)
  have hmid : runSchedule progs
      { m := [(k, 0)], calls := [{ (newCall : call α) with done := false }], world := w0,
        callers := fun i => if i = 0 then .running 0
          else if i < n + 1 then .waiting 0 else .start,
        fnRuns := [], deletes := 0 } [0, 0] =
      { m := [], calls := [{ done := true, val := Iface.ofError e, err := none }], world := w1,
        callers := fun i => if i = 0 then .returned (Iface.ofError e) none
          else if i < n + 1 then .waiting 0 else .start,
        fnRuns := [0], deletes := 1 } := by
    simp only [runSchedule_cons, runSchedule_nil, stepDo, hp, if_true, hfn,
      List.getD_cons_zero, List.set_cons_zero, Function.update_same, List.nil_append,
      newCall]
    congr 1
    · simp
    · funext i
      by_cases hi0 : i = 0
      · subst hi0
        simp
      · simp [hi0, Function.update_noteq hi0]
  have hovmid : overlapping progs
      { m := [(k, 0)], calls := [{ (newCall : call α) with done := false }], world := w0,
        callers := fun i => if i = 0 then .running 0
          else if i < n + 1 then .waiting 0 else .start,
        fnRuns := [], deletes := 0 } [0, 0] = true := by
    simp [overlapping, hp, stepDo, hfn]
  have hrun : runSchedule progs (Flight.init w0)
      (List.range progs.length ++ [0, 0] ++ List.range progs.length) =
      { m := [], calls := [{ done := true, val := Iface.ofError e, err := none }], world := w1,
        callers := fun i => if i = 0 then .returned (Iface.ofError e) none
          else if i < n + 1 then .returned (Iface.ofError e) none
          else if i < n + 1 then .waiting 0 else .start,
        fnRuns := [0], deletes := 1 } := by
    rw [hn, runSchedule_append, runSchedule_append, hrun1, hmid, hrun3]
  refine ⟨?_, ?_, ?_, ?_⟩
  · rw [hn, overlapping_append, overlapping_append, hov1, hrun1, hovmid,
      runSchedule_append, hrun1, hmid, hov3]
    rfl
  · rw [hrun]
  · rw [hrun]
  · intro i hi
    rw [hrun]
    simp only
    by_cases hi0 : i = 0
    · simp [hi0]
    · have : i < n + 1 := by omega
      simp [hi0, this]

end singleflight

namespace singleflight

/-- One caller alone takes its three steps: it returns the pair that the
method `Do` returns on an empty registry, with the same state of `fn`, and
leaves the registry empty. -/
theorem runSchedule_alone {α σ : Type} (key : String)
    (fn : σ → Except Fault ((Iface α × Option Error) × σ)) (w w1 : σ) (v : Iface α)
    (e : Option Error) (hfn : fn w = .ok ((v, e), w1)) :
    (runSchedule [(key, fn)] (Flight.init w) [0, 0, 0]).callers 0 =
      .returned (Iface.ofError e) none ∧
    (runSchedule [(key, fn)] (Flight.init w) [0, 0, 0]).m = [] ∧
    (runSchedule [(key, fn)] (Flight.init w) [0, 0, 0]).world = w1 ∧
    Do { m := [] } key fn w = .ok ((Iface.ofError e, none), { m := [] }, w1) := by
  refine ⟨?_, ?_, ?_, ?_⟩
  · simp [runSchedule, stepDo, Flight.init, hfn, newCall]
  · simp [runSchedule, stepDo, Flight.init, hfn, newCall]
  · simp [runSchedule, stepDo, Flight.init, hfn, newCall]
  · simp [Do, hfn, newCall]

/-- Without overlap `fn` runs again: when the second caller of `Do("k", fn)`
enters after the first has deleted its record, it finds no record and calls
`fn` itself. -/
theorem runSchedule_without_overlap :
    overlapping sameKeyCallers (Flight.init 0) [0, 0, 0, 1, 1, 1] = false ∧
    (runSchedule sameKeyCallers (Flight.init 0) [0, 0, 0, 1, 1, 1]).fnRuns = [0, 1] ∧
    (runSchedule sameKeyCallers (Flight.init 0) [0, 0, 0, 1, 1, 1]).world = 2 := by
  decide

/-- C18: callers of `Do` on one `Group`, caller `i` calling `Do(key, fn)` for
the pair at position `i` of `progs`, their sections of `Do` interleaved by an
arbitrary schedule.  When all callers use one key and every call overlaps the
execution in flight (a caller enters `Do` only while no record has been
deleted), `fn` is called at most once, any two callers that have returned have
returned the same pair, and a caller has returned only after the one call of
`fn`.  When the keys are distinct, every caller calls its own `fn` at most
once, nobody waits, a caller that has returned has called its `fn` once, and
when all have returned `fn` has been called once per key.  A counter that every
`fn` increments has grown by the number of calls of `fn`: by 1 for one key, by
the number of keys for distinct keys.  And the calls of one key can all overlap
and return: when the `fn` of the first caller returns, the schedule in which
all callers enter, the first calls `fn` and deletes the record, and every
caller then reads it, is overlapping and lets every caller return the same
pair after one call of `fn`. -/
theorem C18_concurrent_do_runs_fn_once {α σ : Type}
    (progs : List (String × (σ → Except Fault ((Iface α × Option Error) × σ))))
    (w0 : σ) (sched : List Nat) :
    (∀ k : String, (∀ key ∈ progs.map Prod.fst, key = k) →
      overlapping progs (Flight.init w0) sched = true →
      (runSchedule progs (Flight.init w0) sched).fnRuns.length ≤ 1 ∧
      (∀ (i j : Nat) (v v1 : Iface α) (e e1 : Option Error),
        (runSchedule progs (Flight.init w0) sched).callers i = .returned v e →
        (runSchedule progs (Flight.init w0) sched).callers j = .returned v1 e1 →
        v = v1 ∧ e = e1) ∧
      (∀ (i : Nat) (v : Iface α) (e : Option Error),
        (runSchedule progs (Flight.init w0) sched).callers i = .returned v e →
        (runSchedule progs (Flight.init w0) sched).fnRuns.length = 1)) ∧
    ((progs.map Prod.fst).Nodup →
      (∀ i : Nat, (runSchedule progs (Flight.init w0) sched).fnRuns.count i ≤ 1) ∧
      (∀ i c : Nat, (runSchedule progs (Flight.init w0) sched).callers i ≠ .waiting c) ∧
      (∀ (i : Nat) (v : Iface α) (e : Option Error),
        (runSchedule progs (Flight.init w0) sched).callers i = .returned v e →
        (runSchedule progs (Flight.init w0) sched).fnRuns.count i = 1) ∧
      ((∀ i : Nat, i < progs.length → ∃ (v : Iface α) (e : Option Error),
          (runSchedule progs (Flight.init w0) sched).callers i = .returned v e) →
        (runSchedule progs (Flight.init w0) sched).fnRuns.length = progs.length)) ∧
    (∀ count : σ → Nat,
      (∀ p ∈ progs, ∀ w, ∃ r w1, p.2 w = .ok (r, w1) ∧ count w1 = count w + 1) →
      count (runSchedule progs (Flight.init w0) sched).world =
        count w0 + (runSchedule progs (Flight.init w0) sched).fnRuns.length) ∧
    (∀ (k : String) (fn : σ → Except Fault ((Iface α × Option Error) × σ)) (v : Iface α)
        (e : Option Error) (w1 : σ),
      (∀ key ∈ progs.map Prod.fst, key = k) → progs[0]? = some (k, fn) →
      fn w0 = .ok ((v, e), w1) →
      overlapping progs (Flight.init w0)
        (List.range progs.length ++ [0, 0] ++ List.range progs.length) = true ∧
      (runSchedule progs (Flight.init w0)
        (List.range progs.length ++ [0, 0] ++ List.range progs.length)).fnRuns = [0] ∧
      ∀ i : Nat, i < progs.length →
        (runSchedule progs (Flight.init w0)
          (List.range progs.length ++ [0, 0] ++ List.range progs.length)).callers i =
          .returned (Iface.ofError e) none) := by
  refine ⟨?_, ?_, ?_, ?_⟩
  · intro k hk hov
    have hinv := runSchedule_sameKeyInv progs k hk sched _ (init_sameKeyInv k w0) hov
    rcases hinv with ⟨_, _, hf, _, hall⟩ | ⟨r, _, _, hlen, hdone, _, _, hok⟩
    · refine ⟨by simp [hf], ?_, ?_⟩
      · intro i j v v1 e e1 hi _
        rw [hall i] at hi
        cases hi
      · intro i v e hi
        rw [hall i] at hi
        cases hi
    · refine ⟨hlen, ?_, ?_⟩
      · intro i j v v1 e e1 hi hj
        have h1 := hok i
        have h2 := hok j
        rw [hi] at h1
        rw [hj] at h2
        obtain ⟨_, hv, he⟩ := h1
        obtain ⟨_, hv1, he1⟩ := h2
        exact ⟨hv.trans hv1.symm, he.trans he1.symm⟩
      · intro i v e hi
        have h1 := hok i
        rw [hi] at h1
        exact hdone h1.1
  · intro hnd
    obtain ⟨hmem, hok⟩ :=
      runSchedule_distinctKeyInv progs hnd sched _ (init_distinctKeyInv progs w0)
    have hle : ∀ i : Nat, (runSchedule progs (Flight.init w0) sched).fnRuns.count i ≤ 1 := by
      intro i
      have h := hok i
      cases hc : (runSchedule progs (Flight.init w0) sched).callers i with
      | start => rw [hc] at h; exact le_of_eq_of_le h.1 (Nat.zero_le 1)
      | waiting c => rw [hc] at h; exact absurd h (by intro h; exact h)
      | running c =>
        rw [hc] at h
        have h0 : (runSchedule progs (Flight.init w0) sched).fnRuns.count i = 0 := h
        omega
      | ranFn c =>
        rw [hc] at h
        have h0 : (runSchedule progs (Flight.init w0) sched).fnRuns.count i = 1 := h
        omega
      | returned v e =>
        rw [hc] at h
        have h0 : (runSchedule progs (Flight.init w0) sched).fnRuns.count i = 1 := h
        omega
      | faulted f =>
        rw [hc] at h
        have h0 : (runSchedule progs (Flight.init w0) sched).fnRuns.count i = 1 := h
        omega
    have hret : ∀ (i : Nat) (v : Iface α) (e : Option Error),
        (runSchedule progs (Flight.init w0) sched).callers i = .returned v e →
        (runSchedule progs (Flight.init w0) sched).fnRuns.count i = 1 := by
      intro i v e hi
      have h := hok i
      rw [hi] at h
      exact h
    refine ⟨hle, ?_, hret, ?_⟩
    · intro i c hc
      have h := hok i
      rw [hc] at h
      exact h
    · intro hall
      have hnodup : (runSchedule progs (Flight.init w0) sched).fnRuns.Nodup :=
        List.nodup_iff_count_le_one.mpr hle
      have hperm : List.Perm (runSchedule progs (Flight.init w0) sched).fnRuns
          (List.range progs.length) := by
        refine (List.perm_ext_iff_of_nodup hnodup (List.nodup_range _)).mpr ?_
        intro a
        constructor
        · intro ha
          exact List.mem_range.mpr (hmem a ha)
        · intro ha
          obtain ⟨v, e, hr⟩ := hall a (List.mem_range.mp ha)
          have := hret a v e hr
          exact List.one_le_count_iff.mp (by omega)
      rw [hperm.length_eq, List.length_range]
  · intro count hinc
    exact runSchedule_counter progs count hinc (count w0) sched _ (by simp [Flight.init])
  · intro k fn v e w1 hk hp hfn
    obtain ⟨h1, h2, _, h4⟩ := overlapping_run_returns progs k hk w0 w1 fn v e hp hfn
    exact ⟨h1, h2, h4⟩

/-- Witness of C18: three callers of `Do("k", fn)` whose `fn` increments a
counter, interleaved so that all enter before the record is deleted: `fn` runs
once, all three return the same pair and the counter is 1.  Three callers with
the keys `a`, `b`, `c` under the same schedule: `fn` runs three times and the
counter is 3. -/
theorem C18_concurrent_do_runs_fn_once_witness :
    (runSchedule sameKeyCallers (Flight.init 0) [0, 1, 2, 0, 1, 0, 2, 1, 2]).fnRuns.length ≤ 1 ∧
    (runSchedule sameKeyCallers (Flight.init 0) [0, 1, 2, 0, 1, 0, 2, 1, 2]).callers 0 =
      .returned .nil none ∧
    (runSchedule sameKeyCallers (Flight.init 0) [0, 1, 2, 0, 1, 0, 2, 1, 2]).callers 1 =
      .returned .nil none ∧
    (runSchedule sameKeyCallers (Flight.init 0) [0, 1, 2, 0, 1, 0, 2, 1, 2]).callers 2 =
      .returned .nil none ∧
    (runSchedule sameKeyCallers (Flight.init 0) [0, 1, 2, 0, 1, 0, 2, 1, 2]).world = 1 ∧
    (runSchedule distinctKeyCallers (Flight.init 0) [0, 1, 2, 0, 1, 0, 2, 1, 2]).fnRuns.length =
      distinctKeyCallers.length ∧
    (runSchedule distinctKeyCallers (Flight.init 0) [0, 1, 2, 0, 1, 0, 2, 1, 2]).world = 3 ∧
    id (runSchedule distinctKeyCallers (Flight.init 0) [0, 1, 2, 0, 1, 0, 2, 1, 2]).world =
      id 0 + (runSchedule distinctKeyCallers (Flight.init 0)
        [0, 1, 2, 0, 1, 0, 2, 1, 2]).fnRuns.length ∧
    (∀ i : Nat, i < sameKeyCallers.length →
      (runSchedule sameKeyCallers (Flight.init 0)
        (List.range sameKeyCallers.length ++ [0, 0] ++ List.range sameKeyCallers.length)).callers
          i = .returned (Iface.ofError none) none) :=
  ⟨((C18_concurrent_do_runs_fn_once sameKeyCallers 0 [0, 1, 2, 0, 1, 0, 2, 1, 2]).1 "k"
      (by decide) (by decide)).1,
   by decide, by decide, by decide, by decide,
   ((C18_concurrent_do_runs_fn_once distinctKeyCallers 0 [0, 1, 2, 0, 1, 0, 2, 1, 2]).2.1
      (by decide)).2.2.2
      (by
        intro i hi
        have hi3 : i < 3 := hi
        interval_cases i
        · exact ⟨.nil, none, by decide⟩
        · exact ⟨.nil, none, by decide⟩
        · exact ⟨.nil, none, by decide⟩),
   by decide,
   (C18_concurrent_do_runs_fn_once distinctKeyCallers 0 [0, 1, 2, 0, 1, 0, 2, 1, 2]).2.2.1 id
      (by
        intro p hp w
        simp only [distinctKeyCallers, List.mem_cons, List.mem_singleton, List.not_mem_nil,
          or_false] at hp
        rcases hp with rfl | rfl | rfl <;> exact ⟨_, _, rfl, rfl⟩),
   ((C18_concurrent_do_runs_fn_once sameKeyCallers 0 []).2.2.2 "k"
      (countingFn (.val 7) none) (.val 7) none 1 (by decide) rfl rfl).2.2⟩

end singleflight
